import Mathlib

set_option linter.unusedSectionVars false

/-!
Gauss–Kronrod nodes and weights (`kronrodLaurieGautschi_MS.hpp`).

A shallow embedding of the five functions of `namespace Kronrod`:
`jacobiRecurrenceCoeff`, `jacobiRecurrenceCoeffZeroToOne`, `kronrodRecurrenceCoeff`,
`kronrod` and `multiPrecisionKronrod`.

Modelling decisions.

* The scalar type `K` stands for `double` in exact arithmetic.  The definitions only use
  `0`, `1`, casts of naturals, `+`, `-`, `*`, `/` (and `<` in the sort), so they can be run
  over a field (`ℚ`, `ℝ`) and over `Val ℚ`, which adds the single non-number `nan` that a
  division by zero produces and that every later operation propagates.
* `unsigned int` is 32 bits wide: every `unsigned` expression is reduced with `u32`; a
  conversion from `unsigned` to `int` is `i32`.  `size_t` and Eigen's `Index` are 64 bits
  wide and are not reduced.
* `int` expressions (`k + 1`, `j + 2`, `--k`, `max(i - 1, 0)`) are evaluated in `ℤ`; in every
  run considered below they stay far inside the 32-bit range.
* Eigen arrays are lists.  A coefficient access outside the array is the failed
  `eigen_assert` of Eigen's `operator()`: the run stops with `Fault.indexOutOfRange`.
  An assignment between arrays of different sizes stops with `Fault.sizeMismatch`.
* Loops are iterated by `whileLoop` with an iteration budget; a loop that is still running
  when the budget is used up yields `Fault.timeout`.
* `pow`, `tgamma`, `sqrt` (libm) and `Eigen::EigenSolver` are not part of the repository;
  they are parameters (`Libm`, `solver`).  The content of the two arrays that
  `jacobiRecurrenceCoeff` allocates without initialising is the parameter `junk`.
-/

namespace Kronrod

/-! ## Runs, machine integers, arrays -/

/-- Ways in which a run stops without returning a value. -/
inductive Fault where
  | indexOutOfRange
  | sizeMismatch
  | timeout
deriving DecidableEq, Repr

/-- Outcome of running a piece of the program. -/
inductive Run (σ : Type) where
  | ok (s : σ)
  | fault (f : Fault)
deriving DecidableEq, Repr

/-- Sequencing of runs: a fault ends the run. -/
def Run.bind {σ τ : Type} (r : Run σ) (f : σ → Run τ) : Run τ :=
  match r with
  | .ok s => f s
  | .fault e => .fault e

instance : Monad Run where
  pure := Run.ok
  bind := Run.bind

/-- Value of an `unsigned int` expression whose mathematical value is `x`. -/
def u32 (x : Int) : Nat := (x % 4294967296).toNat

/-- Conversion of an `unsigned int` value to `int` (two's complement). -/
def i32 (x : Nat) : Int := if x < 2147483648 then (x : Int) else (x : Int) - 4294967296

/-- Read `a(i)` of an Eigen vector. -/
def rd {K : Type} (a : List K) (i : Int) : Run K :=
  if i < 0 then .fault .indexOutOfRange
  else match a.get? i.toNat with
    | some v => .ok v
    | none => .fault .indexOutOfRange

/-- Write `a(i) = v` of an Eigen vector. -/
def wr {K : Type} (a : List K) (i : Int) (v : K) : Run (List K) :=
  if 0 ≤ i ∧ i.toNat < a.length then .ok (a.set i.toNat v) else .fault .indexOutOfRange

/-- The loop `while (cond) body`, run for at most `fuel` iterations. -/
def whileLoop {σ : Type} (cond : σ → Bool) (body : σ → Run σ) : Nat → σ → Run σ
  | 0, s => if cond s then .fault .timeout else .ok s
  | fuel + 1, s => if cond s then (body s).bind (whileLoop cond body fuel) else .ok s

/-- An `Array<double,Dynamic,2>`: rows of (column 0, column 1). -/
abbrev Table (K : Type) := List (K × K)

/-! ## Exact arithmetic with a non-number -/

/-- A double in exact arithmetic: a number, or the non-number a division by zero yields. -/
inductive Val (K : Type) where
  | fin (x : K)
  | nan
deriving DecidableEq, Repr

namespace Val

variable {K : Type}

/-- Lift of a binary operation: `nan` is absorbing. -/
def map₂ (f : K → K → K) : Val K → Val K → Val K
  | fin x, fin y => fin (f x y)
  | _, _ => nan

/-- Division; a zero divisor gives `nan`. -/
def div [Div K] [Zero K] [DecidableEq K] : Val K → Val K → Val K
  | fin x, fin y => if y = 0 then nan else fin (x / y)
  | _, _ => nan

instance [Zero K] : Zero (Val K) := ⟨fin 0⟩
instance [One K] : One (Val K) := ⟨fin 1⟩
instance [NatCast K] : NatCast (Val K) := ⟨fun n => fin (n : K)⟩
instance [Add K] : Add (Val K) := ⟨map₂ (· + ·)⟩
instance [Sub K] : Sub (Val K) := ⟨map₂ (· - ·)⟩
instance [Mul K] : Mul (Val K) := ⟨map₂ (· * ·)⟩
instance [Div K] [Zero K] [DecidableEq K] : Div (Val K) := ⟨div⟩

/-- Comparison `a < b` of doubles: false as soon as one side is `nan`. -/
def lt [LT K] : Val K → Val K → Prop
  | fin x, fin y => x < y
  | _, _ => False

instance [LT K] : LT (Val K) := ⟨lt⟩

instance [LT K] [DecidableRel (fun a b : K => a < b)] :
    DecidableRel (fun a b : Val K => a < b) := fun a b =>
  match a, b with
  | fin x, fin y => inferInstanceAs (Decidable (x < y))
  | fin _, nan => isFalse (fun h => h)
  | nan, _ => isFalse (fun h => by cases h)

end Val

/-! ## `kronrodRecurrenceCoeff` -/

section Extension

variable {K : Type} [Zero K] [Add K] [Sub K] [Mul K] [Div K]

/-- Local variables of `kronrodRecurrenceCoeff`. -/
structure St (K : Type) where
  alpha : List K
  beta : List K
  sig : List K
  sigT : List K
  temp : K
  j : Int
  k : Int
  l : Int
  m : Nat

/-- Body of `for (k = 0; k < floor(3 * nNodes / 2 + 1); ++k)`: `alpha(k) = ab0(k, 0)`. -/
def copyAlphaBody (ab0 : Table K) (s : St K) : Run (St K) := do
  let r ← rd ab0 s.k
  let a ← wr s.alpha s.k r.1
  pure { s with alpha := a, k := s.k + 1 }

/-- Body of `for (k = 0; k < ceil(3 * nNodes / 2 + 1); ++k)`: `beta(k) = ab0(k, 1)`. -/
def copyBetaBody (ab0 : Table K) (s : St K) : Run (St K) := do
  let r ← rd ab0 s.k
  let b ← wr s.beta s.k r.2
  pure { s with beta := b, k := s.k + 1 }

/-- The bound `3 * nNodes / 2 + 1` of both copy loops: an `unsigned` quotient, so that
`floor` and `ceil` of it are the value itself. -/
def copyBound (nNodes : Nat) : Nat := u32 ((u32 (3 * (nNodes : Int)) / 2 : Nat) + 1)

/-- Body of the inner loop of Loop 1 (`for (k = (m + 1) / 2; k >= 0; --k)`). -/
def loop1Inner (nNodes : Nat) (s : St K) : Run (St K) := do
  let l := i32 (u32 ((s.m : Int) - s.k))
  let a1 ← rd s.alpha (u32 (s.k + nNodes + 1))
  let a2 ← rd s.alpha l
  let t1 ← rd s.sigT (s.k + 1)
  let b1 ← rd s.beta (u32 (s.k + nNodes + 1))
  let s0 ← rd s.sig s.k
  let b2 ← rd s.beta l
  let s1 ← rd s.sig (s.k + 1)
  let temp := s.temp + ((a1 - a2) * t1 + b1 * s0 - b2 * s1)
  let sig ← wr s.sig (s.k + 1) temp
  pure { s with l := l, temp := temp, sig := sig, k := s.k - 1 }

/-- Body of Loop 1 (`for (m = 0; m < nNodes - 1; ++m)`). -/
def loop1Body (fuel nNodes : Nat) (s : St K) : Run (St K) := do
  let s ← whileLoop (fun s => decide (0 ≤ s.k)) (loop1Inner nNodes) fuel
    { s with temp := 0, k := i32 (u32 ((s.m : Int) + 1) / 2) }
  pure { s with sig := s.sigT, sigT := s.sig, m := u32 ((s.m : Int) + 1) }

/-- Body of `for (j = nNodes / 2; j >= 0; --j)`: `sig(j + 1) = sig(j)`. -/
def shiftBody (s : St K) : Run (St K) := do
  let v ← rd s.sig s.j
  let sig ← wr s.sig (s.j + 1) v
  pure { s with sig := sig, j := s.j - 1 }

/-- Body of the inner loop of Loop 2
(`for (k = m - nNodes + 1; k <= floor((m - 1) / 2); ++k)`). -/
def loop2Inner (nNodes : Nat) (s : St K) : Run (St K) := do
  let l := i32 (u32 ((s.m : Int) - s.k))
  let j := i32 (u32 ((nNodes : Int) - l - 1))
  let a1 ← rd s.alpha (u32 (s.k + nNodes + 1))
  let a2 ← rd s.alpha l
  let t1 ← rd s.sigT (j + 1)
  let b1 ← rd s.beta (u32 (s.k + nNodes + 1))
  let s1 ← rd s.sig (j + 1)
  let b2 ← rd s.beta l
  let s2 ← rd s.sig (j + 2)
  let temp := s.temp - (a1 - a2) * t1 - b1 * s1 + b2 * s2
  let sig ← wr s.sig (j + 1) temp
  pure { s with l := l, j := j, temp := temp, sig := sig, k := s.k + 1 }

/-- The `if (m % 2 == 0) ... else ...` that solves for the next `alpha` or `beta`. -/
def loop2Solve (nNodes : Nat) (s : St K) : Run (St K) :=
  if s.m % 2 = 0 then do
    let ak ← rd s.alpha s.k
    let s1 ← rd s.sig (s.j + 1)
    let b ← rd s.beta (u32 (s.k + nNodes + 1))
    let s2 ← rd s.sig (s.j + 2)
    let t2 ← rd s.sigT (s.j + 2)
    let a ← wr s.alpha (u32 (s.k + nNodes + 1)) (ak + (s1 - b * s2) / t2)
    pure { s with alpha := a }
  else do
    let s1 ← rd s.sig (s.j + 1)
    let s2 ← rd s.sig (s.j + 2)
    let b ← wr s.beta (u32 (s.k + nNodes + 1)) (s1 / s2)
    pure { s with beta := b }

/-- Body of Loop 2 (`for (m = nNodes - 1; m <= 2 * nNodes - 3; ++m)`). -/
def loop2Body (fuel nNodes : Nat) (s : St K) : Run (St K) := do
  let s ← whileLoop (fun s => decide (s.k ≤ ((u32 ((s.m : Int) - 1) / 2 : Nat) : Int)))
    (loop2Inner nNodes) fuel { s with temp := 0, k := i32 (u32 ((s.m : Int) - nNodes + 1)) }
  let s ← loop2Solve nNodes s
  pure { s with sig := s.sigT, sigT := s.sig, m := u32 ((s.m : Int) + 1) }

/-- The closing statement
`alpha(2 * nNodes) = alpha(nNodes - 1) - beta(2 * nNodes) * sig(1) / sigT(1)`. -/
def closing (nNodes : Nat) (s : St K) : Run (St K) := do
  let a ← rd s.alpha (u32 ((nNodes : Int) - 1))
  let b ← rd s.beta (u32 (2 * (nNodes : Int)))
  let s1 ← rd s.sig 1
  let t1 ← rd s.sigT 1
  let alpha ← wr s.alpha (u32 (2 * (nNodes : Int))) (a - b * s1 / t1)
  pure { s with alpha := alpha }

/-- The statements of `kronrodRecurrenceCoeff` before Loop 2: allocation, the two copy loops,
the sigma arrays, Loop 1 and the shift of `sig`. -/
def passOne (fuel nNodes : Nat) (ab0 : Table K) : Run (St K) := do
  let s : St K :=
    { alpha := List.replicate (u32 (2 * (nNodes : Int) + 1)) 0
      beta := List.replicate (u32 (2 * (nNodes : Int) + 1)) 0
      sig := [], sigT := [], temp := 0, j := 0, k := 0, l := 0, m := 0 }
  let s ← whileLoop (fun s => decide (s.k < (copyBound nNodes : Int))) (copyAlphaBody ab0) fuel
    { s with k := 0 }
  let s ← whileLoop (fun s => decide (s.k < (copyBound nNodes : Int))) (copyBetaBody ab0) fuel
    { s with k := 0 }
  let s := { s with sig := List.replicate (nNodes / 2 + 2) 0
                    sigT := List.replicate (nNodes / 2 + 2) 0 }
  let b ← rd s.beta (u32 ((nNodes : Int) + 1))
  let sigT ← wr s.sigT 1 b
  let s := { s with sigT := sigT }
  let s ← whileLoop (fun s => decide (s.m < u32 ((nNodes : Int) - 1))) (loop1Body fuel nNodes) fuel
    { s with m := 0 }
  whileLoop (fun s => decide (0 ≤ s.j)) shiftBody fuel { s with j := i32 (nNodes / 2) }

/-- The function `Kronrod::kronrodRecurrenceCoeff(nNodes, ab0)`. -/
def kronrodRecurrenceCoeff (fuel nNodes : Nat) (ab0 : Table K) : Run (Table K) := do
  let s ← passOne fuel nNodes ab0
  let s ← whileLoop (fun s => decide (s.m ≤ u32 (2 * (nNodes : Int) - 3))) (loop2Body fuel nNodes)
    fuel { s with m := u32 ((nNodes : Int) - 1) }
  let s ← closing nNodes s
  pure (List.zip s.alpha s.beta)

end Extension

/-! ## `jacobiRecurrenceCoeff` and `jacobiRecurrenceCoeffZeroToOne` -/

/-- The functions of `<math.h>` that the program calls. -/
structure Libm (K : Type) where
  pow : K → K → K
  tgamma : K → K
  sqrt : K → K

section Jacobi

variable {K : Type} [Zero K] [One K] [NatCast K] [Add K] [Sub K] [Mul K] [Div K]

/-- Write `t(i, 0) = v` of a two-column array. -/
def wr0 (t : Table K) (i : Int) (v : K) : Run (Table K) := do
  let r ← rd t i
  wr t i (v, r.2)

/-- Write `t(i, 1) = v` of a two-column array. -/
def wr1 (t : Table K) (i : Int) (v : K) : Run (Table K) := do
  let r ← rd t i
  wr t i (r.1, v)

/-- Local variables of the loop of `jacobiRecurrenceCoeff`. -/
structure JacSt (K : Type) where
  A : List K
  B : List K
  n : Nat

/-- Body of `for (size_t n = 1; n < nNodes; ++n)` in `jacobiRecurrenceCoeff`. -/
def jacobiBody (lm : Libm K) (alpha beta : K) (s : JacSt K) : Run (JacSt K) := do
  let nAlphaBeta : K := 2 * (s.n : K) + alpha + beta
  let A ← wr s.A s.n ((lm.pow beta 2 - lm.pow alpha 2) / (nAlphaBeta * (nAlphaBeta + 2)))
  let B ← wr s.B s.n
    (4 * (alpha + (s.n : K)) * (beta + (s.n : K)) * (s.n : K) * (alpha + beta + (s.n : K))
      / ((nAlphaBeta * nAlphaBeta) * (nAlphaBeta + 1) * (nAlphaBeta - 1)))
  pure { A := A, B := B, n := s.n + 1 }

/-- The function `Kronrod::jacobiRecurrenceCoeff(nNodes, alpha, beta)`.  `junk i` is what the
freshly allocated `A(i)` holds, `junk (nNodes + i)` what `B(i)` holds. -/
def jacobiRecurrenceCoeff (lm : Libm K) (junk : Nat → K) (fuel nNodes : Nat) (alpha beta : K) :
    Run (Table K) :=
  let nu : K := (beta - alpha) / (alpha + beta + 2)
  let mu : K := lm.pow 2 (alpha + beta + 1) * lm.tgamma (alpha + 1) * lm.tgamma (beta + 1)
    / lm.tgamma (alpha + beta + 2)
  if nNodes = 1 then
    pure [(nu, mu)]
  else do
    let s : JacSt K :=
      { A := (List.range nNodes).map junk
        B := (List.range nNodes).map (fun i => junk (nNodes + i))
        n := 1 }
    let s ← whileLoop (fun s => decide (s.n < nNodes)) (jacobiBody lm alpha beta) fuel s
    let B ← wr s.B 0 mu
    let B ← wr B 1
      (4 * (alpha + 1) * (beta + 1) / (lm.pow (alpha + beta + 2) 2 * (alpha + beta + 3)))
    pure (List.zip s.A B)

/-- Local variables of the loops of `jacobiRecurrenceCoeffZeroToOne`. -/
structure RescaleSt (K : Type) where
  alphaBeta : Table K
  i : Nat

/-- Body of the first loop of `jacobiRecurrenceCoeffZeroToOne`:
`alphaBeta(i, 0) = (1 + coeffs(i, 0)) / 2`. -/
def rescaleAlphaBody (coeffs : Table K) (s : RescaleSt K) : Run (RescaleSt K) := do
  let c ← rd coeffs s.i
  let t ← wr0 s.alphaBeta s.i ((1 + c.1) / 2)
  pure { alphaBeta := t, i := s.i + 1 }

/-- Body of the second loop of `jacobiRecurrenceCoeffZeroToOne`:
`alphaBeta(i, 1) = coeffs(i, 1) / 4.`. -/
def rescaleBetaBody (coeffs : Table K) (s : RescaleSt K) : Run (RescaleSt K) := do
  let c ← rd coeffs s.i
  let t ← wr1 s.alphaBeta s.i (c.2 / 4)
  pure { alphaBeta := t, i := s.i + 1 }

/-- The function `Kronrod::jacobiRecurrenceCoeffZeroToOne(nNodes, alpha, beta)`. -/
def jacobiRecurrenceCoeffZeroToOne (lm : Libm K) (junk : Nat → K) (fuel nNodes : Nat)
    (alpha beta : K) : Run (Table K) := do
  let coeffs ← jacobiRecurrenceCoeff lm junk fuel nNodes alpha beta
  let s : RescaleSt K := { alphaBeta := List.replicate nNodes (0, 0), i := 0 }
  let s ← whileLoop (fun s => decide (s.i < nNodes)) (rescaleAlphaBody coeffs) fuel s
  let c ← rd coeffs 0
  let t ← wr1 s.alphaBeta 0 (c.2 / lm.pow 2 (alpha + beta + 1))
  let s ← whileLoop (fun s => decide (s.i < nNodes)) (rescaleBetaBody coeffs) fuel
    { alphaBeta := t, i := 1 }
  pure s.alphaBeta

end Jacobi

/-! ## `kronrod` and `multiPrecisionKronrod` -/

/-- A `std::complex<double>`. -/
structure Cplx (K : Type) where
  re : K
  im : K
deriving DecidableEq, Repr

/-- What `Eigen::EigenSolver` hands back: the eigenvalues `d` and the columns of the
eigenvector matrix `V`. -/
structure EigenSol (K : Type) where
  d : List (Cplx K)
  V : List (List (Cplx K))

section Rule

variable {K : Type} [Zero K] [One K] [NatCast K] [Add K] [Sub K] [Mul K] [Div K]

/-- Read `J(i, j)` of a matrix held as its list of rows. -/
def rd2 (J : List (List K)) (i j : Int) : Run K := do
  let r ← rd J i
  rd r j

/-- Write `J(i, j) = v` of a matrix held as its list of rows. -/
def wr2 (J : List (List K)) (i j : Int) (v : K) : Run (List (List K)) := do
  let r ← rd J i
  let r ← wr r j v
  wr J i r

/-- Local variables of the loop that fills the Jacobi–Kronrod matrix. -/
structure MatSt (K : Type) where
  J : List (List K)
  k : Nat

/-- Body of `for (size_t k = 0; k < 2 * nNodes; ++k)` in `kronrod`. -/
def matrixBody (lm : Libm K) (ab0 : Table K) (s : MatSt K) : Run (MatSt K) := do
  let r ← rd ab0 s.k
  let J ← wr2 s.J s.k s.k r.1
  let r1 ← rd ab0 (s.k + 1)
  let J ← wr2 J s.k (s.k + 1) (lm.sqrt r1.2)
  let x ← rd2 J s.k (s.k + 1)
  let J ← wr2 J (s.k + 1) s.k x
  pure { J := J, k := s.k + 1 }

/-- The matrix `J` that `kronrod` builds from the extended table `ab0`. -/
def jacobiKronrodMatrix (lm : Libm K) (fuel nNodes : Nat) (ab0 : Table K) :
    Run (List (List K)) := do
  let size := u32 (2 * (nNodes : Int) + 1)
  let s : MatSt K := { J := List.replicate size (List.replicate size 0), k := 0 }
  let s ← whileLoop (fun s => decide (s.k < u32 (2 * (nNodes : Int)))) (matrixBody lm ab0) fuel s
  let r ← rd ab0 (u32 (2 * (nNodes : Int)))
  wr2 s.J (u32 (2 * (nNodes : Int))) (u32 (2 * (nNodes : Int))) r.1

/-- Local variables of the sorting loop of `kronrod`. -/
structure SortSt (K : Type) where
  d : List (Cplx K)
  V : List (List (Cplx K))
  i : Int
  sorted : Bool
deriving DecidableEq

/-- Body of `while (!sorted)` in `kronrod`. -/
def sortBody [LT K] [DecidableRel (fun a b : K => a < b)] (s : SortSt K) :
    Run (SortSt K) := do
  let di ← rd s.d s.i
  let di1 ← rd s.d (s.i + 1)
  if di1.re < di.re then do
    let d ← wr s.d s.i di1
    let d ← wr d (s.i + 1) di
    let tmpV ← rd s.V s.i
    let v1 ← rd s.V (s.i + 1)
    let V ← wr s.V s.i v1
    let V ← wr V (s.i + 1) tmpV
    pure { d := d, V := V, i := max (s.i - 1) 0, sorted := false }
  else
    pure { s with i := s.i + 1, sorted := decide (s.i + 1 = (s.d.length : Int) - 1) }

/-- The sorting loop of `kronrod` (the lines under `//Insertion sort`). -/
def insertionSort [LT K] [DecidableRel (fun a b : K => a < b)] (fuel : Nat)
    (d : List (Cplx K)) (V : List (List (Cplx K))) : Run (SortSt K) :=
  whileLoop (fun s => !s.sorted) sortBody fuel { d := d, V := V, i := 0, sorted := false }

/-- The row `V.row(0)` of a matrix held as its list of columns. -/
def firstRow (V : List (List (Cplx K))) : Run (List (Cplx K)) :=
  match V with
  | [] => pure []
  | col :: rest => do
    let v ← rd col 0
    let vs ← firstRow rest
    pure (v :: vs)

/-- The lines of `kronrod` after the sort: `e = ab0(0,1) * tempV * tempV` with
`tempV = V.real().row(0)`, and the two column assignments into `xwGK`. -/
def weights (nNodes : Nat) (ab0 : Table K) (d : List (Cplx K)) (V : List (List (Cplx K))) :
    Run (Table K) := do
  let tempV ← firstRow V
  let r ← rd ab0 0
  let e := tempV.map (fun v => r.2 * v.re * v.re)
  if d.length = u32 (2 * (nNodes : Int) + 1) ∧ e.length = u32 (2 * (nNodes : Int) + 1) then
    pure (List.zip (d.map (fun z => z.re)) e)
  else
    .fault .sizeMismatch

/-- The function `Kronrod::kronrod(nNodes, alphaBeta)`. -/
def kronrod [LT K] [DecidableRel (fun a b : K => a < b)] (lm : Libm K)
    (solver : List (List K) → EigenSol K) (fuel nNodes : Nat) (alphaBeta : Table K) :
    Run (Table K) := do
  let ab0 ← kronrodRecurrenceCoeff fuel nNodes alphaBeta
  let J ← jacobiKronrodMatrix lm fuel nNodes ab0
  let sol := solver J
  let s ← insertionSort fuel sol.d sol.V
  weights nNodes ab0 s.d s.V

/-- The function `Kronrod::multiPrecisionKronrod(nNodes)`. -/
def multiPrecisionKronrod [LT K] [DecidableRel (fun a b : K => a < b)] (lm : Libm K)
    (junk : Nat → K) (solver : List (List K) → EigenSol K) (fuel nNodes : Nat) :
    Run (Table K) := do
  let alphaBeta ← jacobiRecurrenceCoeffZeroToOne lm junk fuel (u32 (2 * (nNodes : Int))) 0 0
  let xwGK ← kronrod lm solver fuel nNodes alphaBeta
  pure (xwGK.map (fun r => (2 * r.1 - 1, 2 * r.2)))

end Rule

/-! ## Reference data and auxiliary notions -/

/-- A run is settled when its outcome does not come from the iteration budget. -/
def Run.Settled {σ : Type} (r : Run σ) : Prop := r ≠ .fault .timeout

/-- The number of rows `ceil(3*n/2) + 1` that the documentation of `kronrod` and of
`kronrodRecurrenceCoeff` asks of the input table. -/
def requiredRows (n : Nat) : Nat := (3 * n + 1) / 2 + 1

/-- The Legendre recurrence table on [0,1] with six rows, `alpha_0 = 1/2`. -/
def legendreTable6 : Table (Val ℚ) :=
  [(.fin (1/2), .fin 1), (.fin (1/2), .fin (1/12)), (.fin (1/2), .fin (1/15)),
   (.fin (1/2), .fin (9/140)), (.fin (1/2), .fin (4/63)), (.fin (1/2), .fin (25/396))]

/-- The list `[g 0, ..., g (n-1)]`: an array of length `n` seen as a function of the index. -/
def tab {α : Type} (n : Nat) (g : Nat → α) : List α := (List.range n).map g

/-- The three-term recurrence `p_{i+1}(x) = (x - alpha_i) p_i(x) - beta_i p_{i-1}(x)` of the
data model, run over the rows of a table from `p_{-1} = 0`, `p_0 = 1`; the result is the
pair (`p_k(x)`, `p_{k-1}(x)`) for a table of `k` rows. -/
def threeTerm {K : Type} [Zero K] [One K] [Sub K] [Mul K] (x : K) (rows : Table K) : K × K :=
  rows.foldl (fun p r => ((x - r.1) * p.1 - r.2 * p.2, p.1)) (1, 0)

/-- Value at `x` of the monic polynomial generated by the rows of a table. -/
def recurrencePoly {K : Type} [Zero K] [One K] [Sub K] [Mul K] (x : K) (rows : Table K) : K :=
  (threeTerm x rows).1

/-- A libm over `ℚ` for concrete runs: exact for `pow` with a natural exponent, for `tgamma`
at a positive integer and for `sqrt` of a quotient of two squares, and 0 elsewhere. -/
def libmRat : Libm ℚ where
  pow x y := if y.den = 1 ∧ 0 ≤ y.num then x ^ y.num.toNat else 0
  tgamma x := if x.den = 1 ∧ 0 < x.num then ((x.num.toNat - 1).factorial : ℚ) else 0
  sqrt x :=
    if 0 ≤ x.num ∧ (Nat.sqrt x.num.toNat) ^ 2 = x.num.toNat ∧ (Nat.sqrt x.den) ^ 2 = x.den then
      (Nat.sqrt x.num.toNat : ℚ) / (Nat.sqrt x.den : ℚ)
    else 0

/-- The libm `libmRat` on `Val ℚ`: a non-number argument gives a non-number, and so does
`tgamma` at its poles 0, -1, -2, …. -/
def libmVal : Libm (Val ℚ) where
  pow x y := match x, y with
    | .fin a, .fin b => .fin (libmRat.pow a b)
    | _, _ => .nan
  tgamma x := match x with
    | .fin a => if a.den = 1 ∧ a.num ≤ 0 then .nan else .fin (libmRat.tgamma a)
    | .nan => .nan
  sqrt x := match x with
    | .fin a => .fin (libmRat.sqrt a)
    | .nan => .nan

/-- An eigen-solver stand-in for concrete runs: it hands back the diagonal of the matrix as
eigenvalues and the unit vectors as eigenvectors (exact for a diagonal matrix). -/
def diagonalSolver (J : List (List ℚ)) : EigenSol ℚ where
  d := (List.range J.length).map (fun i => ⟨(J.getD i []).getD i 0, 0⟩)
  V := (List.range J.length).map
    (fun i => (List.range J.length).map (fun r => ⟨if r = i then 1 else 0, 0⟩))

section JacobiRows

variable {K : Type} [Zero K] [One K] [NatCast K] [Add K] [Sub K] [Mul K] [Div K]

/-- Row `i` of the table that `jacobiRecurrenceCoeff` returns for `nNodes ≥ 2`, in closed
form: the values last written into `A(i)` and `B(i)`. -/
def jacobiRow (lm : Libm K) (junk : Nat → K) (alpha beta : K) (i : Nat) : K × K :=
  (if i = 0 then junk 0
    else (lm.pow beta 2 - lm.pow alpha 2)
      / ((2 * (i : K) + alpha + beta) * ((2 * (i : K) + alpha + beta) + 2)),
   if i = 0 then
      lm.pow 2 (alpha + beta + 1) * lm.tgamma (alpha + 1) * lm.tgamma (beta + 1)
        / lm.tgamma (alpha + beta + 2)
    else if i = 1 then
      4 * (alpha + 1) * (beta + 1) / (lm.pow (alpha + beta + 2) 2 * (alpha + beta + 3))
    else
      4 * (alpha + (i : K)) * (beta + (i : K)) * (i : K) * (alpha + beta + (i : K))
        / (((2 * (i : K) + alpha + beta) * (2 * (i : K) + alpha + beta))
          * ((2 * (i : K) + alpha + beta) + 1) * ((2 * (i : K) + alpha + beta) - 1)))

/-- Row `i` of the table that `jacobiRecurrenceCoeffZeroToOne` makes of the rows `c`. -/
def rescaleRow (lm : Libm K) (alpha beta : K) (c : Nat → K × K) (i : Nat) : K × K :=
  ((1 + (c i).1) / 2,
   if i = 0 then (c 0).2 / lm.pow 2 (alpha + beta + 1) else (c i).2 / 4)


/-- Row `i` of the table that `jacobiRecurrenceCoeff` returns, for every `nNodes ≥ 1`: the
single row (nu, mu) when `nNodes = 1`, and `jacobiRow` otherwise. -/
def jacobiTableRow (lm : Libm K) (junk : Nat → K) (nNodes : Nat) (alpha beta : K) (i : Nat) :
    K × K :=
  if nNodes = 1 then
    ((beta - alpha) / (alpha + beta + 2),
     lm.pow 2 (alpha + beta + 1) * lm.tgamma (alpha + 1) * lm.tgamma (beta + 1)
        / lm.tgamma (alpha + beta + 2))
  else jacobiRow lm junk alpha beta i

end JacobiRows

/-- Number of inversions of a list of keys: pairs of positions `p < q` whose keys satisfy
`l[q] < l[p]`. -/
def inversions {K : Type} [LT K] [DecidableRel (fun a b : K => a < b)] : List K → Nat
  | [] => 0
  | x :: xs => xs.countP (fun y => decide (y < x)) + inversions xs

/-- Invariant of the sorting loop of `kronrod`, started on the eigenvalues `d0` and the
eigenvector columns `V0`: the sizes are kept, `i` and `i + 1` are valid positions while the
loop runs, the eigenvalues at positions `0..i` are in non-decreasing order of real part, and
the (eigenvalue, column) pairs are those of the start, with pairs of equal real part in their
original order. -/
def SortInv {K : Type} [LinearOrder K] (d0 : List (Cplx K)) (V0 : List (List (Cplx K)))
    (s : SortSt K) : Prop :=
  s.d.length = d0.length ∧ s.V.length = d0.length ∧ 0 ≤ s.i ∧
  (if s.sorted then s.i + 1 = d0.length else s.i + 1 < d0.length) ∧
  (s.d.take (s.i.toNat + 1)).Pairwise (fun a b => a.re ≤ b.re) ∧
  (List.zip s.d s.V).Perm (List.zip d0 V0) ∧
  ∀ x : K, (List.zip s.d s.V).filter (fun p => decide (p.1.re = x))
    = (List.zip d0 V0).filter (fun p => decide (p.1.re = x))

/-- Measure of the sorting loop: twice the number of inversions plus the distance of `i`
from the last position. -/
def sortMeasure {K : Type} [LinearOrder K] (m : Nat) (s : SortSt K) : Nat :=
  2 * inversions (s.d.map (fun z => z.re)) + (m - 1 - s.i.toNat)

/-- The list of columns `V` is an `m`×`m` real orthogonal matrix: `m` columns of `m` entries
with zero imaginary part, each of unit norm, and pairwise orthogonal. -/
def RealOrthogonal {K : Type} [Zero K] [One K] [Add K] [Mul K] (m : Nat)
    (V : List (List (Cplx K))) : Prop :=
  V.length = m ∧ (∀ col ∈ V, col.length = m ∧ ∀ z ∈ col, z.im = 0) ∧
  ∀ i j : Nat, i < m → j < m →
    (List.zipWith (fun a b => a.re * b.re) (V.getD i []) (V.getD j [])).sum
      = if i = j then 1 else 0

/-- The sizes of the four arrays of `kronrodRecurrenceCoeff`. -/
def Sized {K : Type} (n : Nat) (s : St K) : Prop :=
  s.alpha.length = 2 * n + 1 ∧ s.beta.length = 2 * n + 1 ∧
  s.sig.length = n / 2 + 2 ∧ s.sigT.length = n / 2 + 2

/-- Entry `J(a, b)` of a matrix held as its list of rows (0 outside the matrix). -/
def ent {K : Type} [Zero K] (J : List (List K)) (a b : Nat) : K := (J.getD a []).getD b 0

/-- The list of rows `J` is an `N`×`N` matrix. -/
def Square {K : Type} (N : Nat) (J : List (List K)) : Prop :=
  J.length = N ∧ ∀ a, a < N → (J.getD a []).length = N

/-- The state after at most `k` passes through a loop: `k` passes, or fewer when the
condition fails earlier. -/
def loopPrefix {σ : Type} (cond : σ → Bool) (body : σ → Run σ) : Nat → σ → Run σ
  | 0, s => .ok s
  | k + 1, s => if cond s then (body s).bind (loopPrefix cond body k) else .ok s

/-- Index invariant of the sorting loop of `kronrod` on `m` eigenvalues: the sizes are kept,
`0 ≤ i`, and `i + 1` is a valid position while the loop runs and the size once it is done. -/
def SortIdx {K : Type} (m : Nat) (s : SortSt K) : Prop :=
  s.d.length = m ∧ s.V.length = m ∧ 0 ≤ s.i ∧
  (if s.sorted then s.i + 1 = m else s.i + 1 < m)

/-- Measure of the sorting loop for an arbitrary comparison: twice the number of inversions
plus the distance of `i` from the last position. -/
def sortVariant {K : Type} [LT K] [DecidableRel (fun a b : K => a < b)] (m : Nat)
    (s : SortSt K) : Nat :=
  2 * inversions (s.d.map (fun z => z.re)) + (m - 1 - s.i.toNat)

/-- The real parts of a list of eigenvalues are pairwise comparable: of any two, one is less
than the other or they are equal (no NaN next to a number). -/
def Comparable {K : Type} [LT K] (d : List (Cplx K)) : Prop :=
  ∀ a ∈ d, ∀ b ∈ d, a.re < b.re ∨ a.re = b.re ∨ b.re < a.re

/-- Invariant of the sorting loop of `kronrod` for an arbitrary comparison, started on the
eigenvalues `d0` and the columns `V0`: the index invariant, the (eigenvalue, column) pairs
are those of the start, pairs of equal real part are in their original order, and, when the
real parts of the input are pairwise comparable, the eigenvalues at positions `0..i` are in
non-decreasing order. -/
def SortPairs {K : Type} [LT K] [DecidableEq K] (d0 : List (Cplx K))
    (V0 : List (List (Cplx K))) (s : SortSt K) : Prop :=
  SortIdx d0.length s ∧
  (List.zip s.d s.V).Perm (List.zip d0 V0) ∧
  (∀ x : K, (List.zip s.d s.V).filter (fun p => decide (p.1.re = x))
    = (List.zip d0 V0).filter (fun p => decide (p.1.re = x))) ∧
  (Comparable d0 → (s.d.take (s.i.toNat + 1)).Pairwise (fun a b => ¬ b.re < a.re))

/-! ## Basic facts about runs and loops -/

section Basics

variable {σ τ : Type}

@[simp] theorem Run.ok_bind (s : σ) (f : σ → Run τ) : (Run.ok s).bind f = f s := rfl

@[simp] theorem Run.fault_bind (e : Fault) (f : σ → Run τ) :
    (Run.fault e : Run σ).bind f = .fault e := rfl

@[simp] theorem Run.bind_eq (r : Run σ) (f : σ → Run τ) : r >>= f = r.bind f := rfl

@[simp] theorem Run.pure_eq (s : σ) : (pure s : Run σ) = .ok s := rfl

theorem whileLoop_done {cond : σ → Bool} {body : σ → Run σ} (fuel : Nat) {s : σ}
    (h : cond s = false) : whileLoop cond body fuel s = .ok s := by
  cases fuel <;> simp [whileLoop, h]

theorem whileLoop_step {cond : σ → Bool} {body : σ → Run σ} (fuel : Nat) {s : σ}
    (h : cond s = true) :
    whileLoop cond body (fuel + 1) s = (body s).bind (whileLoop cond body fuel) := by
  simp [whileLoop, h]

theorem Run.settled_of_bind {r : Run σ} {g : σ → Run τ} (h : (r.bind g).Settled) :
    r.Settled := by
  intro hr
  apply h
  rw [hr]
  rfl

/-- Two sequenced runs agree when their parts agree wherever the first is settled. -/
theorem Run.bind_congr_settled {r r' : Run σ} {g g' : σ → Run τ}
    (h : (r.bind g).Settled) (hr : r.Settled → r' = r)
    (hg : ∀ s, r = .ok s → (g s).Settled → g' s = g s) : r'.bind g' = r.bind g := by
  have hs := Run.settled_of_bind h
  rw [hr hs]
  cases hr' : r with
  | ok s =>
    rw [hr'] at h
    exact hg s hr' h
  | fault e => rfl

/-- A settled loop gives the same outcome with a larger budget. -/
theorem whileLoop_mono {cond : σ → Bool} {body body' : σ → Run σ}
    (hb : ∀ s, (body s).Settled → body' s = body s) :
    ∀ (f f' : Nat) (s : σ), f ≤ f' → (whileLoop cond body f s).Settled →
      whileLoop cond body' f' s = whileLoop cond body f s := by
  intro f
  induction f with
  | zero =>
    intro f' s _ h
    cases hc : cond s with
    | false => rw [whileLoop_done _ hc, whileLoop_done _ hc]
    | true =>
      exfalso
      apply h
      simp [whileLoop, hc]
  | succ f ih =>
    intro f' s hle h
    obtain ⟨f'', rfl⟩ : ∃ f'', f' = f'' + 1 := ⟨f' - 1, by omega⟩
    cases hc : cond s with
    | false => rw [whileLoop_done _ hc, whileLoop_done _ hc]
    | true =>
      rw [whileLoop_step _ hc] at h ⊢
      rw [whileLoop_step _ hc]
      exact Run.bind_congr_settled h (hb s) (fun s1 _ h1 => ih f'' s1 (by omega) h1)

end Basics

section Arrays

variable {α β : Type}

@[simp] theorem tab_length (n : Nat) (g : Nat → α) : (tab n g).length = n := by
  simp [tab]

theorem tab_getElem? (n : Nat) (g : Nat → α) (i : Nat) :
    (tab n g)[i]? = if i < n then some (g i) else none := by
  unfold tab
  by_cases h : i < n
  · simp [h, List.getElem?_range h]
  · simp [h]
    omega

@[simp] theorem tab_getElem (n : Nat) (g : Nat → α) (i : Nat) (h : i < (tab n g).length) :
    (tab n g)[i] = g i := by
  simp [tab]

theorem tab_congr {n : Nat} {g g' : Nat → α} (h : ∀ i, i < n → g i = g' i) :
    tab n g = tab n g' := by
  apply List.ext_getElem?
  intro i
  rw [tab_getElem?, tab_getElem?]
  split
  · rw [h i (by assumption)]
  · rfl

theorem tab_set (n : Nat) (g : Nat → α) (i : Nat) (v : α) :
    (tab n g).set i v = tab n (Function.update g i v) := by
  apply List.ext_getElem?
  intro j
  rw [List.getElem?_set, tab_getElem?, tab_getElem?, tab_length]
  by_cases hij : i = j
  · subst hij
    simp
  · have : j ≠ i := fun h => hij h.symm
    simp [hij, Function.update_noteq this]

theorem replicate_eq_tab (n : Nat) (a : α) : List.replicate n a = tab n (fun _ => a) := by
  apply List.ext_getElem?
  intro i
  rw [tab_getElem?, List.getElem?_replicate]

theorem zip_tab (n : Nat) (f : Nat → α) (g : Nat → β) :
    List.zip (tab n f) (tab n g) = tab n (fun i => (f i, g i)) := by
  simp [tab, List.zip_map']

theorem rd_tab {n : Nat} {g : Nat → α} {i : Int} (h0 : 0 ≤ i) (h1 : i < n) :
    rd (tab n g) i = .ok (g i.toNat) := by
  have h2 : i.toNat < n := by omega
  simp [rd, not_lt.mpr h0, List.get?_eq_getElem?, tab_getElem?, h2]

theorem wr_tab {n : Nat} {g : Nat → α} {i : Int} (v : α) (h0 : 0 ≤ i) (h1 : i < n) :
    wr (tab n g) i v = .ok (tab n (Function.update g i.toNat v)) := by
  have h2 : i.toNat < n := by omega
  simp [wr, h0, h2, tab_set]

theorem rd_tab_nat {n : Nat} {g : Nat → α} {i : Nat} (h1 : i < n) :
    rd (tab n g) (i : Int) = .ok (g i) := by
  rw [rd_tab (by omega) (by omega)]
  simp

theorem wr_tab_nat {n : Nat} {g : Nat → α} {i : Nat} (v : α) (h1 : i < n) :
    wr (tab n g) (i : Int) v = .ok (tab n (Function.update g i v)) := by
  rw [wr_tab v (by omega) (by omega)]
  simp

/-- Total correctness of a loop: an invariant kept by the body, of which each iteration
lowers a measure that starts within the budget, holds at the exit of the loop. -/
theorem whileLoop_total {σ : Type} (cond : σ → Bool) (body : σ → Run σ) (Inv : σ → Prop)
    (var : σ → Nat)
    (step : ∀ s, Inv s → cond s = true → ∃ s', body s = .ok s' ∧ Inv s' ∧ var s' < var s) :
    ∀ (fuel : Nat) (s : σ), Inv s → var s ≤ fuel →
      ∃ s', whileLoop cond body fuel s = .ok s' ∧ Inv s' ∧ cond s' = false := by
  intro fuel
  induction fuel with
  | zero =>
    intro s hI hv
    cases hc : cond s with
    | false => exact ⟨s, whileLoop_done _ hc, hI, hc⟩
    | true =>
      obtain ⟨s', _, _, hlt⟩ := step s hI hc
      omega
  | succ fuel ih =>
    intro s hI hv
    cases hc : cond s with
    | false => exact ⟨s, whileLoop_done _ hc, hI, hc⟩
    | true =>
      obtain ⟨s', hb, hI', hlt⟩ := step s hI hc
      obtain ⟨s'', hw, hI'', hc''⟩ := ih s' hI' (by omega)
      refine ⟨s'', ?_, hI'', hc''⟩
      rw [whileLoop_step _ hc, hb]
      exact hw

theorem u32_of_range {x : Int} (h0 : 0 ≤ x) (h1 : x < 4294967296) : u32 x = x.toNat := by
  unfold u32
  rw [Int.emod_eq_of_lt h0 h1]

theorem i32_of_lt {n : Nat} (h : n < 2147483648) : i32 n = (n : Int) := by
  simp [i32, h]

theorem rd_of_lt {a : List α} {i : Int} (d : α) (h0 : 0 ≤ i) (h1 : i < a.length) :
    rd a i = .ok (a.getD i.toNat d) := by
  have h2 : i.toNat < a.length := by omega
  simp [rd, not_lt.mpr h0, List.get?_eq_getElem?, List.getElem?_eq_getElem h2,
    List.getD_eq_getElem _ _ h2]

theorem wr_of_lt {a : List α} {i : Int} (v : α) (h0 : 0 ≤ i) (h1 : i < a.length) :
    wr a i v = .ok (a.set i.toNat v) := by
  have h2 : i.toNat < a.length := by omega
  simp [wr, h0, h2]

end Arrays

section ValFacts

variable {K : Type}

theorem Val.zero_def [Zero K] : (0 : Val K) = .fin 0 := rfl

theorem Val.one_def [One K] : (1 : Val K) = .fin 1 := rfl

@[simp] theorem Val.fin_add_fin [Add K] (a b : K) : (Val.fin a + Val.fin b) = Val.fin (a + b) :=
  rfl

@[simp] theorem Val.fin_sub_fin [Sub K] (a b : K) : (Val.fin a - Val.fin b) = Val.fin (a - b) :=
  rfl

@[simp] theorem Val.fin_mul_fin [Mul K] (a b : K) : (Val.fin a * Val.fin b) = Val.fin (a * b) :=
  rfl

theorem Val.fin_div_fin [Div K] [Zero K] [DecidableEq K] (a b : K) :
    (Val.fin a / Val.fin b) = if b = 0 then Val.nan else Val.fin (a / b) := rfl

end ValFacts

section ExtensionFacts

variable {K : Type} [Zero K] [Add K] [Sub K] [Mul K] [Div K]

theorem loop1Body_mono (nNodes : Nat) {f f' : Nat} (hle : f ≤ f') (s : St K)
    (h : (loop1Body f nNodes s).Settled) : loop1Body f' nNodes s = loop1Body f nNodes s := by
  unfold loop1Body at h ⊢
  simp only [Run.bind_eq] at h ⊢
  exact Run.bind_congr_settled h (whileLoop_mono (fun _ _ => rfl) f f' _ hle) (fun _ _ _ => rfl)

theorem loop2Body_mono (nNodes : Nat) {f f' : Nat} (hle : f ≤ f') (s : St K)
    (h : (loop2Body f nNodes s).Settled) : loop2Body f' nNodes s = loop2Body f nNodes s := by
  unfold loop2Body at h ⊢
  simp only [Run.bind_eq] at h ⊢
  exact Run.bind_congr_settled h (whileLoop_mono (fun _ _ => rfl) f f' _ hle) (fun _ _ _ => rfl)

theorem passOne_mono (nNodes : Nat) (ab0 : Table K) {f f' : Nat} (hle : f ≤ f')
    (h : (passOne f nNodes ab0).Settled) : passOne f' nNodes ab0 = passOne f nNodes ab0 := by
  unfold passOne at h ⊢
  simp only [Run.bind_eq] at h ⊢
  refine Run.bind_congr_settled h (whileLoop_mono (fun _ _ => rfl) f f' _ hle) ?_
  intro s1 _ h1
  refine Run.bind_congr_settled h1 (whileLoop_mono (fun _ _ => rfl) f f' _ hle) ?_
  intro s2 _ h2
  refine Run.bind_congr_settled h2 (fun _ => rfl) ?_
  intro b _ h3
  refine Run.bind_congr_settled h3 (fun _ => rfl) ?_
  intro t _ h4
  refine Run.bind_congr_settled h4
    (whileLoop_mono (fun s hs => loop1Body_mono nNodes hle s hs) f f' _ hle) ?_
  intro s3 _ h5
  exact whileLoop_mono (fun _ _ => rfl) f f' _ hle h5

/-- The outcome of `kronrodRecurrenceCoeff` does not depend on the iteration budget once the
budget suffices. -/
theorem kronrodRecurrenceCoeff_mono (nNodes : Nat) (ab0 : Table K) {f f' : Nat} (hle : f ≤ f')
    (h : (kronrodRecurrenceCoeff f nNodes ab0).Settled) :
    kronrodRecurrenceCoeff f' nNodes ab0 = kronrodRecurrenceCoeff f nNodes ab0 := by
  unfold kronrodRecurrenceCoeff at h ⊢
  simp only [Run.bind_eq] at h ⊢
  refine Run.bind_congr_settled h (passOne_mono nNodes ab0 hle) ?_
  intro s1 _ h1
  refine Run.bind_congr_settled h1
    (whileLoop_mono (fun s hs => loop2Body_mono nNodes hle s hs) f f' _ hle) ?_
  intro s2 _ _
  rfl

/-- For `nNodes = 1` and a table with at least two rows, the statements before Loop 2 run
through and leave `sig` and `sigT` of length 2, all zero. -/
theorem passOne_one (fuel : Nat) (r0 r1 : K × K) (rest : Table K) (hfuel : 2 ≤ fuel) :
    passOne fuel 1 (r0 :: r1 :: rest) = .ok
      { alpha := [r0.1, r1.1, 0], beta := [r0.2, r1.2, 0], sig := [0, 0], sigT := [0, 0],
        temp := 0, j := -1, k := 2, l := 0, m := 0 } := by
  obtain ⟨f, rfl⟩ : ∃ f, fuel = f + 2 := ⟨fuel - 2, by omega⟩
  simp [passOne, copyBound, u32, i32, whileLoop, copyAlphaBody, copyBetaBody, rd, wr,
    List.replicate, whileLoop_done, shiftBody]

/-- For `nNodes = 1` and a table with at least two rows the run stops in Loop 2. -/
theorem extension_one_fault (fuel : Nat) (ab0 : Table K) (hlen : 2 ≤ ab0.length)
    (hfuel : 2 ≤ fuel) : kronrodRecurrenceCoeff fuel 1 ab0 = .fault .indexOutOfRange := by
  match ab0, hlen with
  | r0 :: r1 :: rest, _ =>
    obtain ⟨f, rfl⟩ : ∃ f, fuel = f + 2 := ⟨fuel - 2, by omega⟩
    rw [kronrodRecurrenceCoeff]
    simp only [Run.bind_eq, passOne_one (f + 2) r0 r1 rest (by omega), Run.ok_bind]
    simp [u32, i32, whileLoop, rd, wr, loop2Body, loop2Inner]

theorem copyBound_eq {n : Nat} (h : 3 * n < 4294967296) : copyBound n = 3 * n / 2 + 1 := by
  have e1 : u32 (3 * (n : Int)) = 3 * n := by
    rw [u32_of_range (by omega) (by omega)]
    omega
  unfold copyBound
  rw [e1, u32_of_range (by omega) (by omega)]
  omega

/-- The alpha copy loop, started with `k = 0` on an `alpha` that can hold the rows. -/
theorem copyAlpha_total (ab0 : Table K) (c fuel : Nat) (s0 : St K) (hk : s0.k = 0)
    (hc1 : c ≤ ab0.length) (hc2 : c ≤ s0.alpha.length) (hfuel : c ≤ fuel) :
    ∃ s, whileLoop (fun s => decide (s.k < (c : Int))) (copyAlphaBody ab0) fuel s0 = .ok s ∧
      s.alpha.length = s0.alpha.length ∧ s.beta = s0.beta ∧ s.sig = s0.sig ∧ s.sigT = s0.sigT ∧
      ∀ i, i < c → s.alpha[i]? = (ab0.map Prod.fst)[i]? := by
  obtain ⟨s, hs, hI, hcond⟩ := whileLoop_total (fun s : St K => decide (s.k < (c : Int)))
    (copyAlphaBody ab0)
    (fun s => s.alpha.length = s0.alpha.length ∧ s.beta = s0.beta ∧ s.sig = s0.sig ∧
      s.sigT = s0.sigT ∧ 0 ≤ s.k ∧ s.k ≤ c ∧ ∀ i : Nat, (i : Int) < s.k →
        s.alpha[i]? = (ab0.map Prod.fst)[i]?)
    (fun s => (c - s.k).toNat)
    (by
      rintro s ⟨h1, h2, h3, h4, h5, h6, h7⟩ hc
      have hlt : s.k < c := by simpa using hc
      have hb : copyAlphaBody ab0 s = .ok { s with
          alpha := s.alpha.set s.k.toNat (ab0.getD s.k.toNat (0, 0)).1, k := s.k + 1 } := by
        simp only [copyAlphaBody, Run.bind_eq, Run.pure_eq,
          rd_of_lt (0, 0) h5 (show s.k < ab0.length by omega), Run.ok_bind,
          wr_of_lt _ h5 (show s.k < s.alpha.length by omega)]
      refine ⟨_, hb, ⟨by simpa using h1, h2, h3, h4, by show 0 ≤ s.k + 1; omega,
        by show s.k + 1 ≤ c; omega, ?_⟩, by show (c - (s.k + 1)).toNat < (c - s.k).toNat; omega⟩
      intro i hi
      show (s.alpha.set s.k.toNat (ab0.getD s.k.toNat (0, 0)).1)[i]? = _
      have hi' : (i : Int) < s.k + 1 := hi
      rw [List.getElem?_set]
      by_cases hik : s.k.toNat = i
      · have hl : i < ab0.length := by omega
        have hl2 : s.k.toNat < s.alpha.length := by omega
        simp [hik, hl, List.getD_eq_getElem, List.getElem?_eq_getElem]
        omega
      · simp only [hik, if_false]
        exact h7 i (by omega))
    fuel s0 ⟨rfl, rfl, rfl, rfl, by omega, by omega, by intro i hi; omega⟩
    (by show (c - s0.k).toNat ≤ fuel; omega)
  obtain ⟨h1, h2, h3, h4, _, _, h7⟩ := hI
  have hkc : ¬ s.k < c := of_decide_eq_false hcond
  exact ⟨s, hs, h1, h2, h3, h4, fun i hi => h7 i (by omega)⟩


/-- The beta copy loop, started with `k = 0` on a `beta` that can hold the rows. -/
theorem copyBeta_total (ab0 : Table K) (c fuel : Nat) (s0 : St K) (hk : s0.k = 0)
    (hc1 : c ≤ ab0.length) (hc2 : c ≤ s0.beta.length) (hfuel : c ≤ fuel) :
    ∃ s, whileLoop (fun s => decide (s.k < (c : Int))) (copyBetaBody ab0) fuel s0 = .ok s ∧
      s.beta.length = s0.beta.length ∧ s.alpha = s0.alpha ∧ s.sig = s0.sig ∧ s.sigT = s0.sigT ∧
      ∀ i, i < c → s.beta[i]? = (ab0.map Prod.snd)[i]? := by
  obtain ⟨s, hs, hI, hcond⟩ := whileLoop_total (fun s : St K => decide (s.k < (c : Int)))
    (copyBetaBody ab0)
    (fun s => s.beta.length = s0.beta.length ∧ s.alpha = s0.alpha ∧ s.sig = s0.sig ∧
      s.sigT = s0.sigT ∧ 0 ≤ s.k ∧ s.k ≤ c ∧ ∀ i : Nat, (i : Int) < s.k →
        s.beta[i]? = (ab0.map Prod.snd)[i]?)
    (fun s => (c - s.k).toNat)
    (by
      rintro s ⟨h1, h2, h3, h4, h5, h6, h7⟩ hc
      have hlt : s.k < c := by simpa using hc
      have hb : copyBetaBody ab0 s = .ok { s with
          beta := s.beta.set s.k.toNat (ab0.getD s.k.toNat (0, 0)).2, k := s.k + 1 } := by
        simp only [copyBetaBody, Run.bind_eq, Run.pure_eq,
          rd_of_lt (0, 0) h5 (show s.k < ab0.length by omega), Run.ok_bind,
          wr_of_lt _ h5 (show s.k < s.beta.length by omega)]
      refine ⟨_, hb, ⟨by simpa using h1, h2, h3, h4, by show 0 ≤ s.k + 1; omega,
        by show s.k + 1 ≤ c; omega, ?_⟩, by show (c - (s.k + 1)).toNat < (c - s.k).toNat; omega⟩
      intro i hi
      show (s.beta.set s.k.toNat (ab0.getD s.k.toNat (0, 0)).2)[i]? = _
      have hi' : (i : Int) < s.k + 1 := hi
      rw [List.getElem?_set]
      by_cases hik : s.k.toNat = i
      · have hl : i < ab0.length := by omega
        have hl2 : s.k.toNat < s.beta.length := by omega
        simp [hik, hl, List.getD_eq_getElem, List.getElem?_eq_getElem]
        omega
      · simp only [hik, if_false]
        exact h7 i (by omega))
    fuel s0 ⟨rfl, rfl, rfl, rfl, by omega, by omega, by intro i hi; omega⟩
    (by show (c - s0.k).toNat ≤ fuel; omega)
  obtain ⟨h1, h2, h3, h4, _, _, h7⟩ := hI
  have hkc : ¬ s.k < c := of_decide_eq_false hcond
  exact ⟨s, hs, h1, h2, h3, h4, fun i hi => h7 i (by omega)⟩

theorem loop1Inner_step (n : Nat) (s : St K) (hn : 3 * n < 4294967296) (hS : Sized n s)
    (hm : s.m + 2 ≤ n) (hk0 : 0 ≤ s.k) (hk1 : s.k ≤ ((s.m + 1) / 2 : Nat)) :
    ∃ s', loop1Inner n s = .ok s' ∧ s'.alpha = s.alpha ∧ s'.beta = s.beta ∧ s'.sigT = s.sigT ∧
      s'.sig.length = s.sig.length ∧ s'.m = s.m ∧ s'.k = s.k - 1 := by
  obtain ⟨hA, hB, hSg, hT⟩ := hS
  have e1 : u32 ((s.m : Int) - s.k) = ((s.m : Int) - s.k).toNat :=
    u32_of_range (by omega) (by omega)
  have e2 : i32 ((s.m : Int) - s.k).toNat = (s.m : Int) - s.k := by
    rw [i32_of_lt (by omega)]
    omega
  have e3 : u32 (s.k + n + 1) = (s.k + n + 1).toNat := u32_of_range (by omega) (by omega)
  generalize hr : loop1Inner n s = r
  simp (disch := omega) only [loop1Inner, Run.bind_eq, Run.pure_eq, e1, e2, e3, rd_of_lt (0 : K),
    wr_of_lt, Run.ok_bind] at hr
  subst hr
  exact ⟨_, rfl, rfl, rfl, rfl, by simp, rfl, rfl⟩

/-- The inner loop of Loop 1, started at `k = (m + 1) / 2`. -/
theorem loop1InnerLoop_total (n fuel : Nat) (s0 : St K) (hn : 3 * n < 4294967296)
    (hS : Sized n s0) (hm : s0.m + 2 ≤ n) (hk : s0.k = ((s0.m + 1) / 2 : Nat))
    (hfuel : n ≤ fuel) :
    ∃ s, whileLoop (fun s => decide (0 ≤ s.k)) (loop1Inner n) fuel s0 = .ok s ∧
      s.alpha = s0.alpha ∧ s.beta = s0.beta ∧ s.sigT = s0.sigT ∧
      s.sig.length = s0.sig.length ∧ s.m = s0.m := by
  obtain ⟨s, hs, hI, _⟩ := whileLoop_total (fun s : St K => decide (0 ≤ s.k)) (loop1Inner n)
    (fun s => s.alpha = s0.alpha ∧ s.beta = s0.beta ∧ s.sigT = s0.sigT ∧
      s.sig.length = s0.sig.length ∧ s.m = s0.m ∧ -1 ≤ s.k ∧ s.k ≤ ((s0.m + 1) / 2 : Nat))
    (fun s => (s.k + 1).toNat)
    (by
      rintro s ⟨h1, h2, h3, h4, h5, h6, h7⟩ hc
      have hk0 : 0 ≤ s.k := by simpa using hc
      have hS' : Sized n s := by
        obtain ⟨a, b, c, d⟩ := hS
        exact ⟨by rw [h1, a], by rw [h2, b], by rw [h4, c], by rw [h3, d]⟩
      obtain ⟨s', hb, g1, g2, g3, g4, g5, g6⟩ := loop1Inner_step n s hn hS' (by omega) hk0
        (by rw [h5]; exact h7)
      exact ⟨s', hb, ⟨g1.trans h1, g2.trans h2, g3.trans h3, g4.trans h4, g5.trans h5,
        by omega, by omega⟩, by dsimp only; omega⟩)
    fuel s0 ⟨rfl, rfl, rfl, rfl, rfl, by omega, by omega⟩ (by dsimp only; omega)
  obtain ⟨h1, h2, h3, h4, h5, _, _⟩ := hI
  exact ⟨s, hs, h1, h2, h3, h4, h5⟩

theorem loop1Body_total (n fuel : Nat) (s : St K) (hn : 3 * n < 4294967296) (hS : Sized n s)
    (hm : s.m + 2 ≤ n) (hfuel : n ≤ fuel) :
    ∃ s', loop1Body fuel n s = .ok s' ∧ s'.alpha = s.alpha ∧ s'.beta = s.beta ∧ Sized n s' ∧
      s'.m = s.m + 1 := by
  have e1 : i32 (u32 ((s.m : Int) + 1) / 2) = (((s.m + 1) / 2 : Nat) : Int) := by
    rw [u32_of_range (by omega) (by omega), i32_of_lt (by omega)]
    congr 2
  have e2 : u32 ((s.m : Int) + 1) = s.m + 1 := by
    rw [u32_of_range (by omega) (by omega)]
    omega
  obtain ⟨s1, h1, a1, a2, a3, a4, a5⟩ := loop1InnerLoop_total n fuel
    { s with temp := 0, k := i32 (u32 ((s.m : Int) + 1) / 2) } hn hS hm e1 hfuel
  refine ⟨{ s1 with sig := s1.sigT, sigT := s1.sig, m := u32 ((s1.m : Int) + 1) }, ?_, a1, a2, ?_,
    ?_⟩
  · simp only [loop1Body, Run.bind_eq, Run.pure_eq, h1, Run.ok_bind]
  · obtain ⟨b1, b2, b3, b4⟩ := hS
    exact ⟨by rw [← b1]; exact congrArg _ a1, by rw [← b2]; exact congrArg _ a2,
      by rw [← b4]; exact congrArg _ a3, by rw [← b3]; exact a4⟩
  · show u32 ((s1.m : Int) + 1) = s.m + 1
    rw [a5]
    exact e2

/-- Loop 1, started at `m = 0`. -/
theorem loop1_total (n fuel : Nat) (s0 : St K) (hn2 : 2 ≤ n) (hn : 3 * n < 4294967296)
    (hS : Sized n s0) (hm : s0.m = 0) (hfuel : n ≤ fuel) :
    ∃ s, whileLoop (fun s => decide (s.m < u32 ((n : Int) - 1))) (loop1Body fuel n) fuel s0
        = .ok s ∧ s.alpha = s0.alpha ∧ s.beta = s0.beta ∧ Sized n s := by
  have e : u32 ((n : Int) - 1) = n - 1 := by
    rw [u32_of_range (by omega) (by omega)]
    omega
  obtain ⟨s, hs, hI, _⟩ := whileLoop_total
    (fun s : St K => decide (s.m < u32 ((n : Int) - 1))) (loop1Body fuel n)
    (fun s => s.alpha = s0.alpha ∧ s.beta = s0.beta ∧ Sized n s ∧ s.m ≤ n - 1)
    (fun s => n - 1 - s.m)
    (by
      rintro s ⟨h1, h2, h3, h4⟩ hc
      have hlt : s.m < n - 1 := by
        rw [e] at hc
        simpa using hc
      obtain ⟨s', hb, g1, g2, g3, g4⟩ := loop1Body_total n fuel s hn h3 (by omega) hfuel
      exact ⟨s', hb, ⟨g1.trans h1, g2.trans h2, g3, by omega⟩, by dsimp only; omega⟩)
    fuel s0 ⟨rfl, rfl, hS, by omega⟩ (by dsimp only; omega)
  exact ⟨s, hs, hI.1, hI.2.1, hI.2.2.1⟩

/-- The shift loop `sig(j + 1) = sig(j)`, started at `j = nNodes / 2`. -/
theorem shift_total (n fuel : Nat) (s0 : St K) (hn2 : 1 ≤ n) (hS : Sized n s0)
    (hj : s0.j = ((n / 2 : Nat) : Int)) (hfuel : n ≤ fuel) :
    ∃ s, whileLoop (fun s => decide (0 ≤ s.j)) shiftBody fuel s0 = .ok s ∧
      s.alpha = s0.alpha ∧ s.beta = s0.beta ∧ Sized n s := by
  obtain ⟨s, hs, hI, _⟩ := whileLoop_total (fun s : St K => decide (0 ≤ s.j)) shiftBody
    (fun s => s.alpha = s0.alpha ∧ s.beta = s0.beta ∧ Sized n s ∧ -1 ≤ s.j ∧
      s.j ≤ ((n / 2 : Nat) : Int))
    (fun s => (s.j + 1).toNat)
    (by
      rintro s ⟨h1, h2, h3, h4, h5⟩ hc
      have hj0 : 0 ≤ s.j := by simpa using hc
      obtain ⟨b1, b2, b3, b4⟩ := h3
      generalize hr : shiftBody s = r
      simp (disch := omega) only [shiftBody, Run.bind_eq, Run.pure_eq, rd_of_lt (0 : K),
        wr_of_lt, Run.ok_bind] at hr
      subst hr
      refine ⟨_, rfl, ⟨h1, h2, ⟨b1, b2, ?_, b4⟩, ?_, ?_⟩, ?_⟩
      · simpa using b3
      · show -1 ≤ s.j - 1
        omega
      · show s.j - 1 ≤ ((n / 2 : Nat) : Int)
        omega
      · show (s.j - 1 + 1).toNat < (s.j + 1).toNat
        omega)
    fuel s0 ⟨rfl, rfl, hS, by omega, by omega⟩ (by dsimp only; omega)
  exact ⟨s, hs, hI.1, hI.2.1, hI.2.2.1⟩

theorem loop2Inner_step (n : Nat) (s : St K) (hn : 3 * n < 4294967296) (hS : Sized n s)
    (hm1 : n ≤ s.m + 1) (hm2 : s.m + 3 ≤ 2 * n) (hk0 : (s.m : Int) - n + 1 ≤ s.k)
    (hk1 : s.k ≤ (((s.m - 1) / 2 : Nat) : Int)) :
    ∃ s', loop2Inner n s = .ok s' ∧ s'.alpha = s.alpha ∧ s'.beta = s.beta ∧ s'.sigT = s.sigT ∧
      s'.sig.length = s.sig.length ∧ s'.m = s.m ∧ s'.k = s.k + 1 ∧
      s'.j = (n : Int) - s.m + s.k - 1 := by
  obtain ⟨hA, hB, hSg, hT⟩ := hS
  have e1 : u32 ((s.m : Int) - s.k) = ((s.m : Int) - s.k).toNat :=
    u32_of_range (by omega) (by omega)
  have e2 : i32 ((s.m : Int) - s.k).toNat = (s.m : Int) - s.k := by
    rw [i32_of_lt (by omega)]
    omega
  have e3 : u32 (s.k + n + 1) = (s.k + n + 1).toNat := u32_of_range (by omega) (by omega)
  have e4 : u32 ((n : Int) - ((s.m : Int) - s.k) - 1) = ((n : Int) - ((s.m : Int) - s.k) - 1).toNat :=
    u32_of_range (by omega) (by omega)
  have e5 : i32 ((n : Int) - ((s.m : Int) - s.k) - 1).toNat = (n : Int) - ((s.m : Int) - s.k) - 1 := by
    rw [i32_of_lt (by omega)]
    omega
  generalize hr : loop2Inner n s = r
  simp (disch := omega) only [loop2Inner, Run.bind_eq, Run.pure_eq, e1, e2, e3, e4, e5,
    rd_of_lt (0 : K), wr_of_lt, Run.ok_bind] at hr
  subst hr
  exact ⟨_, rfl, rfl, rfl, rfl, by simp, rfl, rfl, by show _ - _ - 1 = _; omega⟩

/-- The inner loop of Loop 2, started at `k = m - nNodes + 1`: it runs at least once and
leaves `k = (m - 1) / 2 + 1` and `j = nNodes - m + k - 2`. -/
theorem loop2InnerLoop_total (n fuel : Nat) (s0 : St K) (hn : 3 * n < 4294967296)
    (hS : Sized n s0) (hm1 : n ≤ s0.m + 1) (hm2 : s0.m + 3 ≤ 2 * n)
    (hk : s0.k = (s0.m : Int) - n + 1) (hfuel : n ≤ fuel) :
    ∃ s, whileLoop (fun s => decide (s.k ≤ ((u32 ((s.m : Int) - 1) / 2 : Nat) : Int)))
        (loop2Inner n) fuel s0 = .ok s ∧
      s.alpha = s0.alpha ∧ s.beta = s0.beta ∧ s.sigT = s0.sigT ∧
      s.sig.length = s0.sig.length ∧ s.m = s0.m ∧
      s.k = (((s0.m - 1) / 2 : Nat) : Int) + 1 ∧ s.j = (n : Int) - s0.m + s.k - 2 := by
  have e : u32 ((s0.m : Int) - 1) = s0.m - 1 := by
    rw [u32_of_range (by omega) (by omega)]
    omega
  obtain ⟨s, hs, hI, hcond⟩ := whileLoop_total
    (fun s : St K => decide (s.k ≤ ((u32 ((s.m : Int) - 1) / 2 : Nat) : Int))) (loop2Inner n)
    (fun s => s.alpha = s0.alpha ∧ s.beta = s0.beta ∧ s.sigT = s0.sigT ∧
      s.sig.length = s0.sig.length ∧ s.m = s0.m ∧ (s0.m : Int) - n + 1 ≤ s.k ∧
      s.k ≤ (((s0.m - 1) / 2 : Nat) : Int) + 1 ∧
      (s.k = (s0.m : Int) - n + 1 ∨ s.j = (n : Int) - s0.m + s.k - 2))
    (fun s => ((((s0.m - 1) / 2 : Nat) : Int) + 1 - s.k).toNat)
    (by
      rintro s ⟨h1, h2, h3, h4, h5, h6, h7, h8⟩ hc
      have hle : s.k ≤ (((s0.m - 1) / 2 : Nat) : Int) := by
        have := of_decide_eq_true hc
        rw [h5, e] at this
        exact this
      have hS' : Sized n s := by
        obtain ⟨a, b, c, d⟩ := hS
        exact ⟨by rw [h1, a], by rw [h2, b], by rw [h4, c], by rw [h3, d]⟩
      obtain ⟨s', hb, g1, g2, g3, g4, g5, g6, g7⟩ := loop2Inner_step n s hn hS' (by omega)
        (by omega) (by omega) (by rw [h5]; exact hle)
      exact ⟨s', hb, ⟨g1.trans h1, g2.trans h2, g3.trans h3, g4.trans h4, g5.trans h5,
        by omega, by omega, Or.inr (by omega)⟩, by dsimp only; omega⟩)
    fuel s0 ⟨rfl, rfl, rfl, rfl, rfl, by omega, by omega, Or.inl hk⟩ (by dsimp only; omega)
  obtain ⟨h1, h2, h3, h4, h5, h6, h7, h8⟩ := hI
  have hgt : ¬ s.k ≤ (((s0.m - 1) / 2 : Nat) : Int) := by
    have := of_decide_eq_false hcond
    rw [h5, e] at this
    exact this
  refine ⟨s, hs, h1, h2, h3, h4, h5, by omega, ?_⟩
  rcases h8 with h8 | h8
  · omega
  · exact h8

theorem loop2Solve_step (n : Nat) (s : St K) (hn : 3 * n < 4294967296) (hS : Sized n s)
    (hm1 : n ≤ s.m + 1) (hm2 : s.m + 3 ≤ 2 * n) (hk : s.k = (((s.m - 1) / 2 : Nat) : Int) + 1)
    (hj : s.j = (n : Int) - s.m + s.k - 2) :
    ∃ s', loop2Solve n s = .ok s' ∧ Sized n s' ∧ s'.m = s.m ∧
      ∀ i, i < 3 * n / 2 + 1 → s'.alpha[i]? = s.alpha[i]? ∧ s'.beta[i]? = s.beta[i]? := by
  obtain ⟨hA, hB, hSg, hT⟩ := hS
  have e3 : u32 (s.k + n + 1) = (s.k + n + 1).toNat := u32_of_range (by omega) (by omega)
  generalize hr : loop2Solve n s = r
  by_cases hpar : s.m % 2 = 0
  · simp (disch := omega) only [loop2Solve, hpar, if_true, Run.bind_eq, Run.pure_eq, e3,
      rd_of_lt (0 : K), wr_of_lt, Run.ok_bind] at hr
    subst hr
    refine ⟨_, rfl, ⟨by simpa using hA, hB, hSg, hT⟩, rfl, ?_⟩
    intro i hi
    refine ⟨?_, rfl⟩
    show (s.alpha.set _ _)[i]? = _
    rw [List.getElem?_set_ne]
    omega
  · simp (disch := omega) only [loop2Solve, hpar, if_false, Run.bind_eq, Run.pure_eq, e3,
      rd_of_lt (0 : K), wr_of_lt, Run.ok_bind] at hr
    subst hr
    refine ⟨_, rfl, ⟨hA, by simpa using hB, hSg, hT⟩, rfl, ?_⟩
    intro i hi
    refine ⟨rfl, ?_⟩
    show (s.beta.set _ _)[i]? = _
    rw [List.getElem?_set_ne]
    omega

theorem loop2Body_total (n fuel : Nat) (s : St K) (hn : 3 * n < 4294967296) (hS : Sized n s)
    (hm1 : n ≤ s.m + 1) (hm2 : s.m + 3 ≤ 2 * n) (hfuel : n ≤ fuel) :
    ∃ s', loop2Body fuel n s = .ok s' ∧ Sized n s' ∧ s'.m = s.m + 1 ∧
      ∀ i, i < 3 * n / 2 + 1 → s'.alpha[i]? = s.alpha[i]? ∧ s'.beta[i]? = s.beta[i]? := by
  have e1 : i32 (u32 ((s.m : Int) - n + 1)) = (s.m : Int) - n + 1 := by
    rw [u32_of_range (by omega) (by omega), i32_of_lt (by omega)]
    omega
  have e2 : u32 ((s.m : Int) + 1) = s.m + 1 := by
    rw [u32_of_range (by omega) (by omega)]
    omega
  obtain ⟨s1, h1, a1, a2, a3, a4, a5, a6, a7⟩ := loop2InnerLoop_total n fuel
    { s with temp := 0, k := i32 (u32 ((s.m : Int) - n + 1)) } hn hS hm1 hm2 e1 hfuel
  have hS1 : Sized n s1 := by
    obtain ⟨b1, b2, b3, b4⟩ := hS
    exact ⟨by rw [← b1]; exact congrArg _ a1, by rw [← b2]; exact congrArg _ a2,
      by rw [← b3]; exact a4, by rw [← b4]; exact congrArg _ a3⟩
  have hm : s1.m = s.m := a5
  obtain ⟨s2, h2, c1, c2, c3⟩ := loop2Solve_step n s1 hn hS1 (by omega) (by omega)
    (by rw [hm]; exact a6) (by rw [hm]; exact a7)
  refine ⟨{ s2 with sig := s2.sigT, sigT := s2.sig, m := u32 ((s2.m : Int) + 1) }, ?_, ?_, ?_, ?_⟩
  · simp only [loop2Body, Run.bind_eq, Run.pure_eq, h1, Run.ok_bind, h2]
  · obtain ⟨b1, b2, b3, b4⟩ := c1
    exact ⟨b1, b2, b4, b3⟩
  · show u32 ((s2.m : Int) + 1) = s.m + 1
    rw [c2, hm]
    exact e2
  · intro i hi
    obtain ⟨d1, d2⟩ := c3 i hi
    exact ⟨d1.trans (by rw [a1]), d2.trans (by rw [a2])⟩

/-- Loop 2, started at `m = nNodes - 1`. -/
theorem loop2_total (n fuel : Nat) (s0 : St K) (hn2 : 2 ≤ n) (hn : 3 * n < 4294967296)
    (hS : Sized n s0) (hm : s0.m = n - 1) (hfuel : n ≤ fuel) :
    ∃ s, whileLoop (fun s => decide (s.m ≤ u32 (2 * (n : Int) - 3))) (loop2Body fuel n) fuel s0
        = .ok s ∧ Sized n s ∧
      ∀ i, i < 3 * n / 2 + 1 → s.alpha[i]? = s0.alpha[i]? ∧ s.beta[i]? = s0.beta[i]? := by
  have e : u32 (2 * (n : Int) - 3) = 2 * n - 3 := by
    rw [u32_of_range (by omega) (by omega)]
    omega
  obtain ⟨s, hs, hI, _⟩ := whileLoop_total
    (fun s : St K => decide (s.m ≤ u32 (2 * (n : Int) - 3))) (loop2Body fuel n)
    (fun s => Sized n s ∧ n ≤ s.m + 1 ∧ s.m + 2 ≤ 2 * n ∧
      ∀ i, i < 3 * n / 2 + 1 → s.alpha[i]? = s0.alpha[i]? ∧ s.beta[i]? = s0.beta[i]?)
    (fun s => 2 * n - 2 - s.m)
    (by
      rintro s ⟨h1, h2, h3, h4⟩ hc
      have hle : s.m ≤ 2 * n - 3 := by
        rw [e] at hc
        simpa using hc
      obtain ⟨s', hb, g1, g2, g3⟩ := loop2Body_total n fuel s hn h1 h2 (by omega) hfuel
      refine ⟨s', hb, ⟨g1, by omega, by omega, ?_⟩, by dsimp only; omega⟩
      intro i hi
      exact ⟨(g3 i hi).1.trans (h4 i hi).1, (g3 i hi).2.trans (h4 i hi).2⟩)
    fuel s0 ⟨hS, by omega, by omega, fun _ _ => ⟨rfl, rfl⟩⟩ (by dsimp only; omega)
  exact ⟨s, hs, hI.1, hI.2.2.2⟩

theorem closing_total (n : Nat) (s : St K) (hn2 : 2 ≤ n) (hn : 3 * n < 4294967296)
    (hS : Sized n s) :
    ∃ s', closing n s = .ok s' ∧ s'.alpha.length = 2 * n + 1 ∧ s'.beta = s.beta ∧
      ∀ i, i < 3 * n / 2 + 1 → s'.alpha[i]? = s.alpha[i]? := by
  obtain ⟨hA, hB, hSg, hT⟩ := hS
  have e1 : u32 ((n : Int) - 1) = ((n : Int) - 1).toNat := u32_of_range (by omega) (by omega)
  have e2 : u32 (2 * (n : Int)) = (2 * (n : Int)).toNat := u32_of_range (by omega) (by omega)
  generalize hr : closing n s = r
  simp (disch := omega) only [closing, Run.bind_eq, Run.pure_eq, e1, e2, rd_of_lt (0 : K),
    wr_of_lt, Run.ok_bind] at hr
  subst hr
  refine ⟨_, rfl, by simpa using hA, rfl, ?_⟩
  intro i hi
  show (s.alpha.set _ _)[i]? = _
  rw [List.getElem?_set_ne]
  omega

/-- The statements before Loop 2 run through and leave the copied rows in place. -/
theorem passOne_total (n fuel : Nat) (ab0 : Table K) (hn2 : 2 ≤ n) (hn : 3 * n < 4294967296)
    (hlen : 3 * n / 2 + 1 ≤ ab0.length) (hfuel : 3 * n / 2 + 1 ≤ fuel) :
    ∃ s, passOne fuel n ab0 = .ok s ∧ Sized n s ∧
      ∀ i, i < 3 * n / 2 + 1 →
        s.alpha[i]? = (ab0.map Prod.fst)[i]? ∧ s.beta[i]? = (ab0.map Prod.snd)[i]? := by
  have eN : u32 (2 * (n : Int) + 1) = 2 * n + 1 := by
    rw [u32_of_range (by omega) (by omega)]
    omega
  have ec := copyBound_eq hn
  obtain ⟨s1, h1, a1, a2, a3, a4, a5⟩ := copyAlpha_total ab0 (copyBound n) fuel
    { alpha := List.replicate (u32 (2 * (n : Int) + 1)) 0
      beta := List.replicate (u32 (2 * (n : Int) + 1)) 0
      sig := [], sigT := [], temp := 0, j := 0, k := 0, l := 0, m := 0 } rfl
    (by rw [ec]; exact hlen) (by simp only [List.length_replicate, eN, ec]; omega)
    (by rw [ec]; exact hfuel)
  simp only [List.length_replicate, eN] at a1 a2
  obtain ⟨s2, h2, b1, b2, b3, b4, b5⟩ := copyBeta_total ab0 (copyBound n) fuel
    { s1 with k := 0 } rfl (by rw [ec]; exact hlen)
    (by show copyBound n ≤ s1.beta.length; rw [a2, List.length_replicate, ec]; omega)
    (by rw [ec]; exact hfuel)
  have b1' : s2.beta.length = 2 * n + 1 := by
    rw [b1]
    show s1.beta.length = _
    rw [a2, List.length_replicate]
  have b2' : s2.alpha = s1.alpha := b2
  have e1 : u32 ((n : Int) + 1) = ((n : Int) + 1).toNat := u32_of_range (by omega) (by omega)
  have hS3 : Sized n { s2 with
      sig := List.replicate (n / 2 + 2) 0,
      sigT := (List.replicate (n / 2 + 2) (0 : K)).set 1 (s2.beta.getD ((n : Int) + 1).toNat 0),
      m := 0 } :=
    ⟨by show s2.alpha.length = _; rw [b2', a1], b1', by simp, by simp⟩
  obtain ⟨s3, h3, c1, c2, c3⟩ := loop1_total n fuel _ hn2 hn hS3 rfl (by omega)
  obtain ⟨s4, h4, d1, d2, d3⟩ := shift_total n fuel { s3 with j := i32 (n / 2) } (by omega) c3
    (i32_of_lt (by omega)) (by omega)
  refine ⟨s4, ?_, d3, ?_⟩
  · unfold passOne
    have hw : wr (List.replicate (n / 2 + 2) (0 : K)) 1 (s2.beta.getD ((n : Int) + 1).toNat 0)
        = .ok ((List.replicate (n / 2 + 2) (0 : K)).set 1
            (s2.beta.getD ((n : Int) + 1).toNat 0)) := by
      rw [wr_of_lt _ (by omega) (by rw [List.length_replicate]; omega)]
      rfl
    simp only [Run.bind_eq, Run.pure_eq, h1, Run.ok_bind, h2, e1,
      rd_of_lt (0 : K) (show (0 : Int) ≤ (((n : Int) + 1).toNat : Int) by omega)
        (show ((((n : Int) + 1).toNat : Nat) : Int) < (s2.beta.length : Int) by omega),
      Int.toNat_ofNat, hw, h3, h4]
  · intro i hi
    constructor
    · rw [d1]
      show s3.alpha[i]? = _
      rw [c1]
      show s2.alpha[i]? = _
      rw [b2']
      exact a5 i (by rw [ec]; exact hi)
    · rw [d2]
      show s3.beta[i]? = _
      rw [c2]
      exact b5 i (by rw [ec]; exact hi)

/-- For `2 ≤ nNodes` with `3 * nNodes` representable and a table of at least
`⌊3 nNodes / 2⌋ + 1` rows, `kronrodRecurrenceCoeff` returns a table of `2 nNodes + 1` rows
whose rows `0..⌊3 nNodes / 2⌋` are those of the input, whatever the scalars are. -/
theorem kronrodRecurrenceCoeff_total (n fuel : Nat) (ab0 : Table K) (hn2 : 2 ≤ n)
    (hn : 3 * n < 4294967296) (hlen : 3 * n / 2 + 1 ≤ ab0.length)
    (hfuel : 3 * n / 2 + 1 ≤ fuel) :
    ∃ out, kronrodRecurrenceCoeff fuel n ab0 = .ok out ∧ out.length = 2 * n + 1 ∧
      ∀ i, i < 3 * n / 2 + 1 → out[i]? = ab0[i]? := by
  obtain ⟨s1, h1, a1, a2⟩ := passOne_total n fuel ab0 hn2 hn hlen hfuel
  have e : u32 ((n : Int) - 1) = n - 1 := by
    rw [u32_of_range (by omega) (by omega)]
    omega
  obtain ⟨s2, h2, b1, b2⟩ := loop2_total n fuel { s1 with m := u32 ((n : Int) - 1) } hn2 hn a1 e
    (by omega)
  obtain ⟨s3, h3, c1, c2, c3⟩ := closing_total n s2 hn2 hn b1
  refine ⟨List.zip s3.alpha s3.beta, ?_, ?_, ?_⟩
  · simp only [kronrodRecurrenceCoeff, Run.bind_eq, Run.pure_eq, h1, Run.ok_bind, h2, h3]
  · rw [List.length_zip, c1, c2, b1.2.1]
    simp
  · intro i hi
    have hA : s3.alpha[i]? = (ab0.map Prod.fst)[i]? :=
      (c3 i hi).trans (((b2 i hi).1).trans (a2 i hi).1)
    have hB : s3.beta[i]? = (ab0.map Prod.snd)[i]? := by
      rw [c2]
      exact ((b2 i hi).2).trans (a2 i hi).2
    have hi2 : i < ab0.length := by omega
    rw [List.getElem?_eq_getElem hi2]
    rw [List.getElem?_zip_eq_some, hA, hB]
    simp [hi2]

end ExtensionFacts

section JacobiFacts

variable {K : Type} [Zero K] [One K] [NatCast K] [Add K] [Sub K] [Mul K] [Div K]

/-- The two rows that `jacobiRecurrenceCoeffZeroToOne(2, alpha, beta)` returns. -/
theorem jacobiRecurrenceCoeffZeroToOne_two (lm : Libm K) (junk : Nat → K) (fuel : Nat)
    (alpha beta : K) (hfuel : 2 ≤ fuel) :
    ∃ r0 r1, jacobiRecurrenceCoeffZeroToOne lm junk fuel 2 alpha beta = .ok [r0, r1] := by
  obtain ⟨f, rfl⟩ : ∃ f, fuel = f + 2 := ⟨fuel - 2, by omega⟩
  simp [jacobiRecurrenceCoeffZeroToOne, jacobiRecurrenceCoeff, whileLoop, jacobiBody,
    rescaleAlphaBody, rescaleBetaBody, rd, wr, wr0, wr1, List.range, List.range.loop,
    List.replicate, whileLoop_done]

theorem jacobiRecurrenceCoeff_eq_tab (lm : Libm K) (junk : Nat → K) (fuel nNodes : Nat)
    (alpha beta : K) (hn : 2 ≤ nNodes) (hfuel : nNodes ≤ fuel) :
    jacobiRecurrenceCoeff lm junk fuel nNodes alpha beta
      = .ok (tab nNodes (jacobiRow lm junk alpha beta)) := by
  have hne : nNodes ≠ 1 := by omega
  let Af : Nat → K := fun i => (jacobiRow lm junk alpha beta i).1
  let Bf : Nat → K := fun i => 4 * (alpha + (i : K)) * (beta + (i : K)) * (i : K) * (alpha + beta + (i : K))
        / (((2 * (i : K) + alpha + beta) * (2 * (i : K) + alpha + beta))
          * ((2 * (i : K) + alpha + beta) + 1) * ((2 * (i : K) + alpha + beta) - 1))
  obtain ⟨s, hs, ⟨hA, hB, h1, h2⟩, hc⟩ := whileLoop_total
    (fun s : JacSt K => decide (s.n < nNodes)) (jacobiBody lm alpha beta)
    (fun s => s.A = tab nNodes (fun i => if 1 ≤ i ∧ i < s.n then Af i else junk i)
      ∧ s.B = tab nNodes (fun i => if 1 ≤ i ∧ i < s.n then Bf i else junk (nNodes + i))
      ∧ 1 ≤ s.n ∧ s.n ≤ nNodes)
    (fun s => nNodes - s.n)
    (by
      rintro s ⟨hA, hB, h1, h2⟩ hc
      have hlt : s.n < nNodes := by simpa using hc
      have hb : jacobiBody lm alpha beta s = .ok
          { A := tab nNodes (Function.update
              (fun i => if 1 ≤ i ∧ i < s.n then Af i else junk i) s.n (Af s.n))
            B := tab nNodes (Function.update
              (fun i => if 1 ≤ i ∧ i < s.n then Bf i else junk (nNodes + i)) s.n (Bf s.n))
            n := s.n + 1 } := by
        have : s.n ≠ 0 := by omega
        simp only [jacobiBody, Run.bind_eq, Run.pure_eq, hA, hB, wr_tab_nat _ hlt, Run.ok_bind,
          Af, Bf, jacobiRow, this, if_false]
      refine ⟨_, hb, ⟨?_, ?_, ?_, ?_⟩, ?_⟩
      · apply tab_congr
        intro i _
        simp only [Function.update_apply]
        by_cases hi : i = s.n
        · subst hi
          simp [h1]
        · have : (1 ≤ i ∧ i < s.n + 1) ↔ (1 ≤ i ∧ i < s.n) := by omega
          simp [hi, this]
      · apply tab_congr
        intro i _
        simp only [Function.update_apply]
        by_cases hi : i = s.n
        · subst hi
          simp [h1]
        · have : (1 ≤ i ∧ i < s.n + 1) ↔ (1 ≤ i ∧ i < s.n) := by omega
          simp [hi, this]
      · show 1 ≤ s.n + 1
        omega
      · show s.n + 1 ≤ nNodes
        omega
      · show nNodes - (s.n + 1) < nNodes - s.n
        omega)
    fuel
    { A := (List.range nNodes).map junk
      B := (List.range nNodes).map (fun i => junk (nNodes + i)), n := 1 }
    ⟨by
        show tab nNodes junk = _
        apply tab_congr
        intro i _
        have : ¬ (1 ≤ i ∧ i < 1) := by omega
        simp only [this, if_false],
      by
        show tab nNodes (fun i => junk (nNodes + i)) = _
        apply tab_congr
        intro i _
        have : ¬ (1 ≤ i ∧ i < 1) := by omega
        simp only [this, if_false],
      le_refl _, by show 1 ≤ nNodes; omega⟩
    (by show nNodes - 1 ≤ fuel; omega)
  have hn' : s.n = nNodes := by
    have : ¬ s.n < nNodes := by simpa using hc
    omega
  simp only [jacobiRecurrenceCoeff, hne, if_false, Run.bind_eq, Run.pure_eq, hs, Run.ok_bind, hB]
  have h0 : (0 : Int) = ((0 : Nat) : Int) := rfl
  have h1' : (1 : Int) = ((1 : Nat) : Int) := rfl
  rw [h0, wr_tab_nat _ (by omega), Run.ok_bind, h1', wr_tab_nat _ (by omega), Run.ok_bind, hA,
    zip_tab]
  congr 1
  apply tab_congr
  intro i hi
  simp only [Function.update_apply, jacobiRow, hn']
  by_cases hi0 : i = 0
  · subst hi0
    simp
  · by_cases hi1 : i = 1
    · subst hi1
      simp [Af, jacobiRow, hn]
      omega
    · have : 1 ≤ i ∧ i < nNodes := by omega
      simp [hi0, hi1, this, Af, Bf, jacobiRow]


theorem wr0_tab_nat {n : Nat} {g : Nat → K × K} {i : Nat} (v : K) (h : i < n) :
    wr0 (tab n g) (i : Int) v = .ok (tab n (Function.update g i (v, (g i).2))) := by
  simp only [wr0, Run.bind_eq, rd_tab_nat h, Run.ok_bind, wr_tab_nat _ h]

theorem wr1_tab_nat {n : Nat} {g : Nat → K × K} {i : Nat} (v : K) (h : i < n) :
    wr1 (tab n g) (i : Int) v = .ok (tab n (Function.update g i ((g i).1, v))) := by
  simp only [wr1, Run.bind_eq, rd_tab_nat h, Run.ok_bind, wr_tab_nat _ h]

theorem jacobiRecurrenceCoeffZeroToOne_eq_tab (lm : Libm K) (junk : Nat → K)
    (fuel nNodes : Nat) (alpha beta : K) (c : Nat → K × K) (hn : 1 ≤ nNodes)
    (hfuel : nNodes ≤ fuel)
    (hc : jacobiRecurrenceCoeff lm junk fuel nNodes alpha beta = .ok (tab nNodes c)) :
    jacobiRecurrenceCoeffZeroToOne lm junk fuel nNodes alpha beta
      = .ok (tab nNodes (rescaleRow lm alpha beta c)) := by
  obtain ⟨s, hs, ⟨hT, _, hle⟩, hcond⟩ := whileLoop_total
    (fun s : RescaleSt K => decide (s.i < nNodes))
    (rescaleAlphaBody (tab nNodes c))
    (fun s => s.alphaBeta = tab nNodes (fun i => if i < s.i then ((1 + (c i).1) / 2, 0) else (0, 0))
      ∧ 0 ≤ s.i ∧ s.i ≤ nNodes)
    (fun s => nNodes - s.i)
    (by
      rintro s ⟨hT, h1, h2⟩ hc
      have hlt : s.i < nNodes := by simpa using hc
      have hb : rescaleAlphaBody (tab nNodes c) s = .ok
          { alphaBeta := tab nNodes (Function.update
              (fun i => if i < s.i then ((1 + (c i).1) / 2, (0 : K)) else (0, 0)) s.i
              ((1 + (c s.i).1) / 2, 0))
            i := s.i + 1 } := by
        simp only [rescaleAlphaBody, Run.bind_eq, Run.pure_eq, hT, rd_tab_nat hlt, Run.ok_bind,
          wr0_tab_nat _ hlt, lt_irrefl, if_false]
      refine ⟨_, hb, ⟨?_, ?_, ?_⟩, ?_⟩
      · apply tab_congr
        intro i _
        simp only [Function.update_apply]
        by_cases hi : i = s.i
        · subst hi
          simp
        · have : (i < s.i + 1) ↔ (i < s.i) := by omega
          simp [hi, this]
      · exact Nat.zero_le _
      · show s.i + 1 ≤ nNodes
        omega
      · show nNodes - (s.i + 1) < nNodes - s.i
        omega)
    fuel { alphaBeta := List.replicate nNodes (0, 0), i := 0 }
    ⟨by
        show List.replicate nNodes ((0 : K), (0 : K)) = _
        rw [replicate_eq_tab]
        apply tab_congr
        intro i _
        simp, le_refl _, Nat.zero_le _⟩
    (by show nNodes - 0 ≤ fuel; omega)
  have hi : s.i = nNodes := by
    have : ¬ s.i < nNodes := by simpa using hcond
    omega
  obtain ⟨s2, hs2, ⟨hT2, h12, hle2⟩, hcond2⟩ := whileLoop_total
    (fun s : RescaleSt K => decide (s.i < nNodes))
    (rescaleBetaBody (tab nNodes c))
    (fun s => s.alphaBeta = tab nNodes (fun i => if i < s.i then rescaleRow lm alpha beta c i
        else ((1 + (c i).1) / 2, 0))
      ∧ 1 ≤ s.i ∧ s.i ≤ max nNodes 1)
    (fun s => nNodes - s.i)
    (by
      rintro s ⟨hT, h1, h2⟩ hc
      have hlt : s.i < nNodes := by simpa using hc
      have hb : rescaleBetaBody (tab nNodes c) s = .ok
          { alphaBeta := tab nNodes (Function.update
              (fun i => if i < s.i then rescaleRow lm alpha beta c i
                else ((1 + (c i).1) / 2, 0)) s.i
              ((1 + (c s.i).1) / 2, (c s.i).2 / 4))
            i := s.i + 1 } := by
        simp only [rescaleBetaBody, Run.bind_eq, Run.pure_eq, hT, rd_tab_nat hlt, Run.ok_bind,
          wr1_tab_nat _ hlt, lt_irrefl, if_false]
      refine ⟨_, hb, ⟨?_, ?_, ?_⟩, ?_⟩
      · apply tab_congr
        intro i _
        simp only [Function.update_apply]
        by_cases hi : i = s.i
        · rw [hi]
          have : s.i ≠ 0 := by omega
          simp [rescaleRow, this]
        · have : (i < s.i + 1) ↔ (i < s.i) := by omega
          simp [hi, this]
      · show 1 ≤ s.i + 1
        omega
      · show s.i + 1 ≤ max nNodes 1
        omega
      · show nNodes - (s.i + 1) < nNodes - s.i
        omega)
    fuel
    { alphaBeta := tab nNodes (Function.update
        (fun i => if i < nNodes then ((1 + (c i).1) / 2, (0 : K)) else (0, 0)) 0
        ((1 + (c 0).1) / 2, (c 0).2 / lm.pow 2 (alpha + beta + 1))), i := 1 }
    ⟨by
        apply tab_congr
        intro i hin
        simp only [Function.update_apply]
        by_cases hi : i = 0
        · subst hi
          simp [rescaleRow]
        · have : ¬ i < 1 := by omega
          simp [hi, this, hin], le_refl _, by show 1 ≤ max nNodes 1; omega⟩
    (by show nNodes - 1 ≤ fuel; omega)
  have hi2 : s2.i = nNodes := by
    have : ¬ s2.i < nNodes := by simpa using hcond2
    omega
  have h0 : (0 : Int) = ((0 : Nat) : Int) := rfl
  have hpos : 0 < nNodes := by omega
  simp only [jacobiRecurrenceCoeffZeroToOne, hc, Run.bind_eq, Run.pure_eq, Run.ok_bind, hs, hT,
    hi, h0, rd_tab_nat hpos, wr1_tab_nat _ hpos, hpos, if_true, hs2, hT2]
  congr 1
  apply tab_congr
  intro i hin
  simp [hi2, hin]


theorem jacobiRecurrenceCoeff_eq (lm : Libm K) (junk : Nat → K) (fuel nNodes : Nat)
    (alpha beta : K) (hn : 1 ≤ nNodes) (hfuel : nNodes ≤ fuel) :
    jacobiRecurrenceCoeff lm junk fuel nNodes alpha beta
      = .ok (tab nNodes (jacobiTableRow lm junk nNodes alpha beta)) := by
  by_cases h1 : nNodes = 1
  · subst h1
    simp [jacobiRecurrenceCoeff, jacobiTableRow, tab, List.range, List.range.loop]
  · rw [jacobiRecurrenceCoeff_eq_tab lm junk fuel nNodes alpha beta (by omega) hfuel]
    congr 1
    apply tab_congr
    intro i _
    simp [jacobiTableRow, h1]

theorem jacobiRecurrenceCoeffZeroToOne_eq (lm : Libm K) (junk : Nat → K) (fuel nNodes : Nat)
    (alpha beta : K) (hn : 1 ≤ nNodes) (hfuel : nNodes ≤ fuel) :
    jacobiRecurrenceCoeffZeroToOne lm junk fuel nNodes alpha beta
      = .ok (tab nNodes (rescaleRow lm alpha beta (jacobiTableRow lm junk nNodes alpha beta))) :=
  jacobiRecurrenceCoeffZeroToOne_eq_tab lm junk fuel nNodes alpha beta _ hn hfuel
    (jacobiRecurrenceCoeff_eq lm junk fuel nNodes alpha beta hn hfuel)

end JacobiFacts

theorem jacobiTableRow_beta_pos (junk : ℕ → ℝ) (sqrt : ℝ → ℝ) (count : ℕ) (alpha beta : ℝ)
    (ha : -1 < alpha) (hb : -1 < beta) (i : ℕ) :
    0 < (jacobiTableRow ⟨fun x y => x ^ y, Real.Gamma, sqrt⟩ junk count alpha beta i).2 := by
  have hmu : 0 < (2 : ℝ) ^ (alpha + beta + 1) * Real.Gamma (alpha + 1) * Real.Gamma (beta + 1)
      / Real.Gamma (alpha + beta + 2) :=
    div_pos (mul_pos (mul_pos (Real.rpow_pos_of_pos (by norm_num) _)
      (Real.Gamma_pos_of_pos (by linarith))) (Real.Gamma_pos_of_pos (by linarith)))
      (Real.Gamma_pos_of_pos (by linarith))
  unfold jacobiTableRow jacobiRow
  by_cases h1 : count = 1
  · simpa [h1] using hmu
  · by_cases hi0 : i = 0
    · simpa [h1, hi0] using hmu
    · by_cases hi1 : i = 1
      · simp only [h1, hi1, if_false, one_ne_zero, if_true]
        have h2 : 0 < alpha + beta + 2 := by linarith
        exact div_pos (mul_pos (mul_pos (by norm_num) (by linarith)) (by linarith))
          (mul_pos (Real.rpow_pos_of_pos h2 _) (by linarith))
      · simp only [h1, hi0, hi1, if_false]
        have hi2 : (2 : ℝ) ≤ (i : ℝ) := by
          have : 2 ≤ i := by omega
          exact_mod_cast this
        have e1 : 0 < alpha + (i : ℝ) := by linarith
        have e2 : 0 < beta + (i : ℝ) := by linarith
        have e3 : 0 < alpha + beta + (i : ℝ) := by linarith
        have e4 : 0 < 2 * (i : ℝ) + alpha + beta := by linarith
        have e5 : 0 < 2 * (i : ℝ) + alpha + beta - 1 := by linarith
        exact div_pos
          (mul_pos (mul_pos (mul_pos (mul_pos (by norm_num) e1) e2) (by linarith)) e3)
          (mul_pos (mul_pos (mul_pos e4 e4) (by linarith)) e5)

section SortFacts
variable {α : Type}

theorem rd_append (l1 : List α) (a : α) (l2 : List α) :
    rd (l1 ++ a :: l2) (l1.length : Int) = .ok a := by
  have h : ¬ ((l1.length : Int) < 0) := by omega
  have h2 : (l1 ++ a :: l2)[l1.length]? = some a := by
    rw [List.getElem?_append_right (le_refl _)]
    simp
  simp only [rd, h, if_false, List.get?_eq_getElem?, Int.toNat_ofNat, h2]

theorem wr_append (l1 : List α) (a v : α) (l2 : List α) :
    wr (l1 ++ a :: l2) (l1.length : Int) v = .ok (l1 ++ v :: l2) := by
  simp [wr]

theorem rd_append_succ (l1 : List α) (a b : α) (l2 : List α) :
    rd (l1 ++ a :: b :: l2) ((l1.length : Int) + 1) = .ok b := by
  have h := rd_append (l1 ++ [a]) b l2
  simpa using h

theorem wr_append_succ (l1 : List α) (a b v : α) (l2 : List α) :
    wr (l1 ++ a :: b :: l2) ((l1.length : Int) + 1) v = .ok (l1 ++ a :: v :: l2) := by
  have h := wr_append (l1 ++ [a]) b v l2
  simpa using h

theorem exists_split_pair (l : List α) (n : Nat) (h : n + 1 < l.length) :
    ∃ l1 a b l2, l = l1 ++ a :: b :: l2 ∧ l1.length = n := by
  refine ⟨l.take n, l[n], l[n + 1], l.drop (n + 2), ?_, ?_⟩
  · rw [← List.drop_eq_getElem_cons (by omega), ← List.drop_eq_getElem_cons (by omega),
      List.take_append_drop]
  · simp
    omega

variable {K : Type} [LinearOrder K]

theorem inversions_append_swap (l1 : List K) (a b : K) (l2 : List K) (h : b < a) :
    inversions (l1 ++ b :: a :: l2) + 1 = inversions (l1 ++ a :: b :: l2) := by
  induction l1 with
  | nil =>
    have h' : ¬ a < b := not_lt.mpr (le_of_lt h)
    simp [inversions, List.countP_cons, h, h']
    omega
  | cons x xs ih =>
    have hp : (xs ++ b :: a :: l2).Perm (xs ++ a :: b :: l2) :=
      List.Perm.append_left _ (List.Perm.swap _ _ _)
    show (xs ++ b :: a :: l2).countP _ + inversions (xs ++ b :: a :: l2) + 1
      = (xs ++ a :: b :: l2).countP _ + inversions (xs ++ a :: b :: l2)
    rw [hp.countP_eq]
    omega

theorem inversions_bound (l : List K) : 2 * inversions l + l.length ≤ l.length * l.length := by
  induction l with
  | nil => simp [inversions]
  | cons x xs ih =>
    have h := List.countP_le_length (fun y => decide (y < x)) (l := xs)
    simp only [inversions, List.length_cons]
    nlinarith


theorem sortBody_step (d0 : List (Cplx K)) (V0 : List (List (Cplx K))) (s : SortSt K)
    (hI : SortInv d0 V0 s) (hc : (!s.sorted) = true) :
    ∃ s', sortBody s = .ok s' ∧ SortInv d0 V0 s' ∧
      sortMeasure d0.length s' < sortMeasure d0.length s := by
  obtain ⟨d, V, i, sorted⟩ := s
  obtain ⟨hd, hV, hi0, hi1, hsort, hperm, hstab⟩ := hI
  simp only at hd hV hi0 hi1 hsort hperm hstab hc
  have hs : sorted = false := by simpa using hc
  subst hs
  simp only [Bool.false_eq_true, if_false] at hi1
  obtain ⟨n, rfl⟩ : ∃ n : Nat, i = (n : Int) := ⟨i.toNat, by omega⟩
  have hn : n + 1 < d0.length := by omega
  obtain ⟨l1, a, b, l2, rfl, hl1⟩ := exists_split_pair d n (by omega)
  obtain ⟨v1, va, vb, v2, rfl, hv1⟩ := exists_split_pair V n (by omega)
  subst hl1
  simp only [Int.toNat_ofNat] at hsort
  have hzip : ∀ (x y : Cplx K) (vx vy : List (Cplx K)),
      List.zip (l1 ++ x :: y :: l2) (v1 ++ vx :: vy :: v2)
        = List.zip l1 v1 ++ (x, vx) :: (y, vy) :: List.zip l2 v2 := by
    intro x y vx vy
    rw [List.zip_append hv1.symm]
    rfl
  have htake : (l1 ++ a :: b :: l2).take (l1.length + 1) = l1 ++ [a] := by
    have : l1 ++ a :: b :: l2 = (l1 ++ [a]) ++ b :: l2 := by simp
    rw [this, List.take_left' (by simp)]
  rw [htake] at hsort
  by_cases hlt : b.re < a.re
  · refine ⟨{ d := l1 ++ b :: a :: l2, V := v1 ++ vb :: va :: v2,
              i := max ((l1.length : Int) - 1) 0, sorted := false }, ?_, ?_, ?_⟩
    · have r1 : rd (v1 ++ va :: vb :: v2) (l1.length : Int) = .ok va := by
        rw [← hv1]
        exact rd_append _ _ _
      have r2 : rd (v1 ++ va :: vb :: v2) ((l1.length : Int) + 1) = .ok vb := by
        rw [← hv1]
        exact rd_append_succ _ _ _ _
      have w1 : wr (v1 ++ va :: vb :: v2) (l1.length : Int) vb = .ok (v1 ++ vb :: vb :: v2) := by
        rw [← hv1]
        exact wr_append _ _ _ _
      have w2 : wr (v1 ++ vb :: vb :: v2) ((l1.length : Int) + 1) va
          = .ok (v1 ++ vb :: va :: v2) := by
        rw [← hv1]
        exact wr_append_succ _ _ _ _ _
      simp only [sortBody, Run.bind_eq, Run.pure_eq, rd_append, rd_append_succ, Run.ok_bind, hlt,
        if_true, wr_append, wr_append_succ, r1, r2, w1, w2]
    · refine ⟨?_, ?_, ?_, ?_, ?_, ?_, ?_⟩
      · simpa using hd
      · simpa using hV
      · exact le_max_right _ _
      · simp only [Bool.false_eq_true, if_false]
        rcases Nat.eq_zero_or_pos l1.length with h0 | h0
        · rw [h0]
          simp
          omega
        · rw [max_eq_left (by omega)]
          omega
      · show ((l1 ++ b :: a :: l2).take ((max ((l1.length : Int) - 1) 0).toNat + 1)).Pairwise _
        rcases Nat.eq_zero_or_pos l1.length with h0 | h0
        · have : l1 = [] := List.length_eq_zero.mp h0
          subst this
          simp
        · have e : (max ((l1.length : Int) - 1) 0).toNat + 1 = l1.length := by
            rw [max_eq_left (by omega)]
            omega
          rw [e, List.take_left' rfl]
          exact (List.pairwise_append.mp hsort).1
      · show (List.zip (l1 ++ b :: a :: l2) (v1 ++ vb :: va :: v2)).Perm _
        rw [hzip] at hperm ⊢
        exact (List.Perm.append_left _ (List.Perm.swap _ _ _)).trans hperm
      · intro x
        have hne : b.re ≠ a.re := ne_of_lt hlt
        have key := hstab x
        show (List.zip (l1 ++ b :: a :: l2) (v1 ++ vb :: va :: v2)).filter _ = _
        rw [hzip] at key ⊢
        rw [← key]
        simp only [List.filter_append, List.filter_cons]
        by_cases hb : b.re = x
        · have ha : ¬ a.re = x := fun h => hne (hb.trans h.symm)
          simp [hb, ha]
        · simp [hb]
    · show 2 * inversions ((l1 ++ b :: a :: l2).map (fun z => z.re))
          + (d0.length - 1 - (max ((l1.length : Int) - 1) 0).toNat)
        < 2 * inversions ((l1 ++ a :: b :: l2).map (fun z => z.re))
          + (d0.length - 1 - ((l1.length : Nat) : Int).toNat)
      have hinv := inversions_append_swap (l1.map (fun z => z.re)) a.re b.re
        (l2.map (fun z => z.re)) hlt
      simp only [List.map_append, List.map_cons, Int.toNat_ofNat]
      have e : l1.length - 1 ≤ (max ((l1.length : Int) - 1) 0).toNat := by
        have := le_max_left ((l1.length : Int) - 1) 0
        omega
      omega
  · have hle : a.re ≤ b.re := not_lt.mp hlt
    refine ⟨{ d := l1 ++ a :: b :: l2, V := v1 ++ va :: vb :: v2, i := (l1.length : Int) + 1,
              sorted := decide ((l1.length : Int) + 1
                = ((l1 ++ a :: b :: l2).length : Int) - 1) }, ?_, ?_, ?_⟩
    · simp only [sortBody, Run.bind_eq, Run.pure_eq, rd_append, rd_append_succ, Run.ok_bind, hlt,
        if_false]
    · refine ⟨hd, hV, (by show (0 : Int) ≤ (l1.length : Int) + 1; omega), ?_, ?_, hperm, hstab⟩
      · show (if decide ((l1.length : Int) + 1 = ((l1 ++ a :: b :: l2).length : Int) - 1) = true
          then (l1.length : Int) + 1 + 1 = d0.length else (l1.length : Int) + 1 + 1 < d0.length)
        rw [hd]
        by_cases h : (l1.length : Int) + 1 = (d0.length : Int) - 1
        · simp only [h, decide_True, if_true]
          omega
        · simp only [h, decide_False, Bool.false_eq_true, if_false]
          omega
      · show ((l1 ++ a :: b :: l2).take (((l1.length : Int) + 1).toNat + 1)).Pairwise _
        have e : ((l1.length : Int) + 1).toNat + 1 = (l1 ++ [a, b]).length := by
          simp
        have e2 : l1 ++ a :: b :: l2 = (l1 ++ [a, b]) ++ l2 := by simp
        rw [e2, List.take_left' e.symm]
        rw [List.pairwise_append] at hsort ⊢
        obtain ⟨h1, _, h3⟩ := hsort
        refine ⟨h1, by simp [hle], ?_⟩
        intro x hx y hy
        have hxa := h3 x hx a (by simp)
        simp only [List.mem_cons, List.mem_singleton, List.not_mem_nil, or_false] at hy
        rcases hy with rfl | rfl
        · exact hxa
        · exact le_trans hxa hle
    · show 2 * inversions ((l1 ++ a :: b :: l2).map (fun z => z.re))
          + (d0.length - 1 - ((l1.length : Int) + 1).toNat)
        < 2 * inversions ((l1 ++ a :: b :: l2).map (fun z => z.re))
          + (d0.length - 1 - ((l1.length : Nat) : Int).toNat)
      have e : ((l1.length : Int) + 1).toNat = l1.length + 1 := by omega
      rw [e, Int.toNat_ofNat]
      omega

theorem insertionSort_spec (d : List (Cplx K)) (V : List (List (Cplx K))) (fuel : Nat)
    (hm : 2 ≤ d.length) (hV : V.length = d.length) (hfuel : d.length * d.length ≤ fuel) :
    ∃ s, insertionSort fuel d V = .ok s ∧ SortInv d V s ∧ s.sorted = true := by
  obtain ⟨s, hs, hI, hc⟩ := whileLoop_total (fun s : SortSt K => !s.sorted)
    sortBody (SortInv d V) (sortMeasure d.length) (sortBody_step d V) fuel
    { d := d, V := V, i := 0, sorted := false }
    ⟨rfl, hV, le_refl _, by
        show (if false = true then (0 : Int) + 1 = d.length else (0 : Int) + 1 < d.length)
        simp only [Bool.false_eq_true, if_false]
        omega,
      by
        show (d.take ((0 : Int).toNat + 1)).Pairwise _
        match d, hm with
        | a :: rest, _ => simp,
      List.Perm.refl _, fun _ => rfl⟩
    (by
      show 2 * inversions (d.map (fun z => z.re)) + (d.length - 1 - (0 : Int).toNat) ≤ fuel
      have := inversions_bound (d.map (fun z => z.re))
      simp only [List.length_map] at this
      simp only [Int.toNat_zero]
      omega)
  exact ⟨s, hs, hI, by simpa using hc⟩

theorem SortInv.sorted_of_done {d0 : List (Cplx K)} {V0 : List (List (Cplx K))} {s : SortSt K}
    (hI : SortInv d0 V0 s) (hs : s.sorted = true) :
    s.d.Pairwise (fun a b => a.re ≤ b.re) := by
  obtain ⟨hd, _, hi0, hi1, hsort, _, _⟩ := hI
  simp only [hs, if_true] at hi1
  have e : s.i.toNat + 1 = s.d.length := by omega
  rw [e, List.take_length] at hsort
  exact hsort

end SortFacts

section StableSort

variable {K : Type} [LinearOrder K] {β : Type}

/-- A list sorted by key is determined by the order in which each key class appears. -/
theorem stable_sorted_unique (key : β → K) :
    ∀ (l l' : List β), l.Pairwise (fun a b => key a ≤ key b) →
      l'.Pairwise (fun a b => key a ≤ key b) →
      (∀ x : K, l.filter (fun p => decide (key p = x)) = l'.filter (fun p => decide (key p = x))) →
      l = l' := by
  intro l
  induction l with
  | nil =>
    intro l' _ _ h
    cases l' with
    | nil => rfl
    | cons p' t' =>
      have := h (key p')
      simp at this
  | cons p t ih =>
    intro l' hl hl' h
    cases l' with
    | nil =>
      have := h (key p)
      simp at this
    | cons p' t' =>
      rw [List.pairwise_cons] at hl hl'
      have hk : key p = key p' := by
        apply le_antisymm
        · have hmem : p' ∈ (p :: t).filter (fun q => decide (key q = key p')) := by
            rw [h (key p')]
            simp
          rw [List.mem_filter, List.mem_cons] at hmem
          rcases hmem.1 with rfl | hq
          · exact le_refl _
          · exact hl.1 p' hq
        · have hmem : p ∈ (p' :: t').filter (fun q => decide (key q = key p)) := by
            rw [← h (key p)]
            simp
          rw [List.mem_filter, List.mem_cons] at hmem
          rcases hmem.1 with rfl | hq
          · exact le_refl _
          · exact hl'.1 p hq
      have h0 := h (key p)
      simp only [List.filter_cons, decide_True, if_true, hk] at h0
      rw [← hk] at h0
      simp only [decide_True, if_true, List.cons.injEq] at h0
      obtain ⟨rfl, h0t⟩ := h0
      congr 1
      apply ih t' hl.2 hl'.2
      intro x
      by_cases hx : key p = x
      · subst hx
        exact h0t
      · have := h x
        simpa [List.filter_cons, hx] using this

theorem filter_orderedInsert (key : β → K) (x : K) (a : β) :
    ∀ l : List β, (List.orderedInsert (fun p q => key p ≤ key q) a l).filter
        (fun p => decide (key p = x))
      = (a :: l).filter (fun p => decide (key p = x)) := by
  intro l
  induction l with
  | nil => rfl
  | cons b t ih =>
    by_cases hab : key a ≤ key b
    · rw [List.orderedInsert, if_pos hab]
    · rw [List.orderedInsert, if_neg hab]
      have hne : key b ≠ key a := ne_of_lt (not_le.mp hab)
      rw [List.filter_cons, ih]
      by_cases hb : key b = x
      · have ha : ¬ key a = x := fun h => hne (hb.trans h.symm)
        simp [List.filter_cons, hb, ha]
      · simp [List.filter_cons, hb]

theorem filter_insertionSort (key : β → K) (x : K) :
    ∀ l : List β, (List.insertionSort (fun p q => key p ≤ key q) l).filter
        (fun p => decide (key p = x))
      = l.filter (fun p => decide (key p = x)) := by
  intro l
  induction l with
  | nil => rfl
  | cons a t ih =>
    rw [List.insertionSort, filter_orderedInsert, List.filter_cons, List.filter_cons, ih]

end StableSort

section WeightFacts
variable {K : Type} [LinearOrderedField K]

theorem firstRow_eq (V : List (List (Cplx K))) (h : ∀ col ∈ V, col ≠ []) :
    firstRow V = .ok (V.map (fun col => col.headD ⟨0, 0⟩)) := by
  induction V with
  | nil => rfl
  | cons col rest ih =>
    have hc : col ≠ [] := h col (by simp)
    have hr := ih (fun c hc => h c (by simp [hc]))
    cases col with
    | nil => exact absurd rfl hc
    | cons z zs =>
      simp [firstRow, rd, hr]

theorem sum_zipWith_eq (f : Cplx K → Cplx K → K) (m : Nat) (a b : List (Cplx K))
    (ha : a.length = m) (hb : b.length = m) :
    (List.zipWith f a b).sum = ∑ r : Fin m, f (a.getD r ⟨0, 0⟩) (b.getD r ⟨0, 0⟩) := by
  rw [← List.sum_ofFn]
  congr 1
  apply List.ext_getElem
  · simp [ha, hb]
  · intro i h1 h2
    simp at h1
    simp [List.getD_eq_getElem, ha, hb, h1]

theorem sum_map_eq (g : List (Cplx K) → K) (V : List (List (Cplx K))) :
    (V.map g).sum = ∑ c : Fin V.length, g (V.getD c []) := by
  rw [← List.sum_ofFn]
  congr 1
  apply List.ext_getElem
  · simp
  · intro i h1 h2
    simp at h1
    simp [List.getD_eq_getElem, h1]

theorem RealOrthogonal.first_row {m : Nat} {V : List (List (Cplx K))}
    (h : RealOrthogonal m V) (hm : 0 < m) :
    (V.map (fun col => (col.headD ⟨0, 0⟩).re * (col.headD ⟨0, 0⟩).re)).sum = 1 := by
  obtain ⟨hlen, hcol, horth⟩ := h
  subst hlen
  let M : Matrix (Fin V.length) (Fin V.length) K :=
    fun r c => ((V.getD c []).getD r ⟨0, 0⟩).re
  have hcl : ∀ i : Fin V.length, (V.getD i []).length = V.length := by
    intro i
    apply (hcol _ _).1
    rw [List.getD_eq_getElem _ _ i.2]
    exact List.getElem_mem _
  have h1 : M.transpose * M = 1 := by
    ext i j
    rw [Matrix.mul_apply, Matrix.one_apply]
    have := horth i j i.2 j.2
    rw [sum_zipWith_eq _ V.length _ _ (hcl i) (hcl j)] at this
    simp only [Matrix.transpose_apply, M]
    rw [this]
    simp [Fin.ext_iff]
  have h2 : M * M.transpose = 1 := Matrix.mul_eq_one_comm.mp h1
  have h3 := congrFun (congrFun h2 ⟨0, hm⟩) ⟨0, hm⟩
  rw [Matrix.mul_apply, Matrix.one_apply] at h3
  simp only [Matrix.transpose_apply, M, if_true] at h3
  rw [sum_map_eq]
  rw [← h3]
  apply Finset.sum_congr rfl
  intro c _
  have : ∀ l : List (Cplx K), l.headD ⟨0, 0⟩ = l.getD 0 ⟨0, 0⟩ := by
    intro l
    cases l <;> rfl
  rw [this]


theorem RealOrthogonal.perm {m : Nat} {V V' : List (List (Cplx K))}
    (h : RealOrthogonal m V) (hp : V'.Perm V) :
    V'.length = m ∧ (∀ col ∈ V', col ≠ []) ∨ m = 0 := by
  rcases Nat.eq_zero_or_pos m with h0 | h0
  · exact Or.inr h0
  · refine Or.inl ⟨hp.length_eq.trans h.1, ?_⟩
    intro col hc hnil
    have := (h.2.1 col (hp.mem_iff.mp hc)).1
    rw [hnil] at this
    simp at this
    omega

end WeightFacts

section MatrixFacts
variable {K : Type} [Zero K] [One K] [NatCast K] [Add K] [Sub K] [Mul K] [Div K]

theorem rd2_total {N : Nat} {J : List (List K)} (hJ : Square N J) (i j : Nat) (hi : i < N)
    (hj : j < N) : rd2 J (i : Int) (j : Int) = .ok (ent J i j) := by
  have h1 := hJ.2 i hi
  simp only [rd2, Run.bind_eq]
  rw [rd_of_lt [] (by omega) (by rw [hJ.1]; omega), Run.ok_bind,
    rd_of_lt 0 (by omega) (by rw [Int.toNat_ofNat, h1]; omega)]
  simp [ent]

theorem getD_set {α : Type} (l : List α) (i j : Nat) (a d : α) :
    (l.set i a).getD j d = if i = j ∧ i < l.length then a else l.getD j d := by
  rw [List.getD_eq_getElem?_getD, List.getD_eq_getElem?_getD, List.getElem?_set]
  by_cases h1 : i = j
  · subst h1
    by_cases h2 : i < l.length
    · simp [h2]
    · have h3 : l[i]? = none := List.getElem?_eq_none (by omega)
      simp [h2, h3]
  · simp [h1]

theorem wr2_total {N : Nat} {J : List (List K)} (hJ : Square N J) (i j : Nat) (v : K)
    (hi : i < N) (hj : j < N) :
    ∃ J', wr2 J (i : Int) (j : Int) v = .ok J' ∧ Square N J' ∧
      ∀ a b, ent J' a b = if a = i ∧ b = j then v else ent J a b := by
  have h1 := hJ.2 i hi
  have h0 := hJ.1
  refine ⟨J.set i ((J.getD i []).set j v), ?_, ⟨?_, ?_⟩, ?_⟩
  · simp only [wr2, Run.bind_eq]
    rw [rd_of_lt [] (by omega) (by rw [hJ.1]; omega), Run.ok_bind,
      wr_of_lt _ (by omega) (by rw [Int.toNat_ofNat, h1]; omega), Run.ok_bind,
      wr_of_lt _ (by omega) (by rw [hJ.1]; omega)]
    simp
  · simp [hJ.1]
  · intro a ha
    rw [getD_set]
    by_cases hai : i = a
    · subst hai
      simp only [true_and, h0, hi, if_true, List.length_set]
      exact h1
    · simp only [hai, false_and, if_false]
      exact hJ.2 a ha
  · intro a b
    unfold ent
    rw [getD_set]
    by_cases hai : i = a
    · subst hai
      simp only [true_and, h0, hi, if_true, getD_set, h1]
      by_cases hbj : j = b
      · subst hbj
        simp [hj]
      · have : ¬ b = j := fun h => hbj h.symm
        simp [hbj, this]
    · have : ¬ a = i := fun h => hai h.symm
      simp [hai, this]

theorem square_replicate (N : Nat) : Square N (List.replicate N (List.replicate N (0 : K))) := by
  refine ⟨by simp, ?_⟩
  intro a ha
  rw [List.getD_eq_getElem _ _ (by simp [ha])]
  simp


theorem matrixBody_step (lm : Libm K) (N : Nat) (ab0 : Table K) (s : MatSt K)
    (hJ : Square N s.J) (hlen : ab0.length = N) (hk : s.k + 1 < N) :
    ∃ J', matrixBody lm ab0 s = .ok { J := J', k := s.k + 1 } ∧ Square N J' ∧
      ent J' s.k s.k = (ab0.getD s.k (0, 0)).1 ∧
      ent J' s.k (s.k + 1) = lm.sqrt (ab0.getD (s.k + 1) (0, 0)).2 ∧
      ent J' (s.k + 1) s.k = lm.sqrt (ab0.getD (s.k + 1) (0, 0)).2 ∧
      ∀ a b, ¬ (a = s.k ∧ b = s.k) → ¬ (a = s.k ∧ b = s.k + 1) → ¬ (a = s.k + 1 ∧ b = s.k) →
        ent J' a b = ent s.J a b := by
  have e : ((s.k : Int) + 1) = ((s.k + 1 : Nat) : Int) := by push_cast; rfl
  obtain ⟨J1, w1, q1, p1⟩ := wr2_total hJ s.k s.k (ab0.getD s.k (0, 0)).1 (by omega) (by omega)
  obtain ⟨J2, w2, q2, p2⟩ := wr2_total q1 s.k (s.k + 1) (lm.sqrt (ab0.getD (s.k + 1) (0, 0)).2)
    (by omega) (by omega)
  obtain ⟨J3, w3, q3, p3⟩ := wr2_total q2 (s.k + 1) s.k (ent J2 s.k (s.k + 1)) (by omega)
    (by omega)
  refine ⟨J3, ?_, q3, ?_, ?_, ?_, ?_⟩
  · simp only [matrixBody, Run.bind_eq, Run.pure_eq, e]
    rw [rd_of_lt (0, 0) (by omega) (by omega), Run.ok_bind, Int.toNat_ofNat, w1, Run.ok_bind,
      rd_of_lt (0, 0) (by omega) (by omega), Run.ok_bind, Int.toNat_ofNat, w2, Run.ok_bind,
      rd2_total q2 s.k (s.k + 1) (by omega) (by omega), Run.ok_bind, w3, Run.ok_bind]
  · simp [p3, p2, p1]
  · simp [p3, p2]
  · simp [p3, p2]
  · intro a b h1 h2 h3
    simp [p3, p2, p1, h1, h2, h3]

/-- The matrix loop of `kronrod` returns the tridiagonal entries of the Jacobi–Kronrod
matrix: `J(i,i) = alpha_i`, `J(i,i+1) = J(i+1,i) = sqrt(beta_{i+1})`. -/
theorem jacobiKronrodMatrix_total (lm : Libm K) (n fuel : Nat) (ab0 : Table K)
    (hn : 2 * n + 1 < 4294967296) (hlen : ab0.length = 2 * n + 1) (hfuel : 2 * n ≤ fuel) :
    ∃ J, jacobiKronrodMatrix lm fuel n ab0 = .ok J ∧ Square (2 * n + 1) J ∧
      (∀ i, i ≤ 2 * n → ent J i i = (ab0.getD i (0, 0)).1) ∧
      ∀ i, i < 2 * n → ent J i (i + 1) = lm.sqrt (ab0.getD (i + 1) (0, 0)).2 ∧
        ent J (i + 1) i = lm.sqrt (ab0.getD (i + 1) (0, 0)).2 := by
  have eN : u32 (2 * (n : Int) + 1) = 2 * n + 1 := by
    rw [u32_of_range (by omega) (by omega)]
    omega
  have e2 : u32 (2 * (n : Int)) = 2 * n := by
    rw [u32_of_range (by omega) (by omega)]
    omega
  obtain ⟨s, hs, ⟨hQ, hk, hD⟩, hcond⟩ := whileLoop_total
    (fun s : MatSt K => decide (s.k < u32 (2 * (n : Int)))) (matrixBody lm ab0)
    (fun s => Square (2 * n + 1) s.J ∧ s.k ≤ 2 * n ∧
      ∀ i, i < s.k → ent s.J i i = (ab0.getD i (0, 0)).1 ∧
        ent s.J i (i + 1) = lm.sqrt (ab0.getD (i + 1) (0, 0)).2 ∧
        ent s.J (i + 1) i = lm.sqrt (ab0.getD (i + 1) (0, 0)).2)
    (fun s => 2 * n - s.k)
    (by
      rintro s ⟨h1, h2, h3⟩ hc
      have hlt : s.k < 2 * n := by
        rw [e2] at hc
        simpa using hc
      obtain ⟨J', hb, g1, g2, g3, g4, g5⟩ := matrixBody_step lm (2 * n + 1) ab0 s h1 hlen
        (by omega)
      refine ⟨_, hb, ⟨g1, by show s.k + 1 ≤ 2 * n; omega, ?_⟩, by dsimp only; omega⟩
      intro i hi
      have hi' : i < s.k + 1 := hi
      show ent J' i i = _ ∧ ent J' i (i + 1) = _ ∧ ent J' (i + 1) i = _
      by_cases hik : i = s.k
      · subst hik
        exact ⟨g2, g3, g4⟩
      · obtain ⟨a1, a2, a3⟩ := h3 i (by omega)
        refine ⟨?_, ?_, ?_⟩
        · rw [g5 i i (by omega) (by omega) (by omega)]
          exact a1
        · rw [g5 i (i + 1) (by omega) (by omega) (by omega)]
          exact a2
        · rw [g5 (i + 1) i (by omega) (by omega) (by omega)]
          exact a3)
    fuel { J := List.replicate (u32 (2 * (n : Int) + 1)) (List.replicate (u32 (2 * (n : Int) + 1)) 0),
           k := 0 }
    ⟨by rw [eN]; exact square_replicate _, Nat.zero_le _, fun i hi => absurd hi (Nat.not_lt_zero i)⟩
    (by dsimp only; omega)
  have hk2 : s.k = 2 * n := by
    have := of_decide_eq_false hcond
    rw [e2] at this
    omega
  obtain ⟨J', w, q, p⟩ := wr2_total hQ (2 * n) (2 * n) (ab0.getD (2 * n) (0, 0)).1 (by omega)
    (by omega)
  refine ⟨J', ?_, q, ?_, ?_⟩
  · have e3 : ((2 * n : Nat) : Int) = 2 * (n : Int) := by push_cast; rfl
    simp only [jacobiKronrodMatrix, Run.bind_eq, Run.pure_eq]
    rw [hs]
    simp only [Run.ok_bind, e2]
    rw [rd_of_lt (0, 0) (by omega) (by omega)]
    simp only [Run.ok_bind, Int.toNat_ofNat, w]
  · intro i hi
    rw [p]
    by_cases h : i = 2 * n
    · simp [h]
    · simp only [h, false_and, if_false]
      exact (hD i (by omega)).1
  · intro i hi
    rw [p, p]
    have h1 : ¬ (i = 2 * n ∧ i + 1 = 2 * n) := by omega
    have h2 : ¬ (i + 1 = 2 * n ∧ i = 2 * n) := by omega
    simp only [h1, h2, if_false]
    exact (hD i (by omega)).2

end MatrixFacts

/-- The reference table is what `jacobiRecurrenceCoeffZeroToOne(6)` returns when the
uninitialised `A(0)` happens to hold 0. -/
theorem legendreTable6_eq :
    jacobiRecurrenceCoeffZeroToOne libmVal (fun _ => .fin 0) 6 6 (.fin 0) (.fin 0)
      = .ok legendreTable6 := by
  decide!

section JacobiZero

variable {K : Type} [Zero K] [One K] [NatCast K] [Add K] [Sub K] [Mul K] [Div K]

/-- With `nNodes = 0` the loop of `jacobiRecurrenceCoeff` is not entered and `B(0) = mu`
addresses an empty array. -/
theorem jacobiRecurrenceCoeff_zero_fault (lm : Libm K) (junk : Nat → K) (fuel : Nat)
    (alpha beta : K) :
    jacobiRecurrenceCoeff lm junk fuel 0 alpha beta = .fault .indexOutOfRange := by
  have h : ∀ s : JacSt K, whileLoop (fun s : JacSt K => decide (s.n < 0))
      (jacobiBody lm alpha beta) fuel s = .ok s :=
    fun s => whileLoop_done fuel (by simp)
  simp only [jacobiRecurrenceCoeff, h]
  simp [wr]

/-- With `nNodes = 0` the copy loops of `kronrodRecurrenceCoeff` run once and
`sigT(1) = beta(nNodes + 1)` addresses row 1 of a one-element array (row 0 of an empty table
before that). -/
theorem extension_zero_fault (fuel : Nat) (ab0 : Table K) (hfuel : 1 ≤ fuel) :
    kronrodRecurrenceCoeff fuel 0 ab0 = .fault .indexOutOfRange := by
  obtain ⟨f, rfl⟩ : ∃ f, fuel = f + 1 := ⟨fuel - 1, by omega⟩
  cases ab0 with
  | nil =>
    simp [kronrodRecurrenceCoeff, passOne, copyBound, u32, whileLoop, copyAlphaBody, rd]
  | cons r rest =>
    simp [kronrodRecurrenceCoeff, passOne, copyBound, u32, whileLoop, copyAlphaBody,
      copyBetaBody, rd, wr, List.replicate, whileLoop_done]

end JacobiZero

section SortIndex

theorem rd_exists {α : Type} {a : List α} {i : Int} (h0 : 0 ≤ i) (h1 : i < a.length) :
    ∃ x, rd a i = .ok x := by
  have h2 : i.toNat < a.length := by omega
  exact ⟨a[i.toNat], by
    simp [rd, not_lt.mpr h0, List.get?_eq_getElem?, List.getElem?_eq_getElem h2]⟩

theorem loopPrefix_inv {σ : Type} (cond : σ → Bool) (body : σ → Run σ) (Inv : σ → Prop)
    (step : ∀ s, Inv s → cond s = true → ∃ s', body s = .ok s' ∧ Inv s') :
    ∀ (k : Nat) (s : σ), Inv s → ∃ s', loopPrefix cond body k s = .ok s' ∧ Inv s' := by
  intro k
  induction k with
  | zero =>
    intro s hI
    exact ⟨s, rfl, hI⟩
  | succ k ih =>
    intro s hI
    cases hc : cond s with
    | false => exact ⟨s, by simp [loopPrefix, hc], hI⟩
    | true =>
      obtain ⟨s', hb, hI'⟩ := step s hI hc
      obtain ⟨s'', hw, hI''⟩ := ih s' hI'
      refine ⟨s'', ?_, hI''⟩
      simp only [loopPrefix, hc, if_true, hb, Run.ok_bind]
      exact hw

variable {K : Type} [LT K] [DecidableRel (fun a b : K => a < b)]

theorem inversions_swap_of_asymm (hasym : ∀ a b : K, a < b → ¬ b < a) (l1 : List K) (a b : K)
    (l2 : List K) (h : b < a) :
    inversions (l1 ++ b :: a :: l2) + 1 = inversions (l1 ++ a :: b :: l2) := by
  induction l1 with
  | nil =>
    have h' : ¬ a < b := hasym b a h
    simp [inversions, List.countP_cons, h, h']
    omega
  | cons x xs ih =>
    have hp : (xs ++ b :: a :: l2).Perm (xs ++ a :: b :: l2) :=
      List.Perm.append_left _ (List.Perm.swap _ _ _)
    show (xs ++ b :: a :: l2).countP _ + inversions (xs ++ b :: a :: l2) + 1
      = (xs ++ a :: b :: l2).countP _ + inversions (xs ++ a :: b :: l2)
    rw [hp.countP_eq]
    omega

theorem inversions_le_sq (l : List K) : 2 * inversions l + l.length ≤ l.length * l.length := by
  induction l with
  | nil => simp [inversions]
  | cons x xs ih =>
    have h := List.countP_le_length (fun y => decide (y < x)) (l := xs)
    simp only [inversions, List.length_cons]
    nlinarith

/-- One pass of the sorting loop, for a comparison that is asymmetric: the two reads of `d`
(and of `V` on a swap) are in range, the index invariant is kept and the measure drops. -/
theorem sortBody_index_step (hasym : ∀ a b : K, a < b → ¬ b < a) (m : Nat) (s : SortSt K)
    (hI : SortIdx m s) (hc : (!s.sorted) = true) :
    ∃ s', sortBody s = .ok s' ∧ SortIdx m s' ∧ sortVariant m s' < sortVariant m s := by
  obtain ⟨d, V, i, sorted⟩ := s
  obtain ⟨hd, hV, hi0, hi1⟩ := hI
  simp only at hd hV hi0 hi1 hc
  have hs : sorted = false := by simpa using hc
  subst hs
  simp only [Bool.false_eq_true, if_false] at hi1
  obtain ⟨n, rfl⟩ : ∃ n : Nat, i = (n : Int) := ⟨i.toNat, by omega⟩
  have hn : n + 1 < m := by omega
  obtain ⟨l1, a, b, l2, rfl, hl1⟩ := exists_split_pair d n (by omega)
  obtain ⟨v1, va, vb, v2, rfl, hv1⟩ := exists_split_pair V n (by omega)
  subst hl1
  by_cases hlt : b.re < a.re
  · refine ⟨{ d := l1 ++ b :: a :: l2, V := v1 ++ vb :: va :: v2,
              i := max ((l1.length : Int) - 1) 0, sorted := false }, ?_, ?_, ?_⟩
    · have r1 : rd (v1 ++ va :: vb :: v2) (l1.length : Int) = .ok va := by
        rw [← hv1]
        exact rd_append _ _ _
      have r2 : rd (v1 ++ va :: vb :: v2) ((l1.length : Int) + 1) = .ok vb := by
        rw [← hv1]
        exact rd_append_succ _ _ _ _
      have w1 : wr (v1 ++ va :: vb :: v2) (l1.length : Int) vb = .ok (v1 ++ vb :: vb :: v2) := by
        rw [← hv1]
        exact wr_append _ _ _ _
      have w2 : wr (v1 ++ vb :: vb :: v2) ((l1.length : Int) + 1) va
          = .ok (v1 ++ vb :: va :: v2) := by
        rw [← hv1]
        exact wr_append_succ _ _ _ _ _
      simp only [sortBody, Run.bind_eq, Run.pure_eq, rd_append, rd_append_succ, Run.ok_bind, hlt,
        if_true, wr_append, wr_append_succ, r1, r2, w1, w2]
    · refine ⟨?_, ?_, ?_, ?_⟩
      · simpa using hd
      · simpa using hV
      · exact le_max_right _ _
      · simp only [Bool.false_eq_true, if_false]
        rcases Nat.eq_zero_or_pos l1.length with h0 | h0
        · rw [h0]
          simp
          omega
        · rw [max_eq_left (by omega)]
          omega
    · show 2 * inversions ((l1 ++ b :: a :: l2).map (fun z => z.re))
          + (m - 1 - (max ((l1.length : Int) - 1) 0).toNat)
        < 2 * inversions ((l1 ++ a :: b :: l2).map (fun z => z.re))
          + (m - 1 - ((l1.length : Nat) : Int).toNat)
      have hinv := inversions_swap_of_asymm hasym (l1.map (fun z => z.re)) a.re b.re
        (l2.map (fun z => z.re)) hlt
      simp only [List.map_append, List.map_cons, Int.toNat_ofNat]
      have e : l1.length - 1 ≤ (max ((l1.length : Int) - 1) 0).toNat := by
        have := le_max_left ((l1.length : Int) - 1) 0
        omega
      omega
  · refine ⟨{ d := l1 ++ a :: b :: l2, V := v1 ++ va :: vb :: v2, i := (l1.length : Int) + 1,
              sorted := decide ((l1.length : Int) + 1
                = ((l1 ++ a :: b :: l2).length : Int) - 1) }, ?_, ?_, ?_⟩
    · simp only [sortBody, Run.bind_eq, Run.pure_eq, rd_append, rd_append_succ, Run.ok_bind, hlt,
        if_false]
    · refine ⟨hd, hV, (by show (0 : Int) ≤ (l1.length : Int) + 1; omega), ?_⟩
      show (if decide ((l1.length : Int) + 1 = ((l1 ++ a :: b :: l2).length : Int) - 1) = true
        then (l1.length : Int) + 1 + 1 = m else (l1.length : Int) + 1 + 1 < m)
      rw [hd]
      by_cases h : (l1.length : Int) + 1 = (m : Int) - 1
      · simp only [h, decide_True, if_true]
        omega
      · simp only [h, decide_False, Bool.false_eq_true, if_false]
        omega
    · show 2 * inversions ((l1 ++ a :: b :: l2).map (fun z => z.re))
          + (m - 1 - ((l1.length : Int) + 1).toNat)
        < 2 * inversions ((l1 ++ a :: b :: l2).map (fun z => z.re))
          + (m - 1 - ((l1.length : Nat) : Int).toNat)
      have e : ((l1.length : Int) + 1).toNat = l1.length + 1 := by omega
      rw [e, Int.toNat_ofNat]
      omega

end SortIndex

/-- Determinant of a symmetric tridiagonal 5×5 matrix. -/
theorem det_tridiagonal_five (a0 a1 a2 a3 a4 o1 o2 o3 o4 : ℝ) :
    Matrix.det (Matrix.of ![![a0, o1, 0, 0, 0], ![o1, a1, o2, 0, 0], ![0, o2, a2, o3, 0],
      ![0, 0, o3, a3, o4], ![0, 0, 0, o4, a4]])
    = a4 * (a3 * (a2 * (a1 * a0 - o1 ^ 2) - o2 ^ 2 * a0) - o3 ^ 2 * (a1 * a0 - o1 ^ 2))
      - o4 ^ 2 * (a2 * (a1 * a0 - o1 ^ 2) - o2 ^ 2 * a0) := by
  simp [Matrix.det_succ_row_zero, Fin.sum_univ_succ, Matrix.submatrix, Fin.succAbove,
    Fin.succ_ne_zero]
  ring

/-- The matrix that `kronrod` builds from the five rows of the extended Legendre table for
`nNodes = 2`. -/
theorem jacobiKronrodMatrix_two_rows (lm : Libm ℝ) (fuel : Nat) (hfuel : 4 ≤ fuel) :
    jacobiKronrodMatrix lm fuel 2
        [(1/2, 1), (1/2, 1/12), (1/2, 1/15), (1/2, 9/140), (1/2, 1/12)]
      = .ok [[1/2, lm.sqrt (1/12), 0, 0, 0], [lm.sqrt (1/12), 1/2, lm.sqrt (1/15), 0, 0],
          [0, lm.sqrt (1/15), 1/2, lm.sqrt (9/140), 0],
          [0, 0, lm.sqrt (9/140), 1/2, lm.sqrt (1/12)], [0, 0, 0, lm.sqrt (1/12), 1/2]] := by
  obtain ⟨f, rfl⟩ : ∃ f, fuel = f + 4 := ⟨fuel - 4, by omega⟩
  simp [jacobiKronrodMatrix, u32, whileLoop, matrixBody, rd, wr, rd2, wr2, List.replicate,
    whileLoop_done]

/-- The characteristic polynomial of that matrix, in the variable of [-1,1]. -/
theorem charpoly_two_rows (sqrt : ℝ → ℝ) (hs : ∀ b : ℝ, 0 ≤ b → sqrt b ^ 2 = b) (x : ℝ) :
    32 * Matrix.det (Matrix.of fun (i j : Fin 5) => (if i = j then (x + 1) / 2 else 0)
        - ent [[1/2, sqrt (1/12), 0, 0, 0], [sqrt (1/12), 1/2, sqrt (1/15), 0, 0],
          [0, sqrt (1/15), 1/2, sqrt (9/140), 0],
          [0, 0, sqrt (9/140), 1/2, sqrt (1/12)], [0, 0, 0, sqrt (1/12), 1/2]] i j)
      = x * (x ^ 2 - 1/3) * (x ^ 2 - 6/7) := by
  have e : (Matrix.of fun (i j : Fin 5) => (if i = j then (x + 1) / 2 else 0)
        - ent [[1/2, sqrt (1/12), 0, 0, 0], [sqrt (1/12), 1/2, sqrt (1/15), 0, 0],
          [0, sqrt (1/15), 1/2, sqrt (9/140), 0],
          [0, 0, sqrt (9/140), 1/2, sqrt (1/12)], [0, 0, 0, sqrt (1/12), 1/2]] i j)
      = Matrix.of ![![(x + 1) / 2 - 1/2, - sqrt (1/12), 0, 0, 0],
          ![- sqrt (1/12), (x + 1) / 2 - 1/2, - sqrt (1/15), 0, 0],
          ![0, - sqrt (1/15), (x + 1) / 2 - 1/2, - sqrt (9/140), 0],
          ![0, 0, - sqrt (9/140), (x + 1) / 2 - 1/2, - sqrt (1/12)],
          ![0, 0, 0, - sqrt (1/12), (x + 1) / 2 - 1/2]] := by
    have v3 : ((3 : Fin 5) : ℕ) = 3 := rfl
    have v4 : ((4 : Fin 5) : ℕ) = 4 := rfl
    ext i j
    fin_cases i <;> fin_cases j <;> simp [ent, v3, v4] <;> rfl
  rw [e, det_tridiagonal_five]
  have h1 := hs (1/12) (by norm_num)
  have h2 := hs (1/15) (by norm_num)
  have h3 := hs (9/140) (by norm_num)
  simp only [neg_sq, h1, h2, h3]
  ring

section SortPairsFacts

variable {K : Type} [LT K] [DecidableRel (fun a b : K => a < b)] [DecidableEq K]

theorem perm_of_zip_perm {α β : Type} {l l0 : List α} {r r0 : List β}
    (h : (List.zip l r).Perm (List.zip l0 r0)) (h1 : l.length = r.length)
    (h2 : l0.length = r0.length) : l.Perm l0 := by
  have := h.map Prod.fst
  rwa [List.map_fst_zip _ _ (le_of_eq h1), List.map_fst_zip _ _ (le_of_eq h2)] at this

/-- One pass of the sorting loop keeps `SortPairs` and lowers the measure, for a comparison
that is asymmetric and transitive. -/
theorem sortBody_pairs_step (hasym : ∀ a b : K, a < b → ¬ b < a)
    (htrans : ∀ a b c : K, a < b → b < c → a < c) (d0 : List (Cplx K))
    (V0 : List (List (Cplx K))) (hV0 : V0.length = d0.length) (s : SortSt K)
    (hI : SortPairs d0 V0 s) (hc : (!s.sorted) = true) :
    ∃ s', sortBody s = .ok s' ∧ SortPairs d0 V0 s' ∧
      sortVariant d0.length s' < sortVariant d0.length s := by
  obtain ⟨d, V, i, sorted⟩ := s
  obtain ⟨⟨hd, hV, hi0, hi1⟩, hperm, hstab, hsort⟩ := hI
  simp only at hd hV hi0 hi1 hsort hperm hstab hc
  have hs : sorted = false := by simpa using hc
  subst hs
  simp only [Bool.false_eq_true, if_false] at hi1
  obtain ⟨n, rfl⟩ : ∃ n : Nat, i = (n : Int) := ⟨i.toNat, by omega⟩
  have hn : n + 1 < d0.length := by omega
  have hpermd : d.Perm d0 := perm_of_zip_perm hperm (by omega) (by omega)
  obtain ⟨l1, a, b, l2, rfl, hl1⟩ := exists_split_pair d n (by omega)
  obtain ⟨v1, va, vb, v2, rfl, hv1⟩ := exists_split_pair V n (by omega)
  subst hl1
  simp only [Int.toNat_ofNat] at hsort
  have hzip : ∀ (x y : Cplx K) (vx vy : List (Cplx K)),
      List.zip (l1 ++ x :: y :: l2) (v1 ++ vx :: vy :: v2)
        = List.zip l1 v1 ++ (x, vx) :: (y, vy) :: List.zip l2 v2 := by
    intro x y vx vy
    rw [List.zip_append hv1.symm]
    rfl
  have htake : (l1 ++ a :: b :: l2).take (l1.length + 1) = l1 ++ [a] := by
    have : l1 ++ a :: b :: l2 = (l1 ++ [a]) ++ b :: l2 := by simp
    rw [this, List.take_left' (by simp)]
  rw [htake] at hsort
  by_cases hlt : b.re < a.re
  · refine ⟨{ d := l1 ++ b :: a :: l2, V := v1 ++ vb :: va :: v2,
              i := max ((l1.length : Int) - 1) 0, sorted := false }, ?_, ?_, ?_⟩
    · have r1 : rd (v1 ++ va :: vb :: v2) (l1.length : Int) = .ok va := by
        rw [← hv1]
        exact rd_append _ _ _
      have r2 : rd (v1 ++ va :: vb :: v2) ((l1.length : Int) + 1) = .ok vb := by
        rw [← hv1]
        exact rd_append_succ _ _ _ _
      have w1 : wr (v1 ++ va :: vb :: v2) (l1.length : Int) vb = .ok (v1 ++ vb :: vb :: v2) := by
        rw [← hv1]
        exact wr_append _ _ _ _
      have w2 : wr (v1 ++ vb :: vb :: v2) ((l1.length : Int) + 1) va
          = .ok (v1 ++ vb :: va :: v2) := by
        rw [← hv1]
        exact wr_append_succ _ _ _ _ _
      simp only [sortBody, Run.bind_eq, Run.pure_eq, rd_append, rd_append_succ, Run.ok_bind, hlt,
        if_true, wr_append, wr_append_succ, r1, r2, w1, w2]
    · refine ⟨⟨?_, ?_, ?_, ?_⟩, ?_, ?_, ?_⟩
      · simpa using hd
      · simpa using hV
      · exact le_max_right _ _
      · simp only [Bool.false_eq_true, if_false]
        rcases Nat.eq_zero_or_pos l1.length with h0 | h0
        · rw [h0]
          simp
          omega
        · rw [max_eq_left (by omega)]
          omega
      · show (List.zip (l1 ++ b :: a :: l2) (v1 ++ vb :: va :: v2)).Perm _
        rw [hzip] at hperm ⊢
        exact (List.Perm.append_left _ (List.Perm.swap _ _ _)).trans hperm
      · intro x
        have hne : b.re ≠ a.re := fun h => hasym _ _ hlt (h ▸ hlt)
        have key := hstab x
        show (List.zip (l1 ++ b :: a :: l2) (v1 ++ vb :: va :: v2)).filter _ = _
        rw [hzip] at key ⊢
        rw [← key]
        simp only [List.filter_append, List.filter_cons]
        by_cases hb : b.re = x
        · have ha : ¬ a.re = x := fun h => hne (hb.trans h.symm)
          simp [hb, ha]
        · simp [hb]
      · intro hcmp
        have hsort := hsort hcmp
        show ((l1 ++ b :: a :: l2).take ((max ((l1.length : Int) - 1) 0).toNat + 1)).Pairwise _
        rcases Nat.eq_zero_or_pos l1.length with h0 | h0
        · have : l1 = [] := List.length_eq_zero.mp h0
          subst this
          simp
        · have e : (max ((l1.length : Int) - 1) 0).toNat + 1 = l1.length := by
            rw [max_eq_left (by omega)]
            omega
          rw [e, List.take_left' rfl]
          exact (List.pairwise_append.mp hsort).1
    · show 2 * inversions ((l1 ++ b :: a :: l2).map (fun z => z.re))
          + (d0.length - 1 - (max ((l1.length : Int) - 1) 0).toNat)
        < 2 * inversions ((l1 ++ a :: b :: l2).map (fun z => z.re))
          + (d0.length - 1 - ((l1.length : Nat) : Int).toNat)
      have hinv := inversions_swap_of_asymm hasym (l1.map (fun z => z.re)) a.re b.re
        (l2.map (fun z => z.re)) hlt
      simp only [List.map_append, List.map_cons, Int.toNat_ofNat]
      have e : l1.length - 1 ≤ (max ((l1.length : Int) - 1) 0).toNat := by
        have := le_max_left ((l1.length : Int) - 1) 0
        omega
      omega
  · refine ⟨{ d := l1 ++ a :: b :: l2, V := v1 ++ va :: vb :: v2, i := (l1.length : Int) + 1,
              sorted := decide ((l1.length : Int) + 1
                = ((l1 ++ a :: b :: l2).length : Int) - 1) }, ?_, ?_, ?_⟩
    · simp only [sortBody, Run.bind_eq, Run.pure_eq, rd_append, rd_append_succ, Run.ok_bind, hlt,
        if_false]
    · refine ⟨⟨hd, hV, (by show (0 : Int) ≤ (l1.length : Int) + 1; omega), ?_⟩, hperm, hstab,
        ?_⟩
      · show (if decide ((l1.length : Int) + 1 = ((l1 ++ a :: b :: l2).length : Int) - 1) = true
          then (l1.length : Int) + 1 + 1 = d0.length else (l1.length : Int) + 1 + 1 < d0.length)
        rw [hd]
        by_cases h : (l1.length : Int) + 1 = (d0.length : Int) - 1
        · simp only [h, decide_True, if_true]
          omega
        · simp only [h, decide_False, Bool.false_eq_true, if_false]
          omega
      · intro hcmp
        have hsort := hsort hcmp
        show ((l1 ++ a :: b :: l2).take (((l1.length : Int) + 1).toNat + 1)).Pairwise _
        have e : ((l1.length : Int) + 1).toNat + 1 = (l1 ++ [a, b]).length := by
          simp
        have e2 : l1 ++ a :: b :: l2 = (l1 ++ [a, b]) ++ l2 := by simp
        rw [e2, List.take_left' e.symm]
        rw [List.pairwise_append] at hsort ⊢
        obtain ⟨h1, _, h3⟩ := hsort
        have ha0 : a ∈ d0 := hpermd.mem_iff.mp (by simp)
        have hb0 : b ∈ d0 := hpermd.mem_iff.mp (by simp)
        refine ⟨h1, by simp [hlt], ?_⟩
        intro x hx y hy
        have hxa : ¬ a.re < x.re := h3 x hx a (by simp)
        simp only [List.mem_cons, List.mem_singleton, List.not_mem_nil, or_false] at hy
        rcases hy with rfl | rfl
        · exact hxa
        · have hx0 : x ∈ d0 := hpermd.mem_iff.mp (by simp [hx])
          intro hyx
          rcases hcmp x hx0 a ha0 with h | h | h
          · rcases hcmp a ha0 y hb0 with h' | h' | h'
            · exact hasym _ _ (htrans _ _ _ h h') hyx
            · rw [h'] at h
              exact hasym _ _ h hyx
            · exact hlt h'
          · rw [h] at hyx
            exact hlt hyx
          · exact hxa h
    · show 2 * inversions ((l1 ++ a :: b :: l2).map (fun z => z.re))
          + (d0.length - 1 - ((l1.length : Int) + 1).toNat)
        < 2 * inversions ((l1 ++ a :: b :: l2).map (fun z => z.re))
          + (d0.length - 1 - ((l1.length : Nat) : Int).toNat)
      have e : ((l1.length : Int) + 1).toNat = l1.length + 1 := by omega
      rw [e, Int.toNat_ofNat]
      omega

theorem Val.not_lt_of_lt {F : Type} [Preorder F] (a b : Val F) (h : a < b) : ¬ b < a := by
  cases a with
  | nan => exact fun _ => h
  | fin x =>
    cases b with
    | nan => exact fun h' => h'
    | fin y => exact fun h' => lt_asymm (show x < y from h) h'

theorem Val.lt_of_lt_of_lt {F : Type} [Preorder F] (a b c : Val F) (h1 : a < b) (h2 : b < c) :
    a < c := by
  cases a with
  | nan => exact h1.elim
  | fin x =>
    cases b with
    | nan => exact h1.elim
    | fin y =>
      cases c with
      | nan => exact h2.elim
      | fin z => exact lt_trans (show x < y from h1) (show y < z from h2)

end SortPairsFacts

/-! ## The claims -/

/-- C1, the code at `nNodes = 3`: the beta copy loop stops after index 4 (the bound
`3 * nNodes / 2 + 1` is 5 in unsigned arithmetic, whether under `floor` or `ceil`), so row
5 = ⌈9/2⌉ of the returned table has `beta = 0` although row 5 of the input table has
`beta = 25/396`. -/
theorem kronrodRecurrenceCoeff_three_beta_five (fuel : Nat) (hfuel : 5 ≤ fuel) :
    copyBound 3 = 5 ∧
    (∃ out row, kronrodRecurrenceCoeff fuel 3 legendreTable6 = .ok out ∧ rd out 5 = .ok row
      ∧ row.2 = .fin 0) ∧
    (∃ row, rd legendreTable6 5 = .ok row ∧ row.2 = .fin (25/396)) := by
  have h5 : kronrodRecurrenceCoeff 5 3 legendreTable6 = .ok
      [(.fin (1/2), .fin 1), (.fin (1/2), .fin (1/12)), (.fin (1/2), .fin (1/15)),
       (.fin (1/2), .fin (9/140)), (.fin (1/2), .fin (4/63)), (.nan, .fin 0), (.nan, .nan)] := by
    decide!
  have hm := kronrodRecurrenceCoeff_mono 3 legendreTable6 hfuel (by rw [h5]; simp [Run.Settled])
  refine ⟨by decide, ⟨_, (.nan, .fin 0), hm.trans h5, by decide!, rfl⟩,
    ⟨(.fin (1/2), .fin (25/396)), by decide!, rfl⟩⟩

/-- Witness for C1: the budget 5. -/
theorem kronrodRecurrenceCoeff_three_beta_five_witness :
    5 ≤ 5 ∧ copyBound 3 = 5 ∧
    (∃ out row, kronrodRecurrenceCoeff 5 3 legendreTable6 = .ok out ∧ rd out 5 = .ok row
      ∧ row.2 = .fin 0) ∧
    (∃ row, rd legendreTable6 5 = .ok row ∧ row.2 = .fin (25/396)) :=
  ⟨by decide, kronrodRecurrenceCoeff_three_beta_five 5 (by decide)⟩

section C2

variable {K : Type} [Zero K] [One K] [NatCast K] [Add K] [Sub K] [Mul K] [Div K]

/-- C2, the code at `nNodes = 1`: Loop 1 has the bound `nNodes - 1 = 0` and runs no
iteration, but the bound `2 * nNodes - 3` of Loop 2 wraps around to 4294967295, so Loop 2 is
entered with `m = 0`; its first inner iteration reads `sig(2)` of the 2-element array `sig`,
and the run stops there without returning a table. -/
theorem kronrodRecurrenceCoeff_one (fuel : Nat) (ab0 : Table K) (hlen : 3 ≤ ab0.length)
    (hfuel : 2 ≤ fuel) :
    u32 ((1 : Int) - 1) = 0 ∧ u32 (2 * (1 : Int) - 3) = 4294967295 ∧
    (∃ s, passOne fuel 1 ab0 = .ok s ∧ s.sig.length = 2 ∧ s.j = -1 ∧
      loop2Inner 1 { s with temp := 0, k := i32 (u32 ((0 : Int) - 1 + 1)), m := 0 }
        = .fault .indexOutOfRange) ∧
    kronrodRecurrenceCoeff fuel 1 ab0 = .fault .indexOutOfRange := by
  refine ⟨by decide, by decide, ?_, extension_one_fault fuel ab0 (by omega) hfuel⟩
  match ab0, hlen with
  | r0 :: r1 :: rest, _ =>
    refine ⟨_, passOne_one fuel r0 r1 rest hfuel, rfl, rfl, ?_⟩
    simp [u32, i32, rd, wr, loop2Inner]

end C2

/-- Witness for C2: a three-row table of rationals and the budget 2. -/
theorem kronrodRecurrenceCoeff_one_witness :
    (3 ≤ ([(1/2, 1), (1/2, 1/12), (1/2, 1/15)] : Table ℚ).length ∧ 2 ≤ 2) ∧
    (u32 ((1 : Int) - 1) = 0 ∧ u32 (2 * (1 : Int) - 3) = 4294967295 ∧
    (∃ s, passOne 2 1 ([(1/2, 1), (1/2, 1/12), (1/2, 1/15)] : Table ℚ) = .ok s
      ∧ s.sig.length = 2 ∧ s.j = -1 ∧
      loop2Inner 1 { s with temp := 0, k := i32 (u32 ((0 : Int) - 1 + 1)), m := 0 }
        = .fault .indexOutOfRange) ∧
    kronrodRecurrenceCoeff 2 1 ([(1/2, 1), (1/2, 1/12), (1/2, 1/15)] : Table ℚ)
      = .fault .indexOutOfRange) :=
  ⟨⟨by decide, by decide⟩, kronrodRecurrenceCoeff_one 2 _ (by decide) (by decide)⟩

section C3

variable {K : Type} [Zero K] [One K] [NatCast K] [Add K] [Sub K] [Mul K] [Div K]

/-- C3, the code at `nNodes = 1`: the table that `multiPrecisionKronrod` builds has
`2 * nNodes = 2` rows, one fewer than the `ceil(3*n/2) + 1 = 3` rows that `kronrod`
documents for its input; row 2, whose beta the extension starts from, does not exist.  For
`nNodes ≥ 2` the `2 * nNodes` rows suffice. -/
theorem baseTable_one_too_short (lm : Libm K) (junk : Nat → K) (fuel : Nat)
    (hfuel : 2 ≤ fuel) :
    (∃ t, jacobiRecurrenceCoeffZeroToOne lm junk fuel (u32 (2 * ((1 : Nat) : Int))) 0 0 = .ok t
      ∧ t.length = 2 ∧ requiredRows 1 = 3 ∧ rd t 2 = .fault .indexOutOfRange)
    ∧ ∀ n, 2 ≤ n → requiredRows n ≤ 2 * n := by
  obtain ⟨r0, r1, h⟩ := jacobiRecurrenceCoeffZeroToOne_two lm junk fuel 0 0 hfuel
  refine ⟨⟨[r0, r1], ?_, rfl, by decide, by simp [rd]⟩, ?_⟩
  · rw [← h]
    rfl
  · intro n hn
    unfold requiredRows
    omega

end C3

/-- Witness for C3: the rational libm, zeroed memory and the budget 2. -/
theorem baseTable_one_too_short_witness :
    2 ≤ 2 ∧ ((∃ t, jacobiRecurrenceCoeffZeroToOne libmRat (fun _ => 0) 2
        (u32 (2 * ((1 : Nat) : Int))) 0 0 = .ok t
      ∧ t.length = 2 ∧ requiredRows 1 = 3 ∧ rd t 2 = .fault .indexOutOfRange)
    ∧ ∀ n, 2 ≤ n → requiredRows n ≤ 2 * n) :=
  ⟨by decide, baseTable_one_too_short libmRat (fun _ => 0) 2 (by decide)⟩

/-- C4, the code at `nNodes = 3` with the Legendre table on [0,1]: because `beta(5)` was not
copied, the solve for `alpha(5)` divides 0 by 0; rows 5 and 6 of the returned table hold
non-numbers, and the polynomial generated by the returned rows has no value at any point,
while the polynomial `p_3` of the first three base rows is an ordinary cubic. -/
theorem kronrodRecurrenceCoeff_three_legendre (fuel : Nat) (hfuel : 5 ≤ fuel) :
    ∃ out, kronrodRecurrenceCoeff fuel 3 legendreTable6 = .ok out ∧
      out = [(.fin (1/2), .fin 1), (.fin (1/2), .fin (1/12)), (.fin (1/2), .fin (1/15)),
        (.fin (1/2), .fin (9/140)), (.fin (1/2), .fin (4/63)), (.nan, .fin 0), (.nan, .nan)] ∧
      (∀ x : Val ℚ, recurrencePoly x out = .nan) ∧
      (∀ x : ℚ, recurrencePoly (Val.fin x) (legendreTable6.take 3)
        = .fin (((x - 1/2) * ((x - 1/2) * (x - 1/2) - 1/12)) - 1/15 * (x - 1/2))) := by
  have h5 : kronrodRecurrenceCoeff 5 3 legendreTable6 = .ok
      [(.fin (1/2), .fin 1), (.fin (1/2), .fin (1/12)), (.fin (1/2), .fin (1/15)),
       (.fin (1/2), .fin (9/140)), (.fin (1/2), .fin (4/63)), (.nan, .fin 0), (.nan, .nan)] := by
    decide!
  have hm := kronrodRecurrenceCoeff_mono 3 legendreTable6 hfuel (by rw [h5]; simp [Run.Settled])
  refine ⟨_, hm.trans h5, rfl, ?_, ?_⟩
  · intro x
    cases x with
    | nan => rfl
    | fin x => rfl
  · intro x
    simp only [recurrencePoly, threeTerm, legendreTable6, List.take, List.foldl, Val.one_def,
      Val.zero_def, Val.fin_sub_fin, Val.fin_mul_fin]
    congr 1
    ring

/-- Witness for C4: the budget 5. -/
theorem kronrodRecurrenceCoeff_three_legendre_witness :
    5 ≤ 5 ∧ ∃ out, kronrodRecurrenceCoeff 5 3 legendreTable6 = .ok out ∧
      out = [(.fin (1/2), .fin 1), (.fin (1/2), .fin (1/12)), (.fin (1/2), .fin (1/15)),
        (.fin (1/2), .fin (9/140)), (.fin (1/2), .fin (4/63)), (.nan, .fin 0), (.nan, .nan)] ∧
      (∀ x : Val ℚ, recurrencePoly x out = .nan) ∧
      (∀ x : ℚ, recurrencePoly (Val.fin x) (legendreTable6.take 3)
        = .fin (((x - 1/2) * ((x - 1/2) * (x - 1/2) - 1/12)) - 1/15 * (x - 1/2))) :=
  ⟨by decide, kronrodRecurrenceCoeff_three_legendre 5 (by decide)⟩

/-- C5, the code at `nNodes = 3`: the Jacobi–Kronrod matrix that `kronrod` builds from the
extension of the Legendre table on [0,1] has non-numbers as its diagonal entries (5,5) and
(6,6), whatever `sqrt` returns; it has no characteristic polynomial whose roots could be
compared with the seven listed nodes. -/
theorem jacobiKronrodMatrix_three_legendre (lm : Libm (Val ℚ)) (fuel : Nat)
    (hfuel : 6 ≤ fuel) :
    ∃ ab0 J, kronrodRecurrenceCoeff fuel 3 legendreTable6 = .ok ab0 ∧
      jacobiKronrodMatrix lm fuel 3 ab0 = .ok J ∧
      rd2 J 5 5 = .ok .nan ∧ rd2 J 6 6 = .ok .nan := by
  have h5 : kronrodRecurrenceCoeff 5 3 legendreTable6 = .ok
      [(.fin (1/2), .fin 1), (.fin (1/2), .fin (1/12)), (.fin (1/2), .fin (1/15)),
       (.fin (1/2), .fin (9/140)), (.fin (1/2), .fin (4/63)), (.nan, .fin 0), (.nan, .nan)] := by
    decide!
  have hm := kronrodRecurrenceCoeff_mono 3 legendreTable6 (show 5 ≤ fuel by omega)
    (by rw [h5]; simp [Run.Settled])
  obtain ⟨f, rfl⟩ : ∃ f, fuel = f + 6 := ⟨fuel - 6, by omega⟩
  rw [hm.trans h5]
  have key : ∃ J, jacobiKronrodMatrix lm (f + 6) 3
      [(.fin (1/2), .fin 1), (.fin (1/2), .fin (1/12)), (.fin (1/2), .fin (1/15)),
       (.fin (1/2), .fin (9/140)), (.fin (1/2), .fin (4/63)), (.nan, .fin 0), (.nan, .nan)]
        = .ok J ∧ rd2 J 5 5 = .ok .nan ∧ rd2 J 6 6 = .ok .nan := by
    simp [jacobiKronrodMatrix, u32, whileLoop, matrixBody, rd, wr, rd2, wr2, List.replicate,
      whileLoop_done]
  obtain ⟨J, hJ⟩ := key
  exact ⟨_, J, rfl, hJ⟩

/-- Witness for C5: the rational libm and the budget 6. -/
theorem jacobiKronrodMatrix_three_legendre_witness :
    6 ≤ 6 ∧ ∃ ab0 J, kronrodRecurrenceCoeff 6 3 legendreTable6 = .ok ab0 ∧
      jacobiKronrodMatrix libmVal 6 3 ab0 = .ok J ∧
      rd2 J 5 5 = .ok .nan ∧ rd2 J 6 6 = .ok .nan :=
  ⟨by decide, jacobiKronrodMatrix_three_legendre libmVal 6 (by decide)⟩

/-- C6, counterexample: on the eigenvalues 2, NaN, 1 (columns tagged 20, 0, 10) the sorting
loop of `kronrod` stops without a swap, since every comparison with the non-number is false;
the eigenvalues it leaves are not in non-decreasing order (1 comes after 2). -/
theorem insertionSort_nan_counterexample :
    insertionSort 9 ([⟨.fin 2, .fin 0⟩, ⟨.nan, .fin 0⟩, ⟨.fin 1, .fin 0⟩] : List (Cplx (Val ℚ)))
        [[⟨.fin 20, .fin 0⟩], [⟨.fin 0, .fin 0⟩], [⟨.fin 10, .fin 0⟩]]
      = .ok { d := [⟨.fin 2, .fin 0⟩, ⟨.nan, .fin 0⟩, ⟨.fin 1, .fin 0⟩],
              V := [[⟨.fin 20, .fin 0⟩], [⟨.fin 0, .fin 0⟩], [⟨.fin 10, .fin 0⟩]],
              i := 2, sorted := true }
    ∧ (Val.fin 1 : Val ℚ) < Val.fin 2
    ∧ ¬ ([Val.fin 2, Val.nan, Val.fin 1] : List (Val ℚ)).Pairwise (fun a b => ¬ b < a) := by
  refine ⟨?_, ?_, ?_⟩ <;> decide!

section C6

variable {K : Type} [LT K] [DecidableRel (fun a b : K => a < b)] [DecidableEq K]

/-- C6, amended: for every input of `m ≥ 2` eigenvalues `d` paired with `m` eigenvector
columns `V`, compared by a `<` that is asymmetric and transitive (as `<` on doubles is, NaN
included), the sorting loop of `kronrod` returns; the list of (eigenvalue, column) pairs it
leaves is a permutation of the list of input pairs, and for every value `x` the pairs whose
real part is `x` appear in their input order.  When the real parts of the input are pairwise
comparable (no NaN next to a number), the eigenvalues it leaves are in non-decreasing order
of real part. -/
theorem insertionSort_stable (hasym : ∀ a b : K, a < b → ¬ b < a)
    (htrans : ∀ a b c : K, a < b → b < c → a < c) (d : List (Cplx K))
    (V : List (List (Cplx K))) (fuel : Nat) (hm : 2 ≤ d.length) (hV : V.length = d.length)
    (hfuel : d.length * d.length ≤ fuel) :
    ∃ s, insertionSort fuel d V = .ok s ∧
      s.d.length = d.length ∧ s.V.length = d.length ∧
      (List.zip s.d s.V).Perm (List.zip d V) ∧
      (∀ x : K, (List.zip s.d s.V).filter (fun p => decide (p.1.re = x))
        = (List.zip d V).filter (fun p => decide (p.1.re = x))) ∧
      (Comparable d → s.d.Pairwise (fun a b => ¬ b.re < a.re)) := by
  obtain ⟨s, hs, ⟨⟨h1, h2, h3, h4⟩, hperm, hstab, hsort⟩, hc⟩ :=
    whileLoop_total (fun s : SortSt K => !s.sorted) sortBody (SortPairs d V)
      (sortVariant d.length) (sortBody_pairs_step hasym htrans d V hV) fuel
      { d := d, V := V, i := 0, sorted := false }
      ⟨⟨rfl, hV, le_refl _, by
          show (if false = true then (0 : Int) + 1 = d.length else (0 : Int) + 1 < d.length)
          simp only [Bool.false_eq_true, if_false]
          omega⟩,
        List.Perm.refl _, fun _ => rfl, fun _ => by
          show (d.take ((0 : Int).toNat + 1)).Pairwise _
          match d, hm with
          | a :: rest, _ => simp⟩
      (by
        show 2 * inversions (d.map (fun z => z.re)) + (d.length - 1 - (0 : Int).toNat) ≤ fuel
        have := inversions_le_sq (d.map (fun z => z.re))
        simp only [List.length_map] at this
        simp only [Int.toNat_zero]
        omega)
  have hsorted : s.sorted = true := by simpa using hc
  simp only [hsorted, if_true] at h4
  refine ⟨s, hs, h1, h2, hperm, hstab, ?_⟩
  intro hcmp
  have h := hsort hcmp
  have e : s.i.toNat + 1 = s.d.length := by omega
  rw [e, List.take_length] at h
  exact h

end C6

/-- Witness for C6: three eigenvalues 3, 1, 1 with columns tagged 30, 10, 11, as doubles
with the non-number. -/
theorem insertionSort_stable_witness :
    ((∀ a b : Val ℚ, a < b → ¬ b < a) ∧ (∀ a b c : Val ℚ, a < b → b < c → a < c) ∧
      2 ≤ ([⟨.fin 3, .fin 0⟩, ⟨.fin 1, .fin 0⟩, ⟨.fin 1, .fin 0⟩] : List (Cplx (Val ℚ))).length ∧
      ([[⟨.fin 30, .fin 0⟩], [⟨.fin 10, .fin 0⟩], [⟨.fin 11, .fin 0⟩]]
          : List (List (Cplx (Val ℚ)))).length
        = ([⟨.fin 3, .fin 0⟩, ⟨.fin 1, .fin 0⟩, ⟨.fin 1, .fin 0⟩] : List (Cplx (Val ℚ))).length ∧
      ([⟨.fin 3, .fin 0⟩, ⟨.fin 1, .fin 0⟩, ⟨.fin 1, .fin 0⟩] : List (Cplx (Val ℚ))).length
        * ([⟨.fin 3, .fin 0⟩, ⟨.fin 1, .fin 0⟩, ⟨.fin 1, .fin 0⟩]
            : List (Cplx (Val ℚ))).length ≤ 9 ∧
      Comparable ([⟨.fin 3, .fin 0⟩, ⟨.fin 1, .fin 0⟩, ⟨.fin 1, .fin 0⟩]
        : List (Cplx (Val ℚ)))) ∧
    ∃ s, insertionSort 9
        ([⟨.fin 3, .fin 0⟩, ⟨.fin 1, .fin 0⟩, ⟨.fin 1, .fin 0⟩] : List (Cplx (Val ℚ)))
        [[⟨.fin 30, .fin 0⟩], [⟨.fin 10, .fin 0⟩], [⟨.fin 11, .fin 0⟩]] = .ok s ∧
      s.d.length = 3 ∧ s.V.length = 3 ∧
      (List.zip s.d s.V).Perm
        (List.zip ([⟨.fin 3, .fin 0⟩, ⟨.fin 1, .fin 0⟩, ⟨.fin 1, .fin 0⟩]
            : List (Cplx (Val ℚ)))
          [[⟨.fin 30, .fin 0⟩], [⟨.fin 10, .fin 0⟩], [⟨.fin 11, .fin 0⟩]]) ∧
      (∀ x : Val ℚ, (List.zip s.d s.V).filter (fun p => decide (p.1.re = x))
        = (List.zip ([⟨.fin 3, .fin 0⟩, ⟨.fin 1, .fin 0⟩, ⟨.fin 1, .fin 0⟩]
              : List (Cplx (Val ℚ)))
            [[⟨.fin 30, .fin 0⟩], [⟨.fin 10, .fin 0⟩], [⟨.fin 11, .fin 0⟩]]).filter
            (fun p => decide (p.1.re = x))) ∧
      (Comparable ([⟨.fin 3, .fin 0⟩, ⟨.fin 1, .fin 0⟩, ⟨.fin 1, .fin 0⟩]
          : List (Cplx (Val ℚ)))
        → s.d.Pairwise (fun a b => ¬ b.re < a.re)) :=
  ⟨⟨Val.not_lt_of_lt, Val.lt_of_lt_of_lt, by decide, by decide, by decide, by
      unfold Comparable
      decide!⟩,
    insertionSort_stable Val.not_lt_of_lt Val.lt_of_lt_of_lt _ _ 9 (by decide) (by decide) (by decide)⟩

section C7

variable {K : Type} [LinearOrderedField K]

end C7

section C8

variable {K : Type} [Zero K] [One K] [NatCast K] [Add K] [Sub K] [Mul K] [Div K]

/-- C8, the code at `nNodes = 1`: `multiPrecisionKronrod(1)` does not complete; the run stops
in Loop 2 of `kronrodRecurrenceCoeff`, whatever libm and the eigen-solver do. -/
theorem multiPrecisionKronrod_one [LT K] [DecidableRel (fun a b : K => a < b)] (lm : Libm K)
    (junk : Nat → K) (solver : List (List K) → EigenSol K) (fuel : Nat) (hfuel : 2 ≤ fuel) :
    multiPrecisionKronrod lm junk solver fuel 1 = .fault .indexOutOfRange := by
  obtain ⟨r0, r1, h⟩ := jacobiRecurrenceCoeffZeroToOne_two lm junk fuel 0 0 hfuel
  have h2 : u32 (2 * ((1 : Nat) : Int)) = 2 := by decide
  simp only [multiPrecisionKronrod, kronrod, Run.bind_eq, h2, h, Run.ok_bind]
  rw [extension_one_fault fuel [r0, r1] (by simp) hfuel]
  rfl

end C8

/-- Witness for C8: the rational libm, zeroed memory, the diagonal solver and the budget 2. -/
theorem multiPrecisionKronrod_one_witness :
    2 ≤ 2 ∧
    multiPrecisionKronrod libmRat (fun _ => 0) diagonalSolver 2 1 = .fault .indexOutOfRange :=
  ⟨by decide, multiPrecisionKronrod_one libmRat (fun _ => 0) diagonalSolver 2 (by decide)⟩

section C9

variable {K : Type} [Zero K] [One K] [NatCast K] [Add K] [Sub K] [Mul K] [Div K]

end C9

/-- C10: for every `count ≥ 1` and all real `alpha, beta > -1`, with libm's `pow` and
`tgamma` being the real power and the Gamma function, `jacobiRecurrenceCoeff` returns a
table of `count` rows with `beta_0 = mu = 2^(alpha+beta+1) Γ(alpha+1) Γ(beta+1) / Γ(alpha+beta+2) > 0`
and `beta_i > 0` for `1 ≤ i < count`, and `jacobiRecurrenceCoeffZeroToOne` returns a table of
`count` rows all of whose `beta_i` are positive. -/
theorem jacobiRecurrenceCoeff_beta_pos (junk : ℕ → ℝ) (sqrt : ℝ → ℝ) (fuel count : ℕ)
    (alpha beta : ℝ) (hcount : 1 ≤ count) (ha : -1 < alpha) (hb : -1 < beta)
    (hfuel : count ≤ fuel) :
    (∃ t, jacobiRecurrenceCoeff ⟨fun x y => x ^ y, Real.Gamma, sqrt⟩ junk fuel count alpha beta
        = .ok t
      ∧ t.length = count
      ∧ (∃ r, rd t 0 = .ok r ∧ r.2 = 2 ^ (alpha + beta + 1) * Real.Gamma (alpha + 1)
            * Real.Gamma (beta + 1) / Real.Gamma (alpha + beta + 2) ∧ 0 < r.2)
      ∧ ∀ i : ℕ, 1 ≤ i → i < count → ∃ r, rd t i = .ok r ∧ 0 < r.2)
    ∧ (∃ t, jacobiRecurrenceCoeffZeroToOne ⟨fun x y => x ^ y, Real.Gamma, sqrt⟩ junk fuel count
          alpha beta = .ok t
      ∧ t.length = count
      ∧ ∀ i : ℕ, i < count → ∃ r, rd t i = .ok r ∧ 0 < r.2) := by
  have hpos := jacobiTableRow_beta_pos junk sqrt count alpha beta ha hb
  constructor
  · refine ⟨_, jacobiRecurrenceCoeff_eq _ junk fuel count alpha beta hcount hfuel, tab_length _ _,
      ⟨_, rd_tab (i := 0) (le_refl _) (by omega), ?_, hpos 0⟩, ?_⟩
    · show (jacobiTableRow _ junk count alpha beta 0).2 = _
      unfold jacobiTableRow jacobiRow
      split <;> simp
    · intro i _ hi
      exact ⟨_, rd_tab_nat hi, hpos i⟩
  · refine ⟨_, jacobiRecurrenceCoeffZeroToOne_eq _ junk fuel count alpha beta hcount hfuel,
      tab_length _ _, ?_⟩
    intro i hi
    refine ⟨_, rd_tab_nat hi, ?_⟩
    unfold rescaleRow
    by_cases hi0 : i = 0
    · simp only [hi0, if_true]
      exact div_pos (hpos 0) (Real.rpow_pos_of_pos (by norm_num) _)
    · simp only [hi0, if_false]
      exact div_pos (hpos i) (by norm_num)

/-- Witness for C10: the Legendre case with three rows. -/
theorem jacobiRecurrenceCoeff_beta_pos_witness :
    (1 ≤ 3 ∧ (-1 : ℝ) < 0 ∧ 3 ≤ 3) ∧
    ((∃ t, jacobiRecurrenceCoeff ⟨fun x y => x ^ y, Real.Gamma, Real.sqrt⟩ (fun _ => 0) 3 3
        (0 : ℝ) 0 = .ok t
      ∧ t.length = 3
      ∧ (∃ r, rd t 0 = .ok r ∧ r.2 = 2 ^ ((0 : ℝ) + 0 + 1) * Real.Gamma (0 + 1)
            * Real.Gamma (0 + 1) / Real.Gamma (0 + 0 + 2) ∧ 0 < r.2)
      ∧ ∀ i : ℕ, 1 ≤ i → i < 3 → ∃ r, rd t i = .ok r ∧ 0 < r.2)
    ∧ (∃ t, jacobiRecurrenceCoeffZeroToOne ⟨fun x y => x ^ y, Real.Gamma, Real.sqrt⟩
          (fun _ => 0) 3 3 (0 : ℝ) 0 = .ok t
      ∧ t.length = 3
      ∧ ∀ i : ℕ, i < 3 → ∃ r, rd t i = .ok r ∧ 0 < r.2)) :=
  ⟨⟨by norm_num, by norm_num, by norm_num⟩,
    jacobiRecurrenceCoeff_beta_pos (fun _ => 0) Real.sqrt 3 3 0 0 (by norm_num) (by norm_num)
      (by norm_num) (by norm_num)⟩

/-- C11: for every `alpha` and `beta`, `jacobiRecurrenceCoeff(1, alpha, beta)` returns exactly
one row `(nu, mu)` with `nu = (beta - alpha) / (alpha + beta + 2)` and
`mu = 2^(alpha+beta+1) Γ(alpha+1) Γ(beta+1) / Γ(alpha+beta+2)`.  The general index formula is
not evaluated: the result is the same for every number of loop iterations allowed (`fuel`,
zero included) and for every content of fresh memory (`junk`). -/
theorem jacobiRecurrenceCoeff_base_case (junk : ℕ → ℝ) (sqrt : ℝ → ℝ) (fuel : ℕ)
    (alpha beta : ℝ) :
    jacobiRecurrenceCoeff ⟨fun x y => x ^ y, Real.Gamma, sqrt⟩ junk fuel 1 alpha beta
      = .ok [((beta - alpha) / (alpha + beta + 2),
          2 ^ (alpha + beta + 1) * Real.Gamma (alpha + 1) * Real.Gamma (beta + 1)
            / Real.Gamma (alpha + beta + 2))] := by
  simp [jacobiRecurrenceCoeff]

/-- C12: for every `count ≥ 2` and all `alpha`, `beta`, `jacobiRecurrenceCoeff` returns
exactly `count` rows with `alpha_i = (beta² - alpha²) / (s (s + 2))` for `1 ≤ i < count`
(`s = 2 i + alpha + beta`), `beta_0 = mu`,
`beta_1 = 4 (alpha+1) (beta+1) / ((alpha+beta+2)² (alpha+beta+3))`, and
`beta_i = 4 (alpha+i) (beta+i) i (alpha+beta+i) / (s² (s+1) (s-1))` for `2 ≤ i < count`. -/
theorem jacobiRecurrenceCoeff_general_case (junk : ℕ → ℝ) (sqrt : ℝ → ℝ) (fuel count : ℕ)
    (alpha beta : ℝ) (hcount : 2 ≤ count) (hfuel : count ≤ fuel) :
    ∃ t, jacobiRecurrenceCoeff ⟨fun x y => x ^ y, Real.Gamma, sqrt⟩ junk fuel count alpha beta
        = .ok t
      ∧ t.length = count
      ∧ (∀ i : ℕ, 1 ≤ i → i < count → ∃ r, rd t i = .ok r ∧
          r.1 = (beta ^ 2 - alpha ^ 2)
            / ((2 * (i : ℝ) + alpha + beta) * ((2 * (i : ℝ) + alpha + beta) + 2)))
      ∧ (∃ r, rd t 0 = .ok r ∧ r.2 = 2 ^ (alpha + beta + 1) * Real.Gamma (alpha + 1)
            * Real.Gamma (beta + 1) / Real.Gamma (alpha + beta + 2))
      ∧ (∃ r, rd t 1 = .ok r ∧
          r.2 = 4 * (alpha + 1) * (beta + 1) / ((alpha + beta + 2) ^ 2 * (alpha + beta + 3)))
      ∧ (∀ i : ℕ, 2 ≤ i → i < count → ∃ r, rd t i = .ok r ∧
          r.2 = 4 * (alpha + i) * (beta + i) * i * (alpha + beta + i)
            / ((2 * (i : ℝ) + alpha + beta) ^ 2 * ((2 * (i : ℝ) + alpha + beta) + 1)
              * ((2 * (i : ℝ) + alpha + beta) - 1))) := by
  refine ⟨_, jacobiRecurrenceCoeff_eq_tab _ junk fuel count alpha beta hcount hfuel,
    tab_length _ _, ?_, ⟨_, rd_tab (i := 0) (le_refl _) (by omega), ?_⟩,
    ⟨_, rd_tab (i := 1) (by omega) (by omega), ?_⟩, ?_⟩
  · intro i h1 hi
    refine ⟨_, rd_tab_nat hi, ?_⟩
    have hi0 : i ≠ 0 := by omega
    simp [jacobiRow, hi0]
  · simp [jacobiRow]
  · simp [jacobiRow]
  · intro i h2 hi
    refine ⟨_, rd_tab_nat hi, ?_⟩
    have hi0 : i ≠ 0 := by omega
    have hi1 : i ≠ 1 := by omega
    simp only [jacobiRow, hi0, hi1, if_false]
    rw [pow_two]

/-- Witness for C12: the Legendre case with three rows. -/
theorem jacobiRecurrenceCoeff_general_case_witness :
    (2 ≤ 3 ∧ 3 ≤ 3) ∧
    ∃ t, jacobiRecurrenceCoeff ⟨fun x y => x ^ y, Real.Gamma, Real.sqrt⟩ (fun _ => 0) 3 3
        (0 : ℝ) 0 = .ok t
      ∧ t.length = 3
      ∧ (∀ i : ℕ, 1 ≤ i → i < 3 → ∃ r, rd t i = .ok r ∧
          r.1 = ((0 : ℝ) ^ 2 - (0 : ℝ) ^ 2)
            / ((2 * (i : ℝ) + 0 + 0) * ((2 * (i : ℝ) + 0 + 0) + 2)))
      ∧ (∃ r, rd t 0 = .ok r ∧ r.2 = 2 ^ ((0 : ℝ) + 0 + 1) * Real.Gamma (0 + 1)
            * Real.Gamma (0 + 1) / Real.Gamma (0 + 0 + 2))
      ∧ (∃ r, rd t 1 = .ok r ∧
          r.2 = 4 * ((0 : ℝ) + 1) * (0 + 1) / (((0 : ℝ) + 0 + 2) ^ 2 * (0 + 0 + 3)))
      ∧ (∀ i : ℕ, 2 ≤ i → i < 3 → ∃ r, rd t i = .ok r ∧
          r.2 = 4 * ((0 : ℝ) + i) * (0 + i) * i * (0 + 0 + i)
            / ((2 * (i : ℝ) + 0 + 0) ^ 2 * ((2 * (i : ℝ) + 0 + 0) + 1)
              * ((2 * (i : ℝ) + 0 + 0) - 1))) :=
  ⟨⟨by norm_num, by norm_num⟩,
    jacobiRecurrenceCoeff_general_case (fun _ => 0) Real.sqrt 3 3 0 0 (by norm_num)
      (by norm_num)⟩

/-- C13: for every `count ≥ 1` and all `alpha`, `beta`, `jacobiRecurrenceCoeffZeroToOne`
returns a table with as many rows as `jacobiRecurrenceCoeff` (`count` of them), whose rows
are `alpha'_i = (1 + alpha_i) / 2` for every `i`, `beta'_0 = beta_0 / 2^(alpha+beta+1)` and
`beta'_i = beta_i / 4` for `i ≥ 1`. -/
theorem jacobiRecurrenceCoeffZeroToOne_rescale (junk : ℕ → ℝ) (sqrt : ℝ → ℝ) (fuel count : ℕ)
    (alpha beta : ℝ) (hcount : 1 ≤ count) (hfuel : count ≤ fuel) :
    ∃ c t, jacobiRecurrenceCoeff ⟨fun x y => x ^ y, Real.Gamma, sqrt⟩ junk fuel count alpha beta
        = .ok c
      ∧ jacobiRecurrenceCoeffZeroToOne ⟨fun x y => x ^ y, Real.Gamma, sqrt⟩ junk fuel count
          alpha beta = .ok t
      ∧ c.length = count ∧ t.length = count
      ∧ ∀ i : ℕ, i < count → ∃ r r', rd c i = .ok r ∧ rd t i = .ok r'
          ∧ r'.1 = (1 + r.1) / 2
          ∧ r'.2 = if i = 0 then r.2 / 2 ^ (alpha + beta + 1) else r.2 / 4 := by
  refine ⟨_, _, jacobiRecurrenceCoeff_eq _ junk fuel count alpha beta hcount hfuel,
    jacobiRecurrenceCoeffZeroToOne_eq _ junk fuel count alpha beta hcount hfuel,
    tab_length _ _, tab_length _ _, ?_⟩
  intro i hi
  refine ⟨_, _, rd_tab_nat hi, rd_tab_nat hi, rfl, ?_⟩
  by_cases hi0 : i = 0
  · subst hi0
    simp [rescaleRow]
  · simp [rescaleRow, hi0]

/-- Witness for C13: the Legendre case with three rows. -/
theorem jacobiRecurrenceCoeffZeroToOne_rescale_witness :
    (1 ≤ 3 ∧ 3 ≤ 3) ∧
    ∃ c t, jacobiRecurrenceCoeff ⟨fun x y => x ^ y, Real.Gamma, Real.sqrt⟩ (fun _ => 0) 3 3
        (0 : ℝ) 0 = .ok c
      ∧ jacobiRecurrenceCoeffZeroToOne ⟨fun x y => x ^ y, Real.Gamma, Real.sqrt⟩ (fun _ => 0)
          3 3 (0 : ℝ) 0 = .ok t
      ∧ c.length = 3 ∧ t.length = 3
      ∧ ∀ i : ℕ, i < 3 → ∃ r r', rd c i = .ok r ∧ rd t i = .ok r'
          ∧ r'.1 = (1 + r.1) / 2
          ∧ r'.2 = if i = 0 then r.2 / 2 ^ ((0 : ℝ) + 0 + 1) else r.2 / 4 :=
  ⟨⟨by norm_num, by norm_num⟩,
    jacobiRecurrenceCoeffZeroToOne_rescale (fun _ => 0) Real.sqrt 3 3 0 0 (by norm_num)
      (by norm_num)⟩

/-- C14, counterexample: with `count = 2` and `alpha = -1` both Jacobi functions return a
table of two rows; `beta_0` is a non-number (`tgamma` at its pole 0). -/
theorem jacobiRecurrenceCoeff_alpha_minus_one_counterexample :
    jacobiRecurrenceCoeff libmVal (fun _ => .fin 0) 2 2 (.fin (-1)) (.fin 0)
      = .ok [(.fin 0, .nan), (.fin (-1/3), .fin 0)]
    ∧ jacobiRecurrenceCoeffZeroToOne libmVal (fun _ => .fin 0) 2 2 (.fin (-1)) (.fin 0)
      = .ok [(.fin (1/2), .nan), (.fin (1/3), .fin 0)] := by
  refine ⟨?_, ?_⟩ <;> decide!

section C14

variable {K : Type} [Zero K] [One K] [NatCast K] [Add K] [Sub K] [Mul K] [Div K]

/-- C14, amended: no parameter is checked.  For every `count ≥ 1` and all `alpha`, `beta`
(`alpha ≤ -1` or `beta ≤ -1` included) `jacobiRecurrenceCoeff` and
`jacobiRecurrenceCoeffZeroToOne` return a table of `count` rows.  With `count = 0` they
return no table, and neither do `kronrodRecurrenceCoeff(0, ·)` and
`multiPrecisionKronrod(0)`, because an array access is out of range after the arrays have
been created, not because a parameter is examined. -/
theorem jacobiRecurrenceCoeff_unchecked [LT K] [DecidableRel (fun a b : K => a < b)]
    (lm : Libm K) (junk : Nat → K) (solver : List (List K) → EigenSol K) (fuel count : Nat)
    (alpha beta : K) (ab0 : Table K) (hcount : 1 ≤ count) (hfuel : count ≤ fuel) :
    (∃ t, jacobiRecurrenceCoeff lm junk fuel count alpha beta = .ok t ∧ t.length = count)
    ∧ (∃ t, jacobiRecurrenceCoeffZeroToOne lm junk fuel count alpha beta = .ok t
        ∧ t.length = count)
    ∧ jacobiRecurrenceCoeff lm junk fuel 0 alpha beta = .fault .indexOutOfRange
    ∧ jacobiRecurrenceCoeffZeroToOne lm junk fuel 0 alpha beta = .fault .indexOutOfRange
    ∧ kronrodRecurrenceCoeff fuel 0 ab0 = .fault .indexOutOfRange
    ∧ multiPrecisionKronrod lm junk solver fuel 0 = .fault .indexOutOfRange := by
  refine ⟨⟨_, jacobiRecurrenceCoeff_eq lm junk fuel count alpha beta hcount hfuel,
      tab_length _ _⟩,
    ⟨_, jacobiRecurrenceCoeffZeroToOne_eq lm junk fuel count alpha beta hcount hfuel,
      tab_length _ _⟩,
    jacobiRecurrenceCoeff_zero_fault lm junk fuel alpha beta, ?_,
    extension_zero_fault fuel ab0 (by omega), ?_⟩
  · simp only [jacobiRecurrenceCoeffZeroToOne, Run.bind_eq,
      jacobiRecurrenceCoeff_zero_fault lm junk fuel alpha beta, Run.fault_bind]
  · have h0 : u32 (2 * ((0 : Nat) : Int)) = 0 := by decide
    simp only [multiPrecisionKronrod, jacobiRecurrenceCoeffZeroToOne, Run.bind_eq, h0,
      jacobiRecurrenceCoeff_zero_fault lm junk fuel 0 0, Run.fault_bind]

end C14

/-- Witness for C14: `count = 2`, `alpha = -1`, `beta = 0` with the rational libm on `Val ℚ`,
zeroed memory and the Legendre table. -/
theorem jacobiRecurrenceCoeff_unchecked_witness :
    (1 ≤ 2 ∧ 2 ≤ 2) ∧
    ((∃ t, jacobiRecurrenceCoeff libmVal (fun _ => .fin 0) 2 2 (.fin (-1)) (.fin 0) = .ok t
        ∧ t.length = 2)
    ∧ (∃ t, jacobiRecurrenceCoeffZeroToOne libmVal (fun _ => .fin 0) 2 2 (.fin (-1)) (.fin 0)
        = .ok t ∧ t.length = 2)
    ∧ jacobiRecurrenceCoeff libmVal (fun _ => .fin 0) 2 0 (.fin (-1)) (.fin 0)
        = .fault .indexOutOfRange
    ∧ jacobiRecurrenceCoeffZeroToOne libmVal (fun _ => .fin 0) 2 0 (.fin (-1)) (.fin 0)
        = .fault .indexOutOfRange
    ∧ kronrodRecurrenceCoeff 2 0 legendreTable6 = .fault .indexOutOfRange
    ∧ multiPrecisionKronrod libmVal (fun _ => .fin 0)
        (fun _ => ({ d := [], V := [] } : EigenSol (Val ℚ))) 2 0 = .fault .indexOutOfRange) :=
  ⟨⟨by decide, by decide⟩,
    jacobiRecurrenceCoeff_unchecked libmVal (fun _ => .fin 0) (fun _ => { d := [], V := [] })
      2 2 (.fin (-1)) (.fin 0) legendreTable6 (by decide) (by decide)⟩

/-- C16: for the Legendre table on [0,1] with rows (1/2, 1), (1/2, 1/12), (1/2, 1/15),
(1/2, 9/140), `kronrodRecurrenceCoeff(2, table)` returns in exact rational arithmetic exactly
the five rows (1/2, 1), (1/2, 1/12), (1/2, 1/15), (1/2, 9/140), (1/2, 1/12).  The monic
polynomial that these rows generate by the three-term recurrence, and the characteristic
polynomial `det(t I - J)` of the Jacobi–Kronrod matrix `J` that `kronrod` builds from them
(real `sqrt`), taken at `t = (x + 1) / 2` and scaled by `2^5`, are `x (x² - 1/3) (x² - 6/7)`. -/
theorem kronrodRecurrenceCoeff_two_legendre (fuel : Nat) (hfuel : 4 ≤ fuel) :
    (∃ out, kronrodRecurrenceCoeff fuel 2
        [(.fin (1/2), .fin 1), (.fin (1/2), .fin (1/12)), (.fin (1/2), .fin (1/15)),
          (.fin (1/2), (.fin (9/140) : Val ℚ))] = .ok out ∧
      out = [(.fin (1/2), .fin 1), (.fin (1/2), .fin (1/12)), (.fin (1/2), .fin (1/15)),
        (.fin (1/2), .fin (9/140)), (.fin (1/2), .fin (1/12))] ∧
      ∀ x : ℚ, (32 : Val ℚ) * recurrencePoly (Val.fin ((x + 1) / 2)) out
        = .fin (x * (x ^ 2 - 1/3) * (x ^ 2 - 6/7)))
    ∧ ∃ J, jacobiKronrodMatrix ⟨fun x y => x ^ y, Real.Gamma, Real.sqrt⟩ fuel 2
          [(1/2, 1), (1/2, 1/12), (1/2, 1/15), (1/2, 9/140), (1/2, 1/12)] = .ok J ∧
        ∀ x : ℝ, 32 * Matrix.det (Matrix.of fun (i j : Fin 5) =>
            (if i = j then (x + 1) / 2 else 0) - ent J i j)
          = x * (x ^ 2 - 1/3) * (x ^ 2 - 6/7) := by
  have h4 : kronrodRecurrenceCoeff 4 2
      [(.fin (1/2), .fin 1), (.fin (1/2), .fin (1/12)), (.fin (1/2), .fin (1/15)),
        (.fin (1/2), (.fin (9/140) : Val ℚ))]
      = .ok [(.fin (1/2), .fin 1), (.fin (1/2), .fin (1/12)), (.fin (1/2), .fin (1/15)),
        (.fin (1/2), .fin (9/140)), (.fin (1/2), .fin (1/12))] := by
    decide!
  have hm := kronrodRecurrenceCoeff_mono 2 _ hfuel (by rw [h4]; simp [Run.Settled])
  have hJ := jacobiKronrodMatrix_two_rows ⟨fun x y => x ^ y, Real.Gamma, Real.sqrt⟩ fuel hfuel
  dsimp only at hJ
  refine ⟨⟨_, hm.trans h4, rfl, ?_⟩, ⟨_, hJ, ?_⟩⟩
  swap
  · intro x
    exact charpoly_two_rows Real.sqrt (fun b hb => Real.sq_sqrt hb) x
  intro x
  have e32 : (32 : Val ℚ) = .fin 32 := rfl
  simp only [recurrencePoly, threeTerm, List.foldl, Val.one_def, Val.zero_def, Val.fin_sub_fin,
    Val.fin_mul_fin, e32]
  congr 1
  ring

/-- Witness for C16: the budget 4. -/
theorem kronrodRecurrenceCoeff_two_legendre_witness :
    4 ≤ 4 ∧
    ((∃ out, kronrodRecurrenceCoeff 4 2
        [(.fin (1/2), .fin 1), (.fin (1/2), .fin (1/12)), (.fin (1/2), .fin (1/15)),
          (.fin (1/2), (.fin (9/140) : Val ℚ))] = .ok out ∧
      out = [(.fin (1/2), .fin 1), (.fin (1/2), .fin (1/12)), (.fin (1/2), .fin (1/15)),
        (.fin (1/2), .fin (9/140)), (.fin (1/2), .fin (1/12))] ∧
      ∀ x : ℚ, (32 : Val ℚ) * recurrencePoly (Val.fin ((x + 1) / 2)) out
        = .fin (x * (x ^ 2 - 1/3) * (x ^ 2 - 6/7)))
    ∧ ∃ J, jacobiKronrodMatrix ⟨fun x y => x ^ y, Real.Gamma, Real.sqrt⟩ 4 2
          [(1/2, 1), (1/2, 1/12), (1/2, 1/15), (1/2, 9/140), (1/2, 1/12)] = .ok J ∧
        ∀ x : ℝ, 32 * Matrix.det (Matrix.of fun (i j : Fin 5) =>
            (if i = j then (x + 1) / 2 else 0) - ent J i j)
          = x * (x ^ 2 - 1/3) * (x ^ 2 - 6/7)) :=
  ⟨by decide, kronrodRecurrenceCoeff_two_legendre 4 (by decide)⟩

/-- C17: for real `alpha, beta > -1` the loop of `jacobiRecurrenceCoeff` stores at `n = 1`
the general expression `4 (alpha+1) (beta+1) 1 (alpha+beta+1) / (s² (s+1) (s-1))` with
`s = 2 + alpha + beta` into `B(1)`, and the returned `beta_1` is the special value
`4 (alpha+1) (beta+1) / ((alpha+beta+2)² (alpha+beta+3))` that overrides it.  When
`alpha + beta + 1 ≠ 0` the two are equal; when `alpha + beta + 1 = 0` the denominator of the
general expression is zero while the denominator of the special value is not. -/
theorem jacobiRecurrenceCoeff_beta_one (junk : ℕ → ℝ) (sqrt : ℝ → ℝ) (fuel count : ℕ)
    (alpha beta : ℝ) (A B : List ℝ) (ha : -1 < alpha) (hb : -1 < beta) (hA : 2 ≤ A.length)
    (hB : 2 ≤ B.length) (hcount : 2 ≤ count) (hfuel : count ≤ fuel) :
    (∃ s, jacobiBody ⟨fun x y => x ^ y, Real.Gamma, sqrt⟩ alpha beta { A := A, B := B, n := 1 }
        = .ok s
      ∧ rd s.B 1 = .ok (4 * (alpha + 1) * (beta + 1) * 1 * (alpha + beta + 1)
          / (((2 + alpha + beta) * (2 + alpha + beta)) * ((2 + alpha + beta) + 1)
            * ((2 + alpha + beta) - 1))))
    ∧ (∃ t r, jacobiRecurrenceCoeff ⟨fun x y => x ^ y, Real.Gamma, sqrt⟩ junk fuel count alpha
          beta = .ok t
        ∧ rd t 1 = .ok r
        ∧ r.2 = 4 * (alpha + 1) * (beta + 1) / ((alpha + beta + 2) ^ 2 * (alpha + beta + 3)))
    ∧ (alpha + beta + 1 ≠ 0 →
        4 * (alpha + 1) * (beta + 1) * 1 * (alpha + beta + 1)
          / (((2 + alpha + beta) * (2 + alpha + beta)) * ((2 + alpha + beta) + 1)
            * ((2 + alpha + beta) - 1))
        = 4 * (alpha + 1) * (beta + 1) / ((alpha + beta + 2) ^ 2 * (alpha + beta + 3)))
    ∧ (alpha + beta + 1 = 0 →
        ((2 + alpha + beta) * (2 + alpha + beta)) * ((2 + alpha + beta) + 1)
            * ((2 + alpha + beta) - 1) = 0
        ∧ (alpha + beta + 2) ^ 2 * (alpha + beta + 3) ≠ 0) := by
  have h2 : alpha + beta + 2 ≠ 0 := by
    have : 0 < alpha + beta + 2 := by linarith
    exact ne_of_gt this
  have h3 : alpha + beta + 3 ≠ 0 := by
    have : 0 < alpha + beta + 3 := by linarith
    exact ne_of_gt this
  refine ⟨?_, ⟨_, _, jacobiRecurrenceCoeff_eq_tab _ junk fuel count alpha beta hcount hfuel,
    rd_tab (i := 1) (by omega) (by omega), by simp [jacobiRow]⟩, ?_, ?_⟩
  · have hA1 : (1 : Int) < A.length := by omega
    have hB1 : (1 : Int) < B.length := by omega
    have hB2 : 1 < B.length := by omega
    generalize hr : jacobiBody ⟨fun x y => x ^ y, Real.Gamma, sqrt⟩ alpha beta
      { A := A, B := B, n := 1 } = r
    simp (disch := omega) only [jacobiBody, Run.bind_eq, Run.pure_eq, Nat.cast_one,
      wr_of_lt, Run.ok_bind] at hr
    subst hr
    refine ⟨_, rfl, ?_⟩
    rw [rd_of_lt (0 : ℝ) (by omega) (by simpa using hB1)]
    simp [List.getD_eq_getElem?_getD, List.getElem?_set, hB2]
  · intro h1
    have e1 : (2 + alpha + beta) - 1 = alpha + beta + 1 := by ring
    have e2 : (2 + alpha + beta) + 1 = alpha + beta + 3 := by ring
    have e3 : (2 + alpha + beta) = alpha + beta + 2 := by ring
    rw [e1, e2, e3]
    field_simp
    ring
  · intro h0
    refine ⟨?_, mul_ne_zero (pow_ne_zero _ h2) h3⟩
    have e1 : (2 + alpha + beta) - 1 = alpha + beta + 1 := by ring
    rw [e1, h0, mul_zero]

/-- Witness for C17: the Legendre case `alpha = beta = 0` on two-element arrays, and the
Chebyshev case `alpha = beta = -1/2`, where `alpha + beta + 1 = 0`. -/
theorem jacobiRecurrenceCoeff_beta_one_witness :
    (((-1 : ℝ) < 0 ∧ 2 ≤ ([0, 0] : List ℝ).length ∧ 2 ≤ 2) ∧
    ((∃ s, jacobiBody ⟨fun x y => x ^ y, Real.Gamma, Real.sqrt⟩ (0 : ℝ) 0
        { A := [0, 0], B := [0, 0], n := 1 } = .ok s
      ∧ rd s.B 1 = .ok (4 * ((0 : ℝ) + 1) * (0 + 1) * 1 * (0 + 0 + 1)
          / (((2 + 0 + 0) * (2 + 0 + 0)) * ((2 + 0 + 0) + 1) * ((2 + 0 + 0) - 1))))
    ∧ (∃ t r, jacobiRecurrenceCoeff ⟨fun x y => x ^ y, Real.Gamma, Real.sqrt⟩ (fun _ => 0) 2 2
          (0 : ℝ) 0 = .ok t
        ∧ rd t 1 = .ok r
        ∧ r.2 = 4 * ((0 : ℝ) + 1) * (0 + 1) / (((0 : ℝ) + 0 + 2) ^ 2 * (0 + 0 + 3)))
    ∧ ((0 : ℝ) + 0 + 1 ≠ 0 →
        4 * ((0 : ℝ) + 1) * (0 + 1) * 1 * (0 + 0 + 1)
          / (((2 + 0 + 0) * (2 + 0 + 0)) * ((2 + 0 + 0) + 1) * ((2 + 0 + 0) - 1))
        = 4 * ((0 : ℝ) + 1) * (0 + 1) / (((0 : ℝ) + 0 + 2) ^ 2 * (0 + 0 + 3)))
    ∧ ((0 : ℝ) + 0 + 1 = 0 →
        (((2 : ℝ) + 0 + 0) * (2 + 0 + 0)) * ((2 + 0 + 0) + 1) * ((2 + 0 + 0) - 1) = 0
        ∧ ((0 : ℝ) + 0 + 2) ^ 2 * (0 + 0 + 3) ≠ 0)))
    ∧ (((-1 : ℝ) < -1/2 ∧ (-1/2 : ℝ) + -1/2 + 1 = 0) ∧
      (((2 : ℝ) + -1/2 + -1/2) * (2 + -1/2 + -1/2)) * ((2 + -1/2 + -1/2) + 1)
          * ((2 + -1/2 + -1/2) - 1) = 0
      ∧ ((-1/2 : ℝ) + -1/2 + 2) ^ 2 * (-1/2 + -1/2 + 3) ≠ 0) :=
  ⟨⟨⟨by norm_num, by simp, by norm_num⟩,
    jacobiRecurrenceCoeff_beta_one (fun _ => 0) Real.sqrt 2 2 0 0 [0, 0] [0, 0] (by norm_num)
      (by norm_num) (by simp) (by simp) (by norm_num) (by norm_num)⟩,
   ⟨by norm_num, by norm_num⟩,
    (jacobiRecurrenceCoeff_beta_one (fun _ => 0) Real.sqrt 2 2 (-1/2) (-1/2) [0, 0] [0, 0]
      (by norm_num) (by norm_num) (by simp) (by simp) (by norm_num) (by norm_num)).2.2.2
      (by norm_num)⟩

section C18

variable {K : Type} [Zero K] [Add K] [Sub K] [Mul K] [Div K]

end C18

section C19

variable {K : Type} [LT K] [DecidableRel (fun a b : K => a < b)]

/-- C19: for every list `d` of `m ≥ 2` eigenvalues (with its `m` eigenvector columns `V`),
compared by a `<` that is asymmetric, the sorting loop of `kronrod` stops after at most `m²`
passes with `i = m - 1`; and at the head of every pass, that is at every comparison of `d(i)`
with `d(i + 1)`, the index satisfies `0 ≤ i ≤ m - 2` and both reads are in range. -/
theorem insertionSort_terminates (hasym : ∀ a b : K, a < b → ¬ b < a) (d : List (Cplx K))
    (V : List (List (Cplx K))) (fuel : Nat) (hm : 2 ≤ d.length) (hV : V.length = d.length)
    (hfuel : d.length * d.length ≤ fuel) :
    (∃ s, insertionSort fuel d V = .ok s ∧ s.sorted = true ∧ s.i = (d.length : Int) - 1)
    ∧ ∀ k : Nat, ∃ s,
        loopPrefix (fun s : SortSt K => !s.sorted) sortBody k
          { d := d, V := V, i := 0, sorted := false } = .ok s
        ∧ s.d.length = d.length
        ∧ (s.sorted = true → s.i = (d.length : Int) - 1)
        ∧ (s.sorted = false → 0 ≤ s.i ∧ s.i ≤ (d.length : Int) - 2
            ∧ ∃ x y, rd s.d s.i = .ok x ∧ rd s.d (s.i + 1) = .ok y) := by
  have h0 : SortIdx d.length ({ d := d, V := V, i := 0, sorted := false } : SortSt K) :=
    ⟨rfl, hV, le_refl _, by
      show (if false = true then (0 : Int) + 1 = d.length else (0 : Int) + 1 < d.length)
      simp only [Bool.false_eq_true, if_false]
      omega⟩
  constructor
  · obtain ⟨s, hs, hI, hc⟩ := whileLoop_total (fun s : SortSt K => !s.sorted)
      sortBody (SortIdx d.length) (sortVariant d.length)
      (sortBody_index_step hasym d.length) fuel
      { d := d, V := V, i := 0, sorted := false } h0
      (by
        show 2 * inversions (d.map (fun z => z.re)) + (d.length - 1 - (0 : Int).toNat) ≤ fuel
        have := inversions_le_sq (d.map (fun z => z.re))
        simp only [List.length_map] at this
        simp only [Int.toNat_zero]
        omega)
    have hsorted : s.sorted = true := by simpa using hc
    obtain ⟨_, _, _, h4⟩ := hI
    simp only [hsorted, if_true] at h4
    exact ⟨s, hs, hsorted, by omega⟩
  · intro k
    obtain ⟨s, hs, h1, h2, h3, h4⟩ := loopPrefix_inv (fun s : SortSt K => !s.sorted) sortBody
      (SortIdx d.length)
      (fun s hI hc => by
        obtain ⟨s', hb, hI', _⟩ := sortBody_index_step hasym d.length s hI hc
        exact ⟨s', hb, hI'⟩)
      k _ h0
    refine ⟨s, hs, h1, ?_, ?_⟩
    · intro hsorted
      simp only [hsorted, if_true] at h4
      omega
    · intro hsorted
      simp only [hsorted, Bool.false_eq_true, if_false] at h4
      obtain ⟨x, hx⟩ := rd_exists (a := s.d) h3 (by omega)
      obtain ⟨y, hy⟩ := rd_exists (a := s.d) (i := s.i + 1) (by omega) (by omega)
      exact ⟨h3, by omega, x, y, hx, hy⟩

end C19

/-- Witness for C19: three rational eigenvalues in decreasing order. -/
theorem insertionSort_terminates_witness :
    ((∀ a b : ℚ, a < b → ¬ b < a)
      ∧ 2 ≤ ([⟨3, 0⟩, ⟨2, 0⟩, ⟨1, 0⟩] : List (Cplx ℚ)).length
      ∧ ([[], [], []] : List (List (Cplx ℚ))).length
          = ([⟨3, 0⟩, ⟨2, 0⟩, ⟨1, 0⟩] : List (Cplx ℚ)).length
      ∧ ([⟨3, 0⟩, ⟨2, 0⟩, ⟨1, 0⟩] : List (Cplx ℚ)).length
          * ([⟨3, 0⟩, ⟨2, 0⟩, ⟨1, 0⟩] : List (Cplx ℚ)).length ≤ 9)
    ∧ ((∃ s, insertionSort 9 ([⟨3, 0⟩, ⟨2, 0⟩, ⟨1, 0⟩] : List (Cplx ℚ)) [[], [], []] = .ok s
        ∧ s.sorted = true
        ∧ s.i = (([⟨3, 0⟩, ⟨2, 0⟩, ⟨1, 0⟩] : List (Cplx ℚ)).length : Int) - 1)
      ∧ ∀ k : Nat, ∃ s,
        loopPrefix (fun s : SortSt ℚ => !s.sorted) sortBody k
          { d := [⟨3, 0⟩, ⟨2, 0⟩, ⟨1, 0⟩], V := [[], [], []], i := 0, sorted := false } = .ok s
        ∧ s.d.length = ([⟨3, 0⟩, ⟨2, 0⟩, ⟨1, 0⟩] : List (Cplx ℚ)).length
        ∧ (s.sorted = true
            → s.i = (([⟨3, 0⟩, ⟨2, 0⟩, ⟨1, 0⟩] : List (Cplx ℚ)).length : Int) - 1)
        ∧ (s.sorted = false → 0 ≤ s.i
            ∧ s.i ≤ (([⟨3, 0⟩, ⟨2, 0⟩, ⟨1, 0⟩] : List (Cplx ℚ)).length : Int) - 2
            ∧ ∃ x y, rd s.d s.i = .ok x ∧ rd s.d (s.i + 1) = .ok y)) :=
  ⟨⟨fun _ _ h => lt_asymm h, by decide, by decide, by decide⟩,
    insertionSort_terminates (fun _ _ h => lt_asymm h) _ _ 9 (by decide) (by decide)
      (by decide)⟩

end Kronrod
